import Mathlib

/-!
# F0-MorseCodePlus: the Morse worker (decode engine and playback engine)

A shallow embedding of `src/morse_code_worker.c`, and of the model and main
loop of the app in `src/morse_code_plus.c`.

* Characters are Lean `Char`s, C strings are `List Char` (the bytes before the
  terminating NUL).
* `uint32_t` values are `Nat`s; every place where the C code computes in
  32 bits carries an explicit `u32` (reduction modulo `2^32`).
* The decode thread `morse_code_worker_thread_callback` is modelled by its loop
  body `tick`; what one iteration reads from outside (the tick counter, the
  result of acquiring the speaker) is a `TickInput`.
* The registered callback is modelled by the log `calls` of the accumulator
  snapshots it has been invoked with.
* The playback thread `morse_code_worker_playback_thread` is modelled by the
  trace of its actions; what it reads from outside (the flag `pb_cancel` at each
  check, the result of each acquisition of the speaker) is a `PbEnv`. Its
  sliced loops take fuel, and the theorems show that the fuel suffices.
* The outcome of a playback run under an arbitrary cancel flag is stated
  against the script of the text (`text_script`), the list of the checkpoints
  and actions of the run, written down without the loops of the thread.
* The main loop of the app is modelled by one iteration `app_event`, which
  returns the new model and the worker calls it makes.
-/

namespace MorseCode

/-! ## Machine integers -/

/-- Reduction of a natural number to an `uint32_t` value. -/
def u32 (n : Nat) : Nat := n % 4294967296

/-- The `uint32_t` subtraction `a - b` (wrapping). -/
def u32_sub (a b : Nat) : Nat := (a % 4294967296 + 4294967296 - b % 4294967296) % 4294967296

/-! ## Symbol table (`morse_array`, `symbol_array`) -/

/-- The table `morse_array[36][6]`: the code strings, in index order. -/
def morse_array : List (List Char) :=
  [ ['.','-'], ['-','.','.','.'], ['-','.','-','.'], ['-','.','.'], ['.'], ['.','.','-','.'],
    ['-','-','.'], ['.','.','.','.'], ['.','.'], ['.','-','-','-'], ['-','.','-'], ['.','-','.','.'],
    ['-','-'], ['-','.'], ['-','-','-'], ['.','-','-','.'], ['-','-','.','-'], ['.','-','.'],
    ['.','.','.'], ['-'], ['.','.','-'], ['.','.','.','-'], ['.','-','-'], ['-','.','.','-'],
    ['-','.','-','-'], ['-','-','.','.'], ['.','-','-','-','-'], ['.','.','-','-','-'],
    ['.','.','.','-','-'], ['.','.','.','.','-'],
    ['.','.','.','.','.'], ['-','.','.','.','.'], ['-','-','.','.','.'], ['-','-','-','.','.'],
    ['-','-','-','-','.'], ['-','-','-','-','-'] ]

/-- The table `symbol_array[36]`: the characters, in index order. -/
def symbol_array : List Char :=
  [ 'A','B','C','D','E','F','G','H','I','J','K','L',
    'M','N','O','P','Q','R','S','T','U','V','W','X',
    'Y','Z','1','2','3','4','5','6','7','8','9','0' ]

/-! ## The worker instance and the decode thread -/

/-- The fields of `struct MorseCodeWorker` used on the live-keying decode path,
and the flag `pb_running` of the playback run. `callback` records whether a
callback is registered (non-NULL); `calls` is the log of the accumulator
snapshots the callback has been invoked with. -/
structure MorseCodeWorker where
  play : Bool
  dit_delta : Nat
  buffer : List Char
  words : List Char
  callback : Bool
  calls : List (List Char)
  pb_running : Bool
deriving DecidableEq, Repr

/-- The decode thread: the worker instance together with the local variables of
`morse_code_worker_thread_callback`, and `speaker` for
`furi_hal_speaker_is_mine()`. -/
structure DecodeThread where
  inst : MorseCodeWorker
  was_playing : Bool
  start_tick : Nat
  end_tick : Nat
  pushed : Bool
  spaced : Bool
  speaker : Bool
deriving DecidableEq, Repr

/-- What one iteration of the decode loop reads from its environment:
the result of `furi_hal_speaker_acquire(1000)` (used on a key-down) and the
three readings of `furi_get_tick()` (key edge, letter check, word-space
check), each an `uint32_t` value. -/
structure TickInput where
  acquire : Bool
  t_edge : Nat
  t_letter : Nat
  t_space : Nat
deriving DecidableEq, Repr

/-- The function `morse_code_worker_fill_buffer`: classify a key-up duration. -/
def morse_code_worker_fill_buffer (w : MorseCodeWorker) (duration : Nat) : MorseCodeWorker :=
  let b :=
    if duration ≤ w.dit_delta then w.buffer ++ ['.']
    else if duration ≤ u32 (w.dit_delta * 3) then w.buffer ++ ['-']
    else []
  { w with buffer := if b.length > 5 then [] else b }

/-- The scan `for(i = 0; i < 36; i++) if(cmp(buffer, morse_array[i]) == 0) ...`
of `morse_code_worker_fill_letter`, over the two parallel tables: the symbol at
the first index whose code equals the buffer. -/
def fill_letter_scan (buffer : List Char) : List (List Char) → List Char → Option Char
  | m :: ms, s :: ss => if buffer = m then some s else fill_letter_scan buffer ms ss
  | _, _ => none

/-- The function `morse_code_worker_fill_letter`: reset an over-long accumulator,
append the decoded symbol if the buffer matches a code, clear the buffer. -/
def morse_code_worker_fill_letter (w : MorseCodeWorker) : MorseCodeWorker :=
  let words := if w.words.length > 63 then [] else w.words
  let words :=
    match fill_letter_scan w.buffer morse_array symbol_array with
    | some c => words ++ [c]
    | none => words
  { w with words := words, buffer := [] }

/-- The statement `if(instance->callback) instance->callback(instance->words, ctx)`. -/
def invoke_callback (w : MorseCodeWorker) : MorseCodeWorker :=
  if w.callback then { w with calls := w.calls ++ [w.words] } else w

/-- Lines 90-111 of the decode loop: key-down and key-up edges. -/
def tick_keying (s : DecodeThread) (i : TickInput) : DecodeThread :=
  if s.inst.play then
    if !s.was_playing then
      { s with start_tick := i.t_edge, speaker := i.acquire, was_playing := true }
    else s
  else
    if s.was_playing then
      { s with
        pushed := false
        spaced := false
        speaker := false
        end_tick := i.t_edge
        was_playing := false
        inst := morse_code_worker_fill_buffer s.inst (u32_sub i.t_edge s.start_tick)
        start_tick := 0 }
    else s

/-- The test `end_tick + (dit_delta * 3) < furi_get_tick()` in 32 bits. -/
def letter_due (end_tick dit_delta now : Nat) : Bool :=
  decide (u32 (end_tick + u32 (dit_delta * 3)) < now)

/-- The test `end_tick + (dit_delta * 7) < furi_get_tick()` in 32 bits. -/
def space_due (end_tick dit_delta now : Nat) : Bool :=
  decide (u32 (end_tick + u32 (dit_delta * 7)) < now)

/-- Lines 113-124 of the decode loop: the letter flush. -/
def tick_letter (s : DecodeThread) (i : TickInput) : DecodeThread :=
  if !s.pushed then
    if letter_due s.end_tick s.inst.dit_delta i.t_letter then
      if s.inst.buffer ≠ [] then
        { s with inst := invoke_callback (morse_code_worker_fill_letter s.inst), pushed := true }
      else
        { s with spaced := true, pushed := true }
    else s
  else s

/-- Lines 125-132 of the decode loop: the word space. -/
def tick_space (s : DecodeThread) (i : TickInput) : DecodeThread :=
  if !s.spaced then
    if space_due s.end_tick s.inst.dit_delta i.t_space then
      { s with
        inst := invoke_callback { s.inst with words := s.inst.words ++ [' '] }
        spaced := true }
    else s
  else s

/-- One iteration of the loop of `morse_code_worker_thread_callback`. -/
def tick (s : DecodeThread) (i : TickInput) : DecodeThread :=
  tick_space (tick_letter (tick_keying s i) i) i

/-- The function `morse_code_worker_alloc`, as far as the decode path goes. -/
def morse_code_worker_alloc : MorseCodeWorker :=
  { play := false, dit_delta := 150, buffer := [], words := [], callback := false, calls := [],
    pb_running := false }

/-- The decode thread at its start: the locals as initialised in
`morse_code_worker_thread_callback`. -/
def thread_start (w : MorseCodeWorker) : DecodeThread :=
  { inst := w, was_playing := false, start_tick := 0, end_tick := 0,
    pushed := true, spaced := true, speaker := false }

/-- The function `morse_code_worker_play`. -/
def morse_code_worker_play (w : MorseCodeWorker) (play : Bool) : MorseCodeWorker :=
  { w with play := play }

/-- The function `morse_code_worker_set_dit_delta`. -/
def morse_code_worker_set_dit_delta (w : MorseCodeWorker) (delta : Nat) : MorseCodeWorker :=
  { w with dit_delta := u32 delta }

/-- The function `morse_code_worker_set_callback` (`registered` says whether the
function pointer is non-NULL). -/
def morse_code_worker_set_callback (w : MorseCodeWorker) (registered : Bool) : MorseCodeWorker :=
  { w with callback := registered }

/-- The function `morse_code_worker_reset_text`. -/
def morse_code_worker_reset_text (w : MorseCodeWorker) : MorseCodeWorker :=
  invoke_callback { w with buffer := [], words := [] }

/-- The function `morse_code_worker_set_text_cstr`. -/
def morse_code_worker_set_text_cstr (w : MorseCodeWorker) (s : List Char) : MorseCodeWorker :=
  invoke_callback { w with words := s }

/-- What can happen to the decode thread: one loop iteration, or a call of the
public API from the caller. -/
inductive Step where
  | tick (i : TickInput)
  | play (b : Bool)
  | set_dit_delta (delta : Nat)
  | set_callback (registered : Bool)
  | reset_text
  | set_text (s : List Char)
deriving DecidableEq, Repr

/-- The effect of one step. -/
def step (s : DecodeThread) : Step → DecodeThread
  | .tick i => tick s i
  | .play b => { s with inst := morse_code_worker_play s.inst b }
  | .set_dit_delta d => { s with inst := morse_code_worker_set_dit_delta s.inst d }
  | .set_callback r => { s with inst := morse_code_worker_set_callback s.inst r }
  | .reset_text => { s with inst := morse_code_worker_reset_text s.inst }
  | .set_text t => { s with inst := morse_code_worker_set_text_cstr s.inst t }

/-- The effect of a sequence of steps. -/
def run (s : DecodeThread) (steps : List Step) : DecodeThread :=
  steps.foldl step s

/-- The decode thread of a freshly allocated worker. -/
def initial : DecodeThread := thread_start morse_code_worker_alloc

/-! ## The playback thread -/

/-- The observable actions of `morse_code_worker_playback_thread`, in the order
it performs them. `delay ms` is `furi_delay_ms(ms)` (or `gap_blocking(ms)`);
`flash_red` is one call of `flash_red_once` (the red LED held for 120 ms; the
notification handle opened by `morse_code_worker_alloc` is taken to be
non-NULL); the frequency and volume of `speaker_start` are not recorded. -/
inductive Ev where
  | delay (ms : Nat)
  | speaker_start
  | speaker_stop
  | speaker_release
  | led_blue_on
  | led_blue_off
  | flash_red
deriving DecidableEq, Repr

/-- What the playback thread reads from its environment: the value of the
volatile flag `pb_cancel` at its k-th read, and the result of the k-th call of
`furi_hal_speaker_acquire(1000)`. -/
structure PbEnv where
  cancel : Nat → Bool
  acquire : Nat → Bool

/-- The state of a playback run: how many times `pb_cancel` has been read, how
many times the speaker has been requested, the actions performed so far,
whether the run has left its loops through a positive cancel check, and the
flag `pb_running`. -/
structure Playback where
  checks : Nat
  acquires : Nat
  out : List Ev
  cancelled : Bool
  pb_running : Bool
deriving DecidableEq, Repr

/-- The sliced gap `for(uint32_t t = 0; t < ms; t += 5) { check cancel; delay 5 }`,
entered with counter `t`. -/
def gap_loop (env : PbEnv) (ms : Nat) : Nat → Nat → Playback → Option Playback
  | 0, _, _ => none
  | fuel + 1, t, s =>
    if t < ms then
      if env.cancel s.checks then
        some { s with checks := s.checks + 1, out := s.out ++ [Ev.flash_red], cancelled := true }
      else
        gap_loop env ms fuel (u32 (t + 5))
          { s with checks := s.checks + 1, out := s.out ++ [Ev.delay 5] }
    else some s

/-- The actions `if(flash) led_blue_off(...)`. -/
def led_off (flash : Bool) : List Ev := if flash then [Ev.led_blue_off] else []

/-- The actions `if(flash) led_blue_on(...)`. -/
def led_on (flash : Bool) : List Ev := if flash then [Ev.led_blue_on] else []

/-- The sliced tone `while(played < dur) { check cancel; delay min(5, dur - played) }`
with the speaker held, entered with counter `played`. -/
def tone_loop (env : PbEnv) (flash : Bool) (dur : Nat) : Nat → Nat → Playback → Option Playback
  | 0, _, _ => none
  | fuel + 1, played, s =>
    if played < dur then
      if env.cancel s.checks then
        some { s with
          checks := s.checks + 1
          out := s.out ++ [Ev.speaker_stop, Ev.speaker_release] ++ led_off flash ++ [Ev.flash_red]
          cancelled := true }
      else
        let slice := if dur - played > 5 then 5 else dur - played
        tone_loop env flash dur fuel (u32 (played + slice))
          { s with checks := s.checks + 1, out := s.out ++ [Ev.delay slice] }
    else some s

/-- The duration `dur = (code[i] == 46) ? dit : dah` of the tone of one element,
where `dah = 3 * dit` in 32 bits (46 is the dot). -/
def tone_duration (dit : Nat) (sym : Char) : Nat := if sym = '.' then dit else u32 (3 * dit)

/-- Continue with `k` unless the run is out of fuel or has been cancelled. -/
def and_then (r : Option Playback) (k : Playback → Option Playback) : Option Playback :=
  match r with
  | none => none
  | some s => if s.cancelled then some s else k s

/-- The body of the loop over the elements of a code (lines 216-251): the tone
of one element (or the silent delay when the speaker cannot be acquired) and,
when `more` elements follow, the intra-element gap. -/
def play_element (env : PbEnv) (flash : Bool) (dit fuel : Nat) (sym : Char) (more : Bool)
    (s : Playback) : Option Playback :=
  let dur := tone_duration dit sym
  let ok := env.acquire s.acquires
  let s0 := { s with acquires := s.acquires + 1 }
  let tone :=
    if ok then
      and_then
        (tone_loop env flash dur fuel 0 { s0 with out := s0.out ++ led_on flash ++ [Ev.speaker_start] })
        (fun s1 => some { s1 with
          out := s1.out ++ [Ev.speaker_stop, Ev.speaker_release] ++ led_off flash })
    else gap_loop env dur fuel 0 s0
  and_then tone (fun s2 => if more then gap_loop env dit fuel 0 s2 else some s2)

/-- The loop `for(i = 0; code[i] != 0; i++)` over the elements of a code. -/
def play_code (env : PbEnv) (flash : Bool) (dit fuel : Nat) : List Char → Playback → Option Playback
  | [], s => some s
  | sym :: rest, s =>
    and_then (play_element env flash dit fuel sym (decide (rest ≠ [])) s)
      (play_code env flash dit fuel rest)

/-- The scan `for(i = 0; i < 36; i++) if(symbol_array[i] == c) { code = morse_array[i]; break; }`
of the playback thread, over the two parallel tables. -/
def playback_lookup (c : Char) : List Char → List (List Char) → Option (List Char)
  | s :: ss, m :: ms => if s = c then some m else playback_lookup c ss ms
  | _, _ => none

/-- The fold `if(c >= 97 && c <= 122) c = c - 97 + 65` (`a` is 97, `z` is 122,
`A` is 65). -/
def to_upper (c : Char) : Char :=
  if 97 ≤ c.toNat ∧ c.toNat ≤ 122 then Char.ofNat (c.toNat - 97 + 65) else c

/-- The loop `for(p = s; *p; ++p)` over the characters of the text
(lines 187-259). -/
def play_text (env : PbEnv) (flash : Bool) (dit fuel : Nat) : List Char → Playback → Option Playback
  | [], s => some s
  | c0 :: rest, s =>
    if c0 = Char.ofNat 0 then some s
    else if env.cancel s.checks then
      some { s with checks := s.checks + 1, out := s.out ++ [Ev.flash_red], cancelled := true }
    else
      let s0 := { s with checks := s.checks + 1 }
      let c := to_upper c0
      let rendered :=
        if c = ' ' then gap_loop env (u32 (7 * dit)) fuel 0 s0
        else
          match playback_lookup c symbol_array morse_array with
          | none => gap_loop env (u32 (3 * dit)) fuel 0 s0
          | some code =>
            and_then (play_code env flash dit fuel code s0)
              (gap_loop env (u32 (3 * dit)) fuel 0)
      and_then rendered (play_text env flash dit fuel rest)

/-- A playback run at its start: `pb_running = true`, nothing done yet. -/
def playback_start : Playback :=
  { checks := 0, acquires := 0, out := [], cancelled := false, pb_running := true }

/-- The function `morse_code_worker_playback_thread` for the captured text,
`flash` flag and `dit = instance->dit_delta`: render the text, then clear
`pb_running` at `done`. The result is `none` when `fuel` loop iterations do not
suffice for one of the sliced loops. -/
def morse_code_worker_playback_thread (env : PbEnv) (fuel : Nat) (flash : Bool) (dit : Nat)
    (text : List Char) : Option Playback :=
  match play_text env flash dit fuel text playback_start with
  | none => none
  | some s => some { s with pb_running := false }

/-- An environment in which no cancel is ever requested and every acquisition
of the speaker succeeds. -/
def quiet_env : PbEnv := { cancel := fun _ => false, acquire := fun _ => true }

/-! ## Reading a playback trace -/

/-- A stretch of a playback: the speaker sounding for `ms`, or silent for `ms`. -/
inductive Seg where
  | tone (ms : Nat)
  | silence (ms : Nat)
deriving DecidableEq, Repr

/-- The stretch of silence accumulated so far, if any. -/
def silence_seg (acc : Nat) : List Seg := if acc = 0 then [] else [Seg.silence acc]

/-- The tones and silences of a trace: delays between `speaker_start` and
`speaker_stop` add up to one tone, consecutive delays outside add up to one
silence. `sounding` says whether the speaker sounds, `acc` is the length of the
current stretch. -/
def timeline_from : Bool → Nat → List Ev → List Seg
  | sounding, acc, [] => if sounding then [Seg.tone acc] else silence_seg acc
  | sounding, acc, Ev.delay ms :: es => timeline_from sounding (acc + ms) es
  | _, acc, Ev.speaker_start :: es => silence_seg acc ++ timeline_from true 0 es
  | _, acc, Ev.speaker_stop :: es => Seg.tone acc :: timeline_from false 0 es
  | sounding, acc, _ :: es => timeline_from sounding acc es

/-- The tones and silences of a whole trace. -/
def timeline (out : List Ev) : List Seg := timeline_from false 0 out

/-- The summed duration of all delays of a trace. -/
def total_ms : List Ev → Nat
  | [] => 0
  | Ev.delay ms :: es => ms + total_ms es
  | _ :: es => total_ms es

/-- The tones of a code and the gaps between them, as the specification words
them: a tone of `dit` for a dot and of `3 * dit` for a dash, and a gap of `dit`
between two consecutive elements. -/
def tones_and_gaps (dit : Nat) : List Char → List Seg
  | [] => []
  | [sym] => [Seg.tone (if sym = '.' then dit else 3 * dit)]
  | sym :: rest =>
    Seg.tone (if sym = '.' then dit else 3 * dit) :: Seg.silence dit :: tones_and_gaps dit rest

/-- The rendering of a mapped character as the specification words it: the
tones of its code with the intra-element gaps, then one inter-letter gap of
`3 * dit`. -/
def rendering (dit : Nat) (code : List Char) : List Seg :=
  tones_and_gaps dit code ++ [Seg.silence (3 * dit)]

/-- Whether a stretch is a tone. -/
def Seg.is_tone : Seg → Bool
  | Seg.tone _ => true
  | Seg.silence _ => false

/-! ## Scenarios used in the statements -/

/-- Classify a sequence of key-up durations, one call of
`morse_code_worker_fill_buffer` each. -/
def classify_all (w : MorseCodeWorker) (durations : List Nat) : MorseCodeWorker :=
  durations.foldl morse_code_worker_fill_buffer w

/-- The key-up durations of the decoding scenario: `dit / 2` for a dot and
`2 * dit` for a dash. -/
def keyed_durations (dit : Nat) (code : List Char) : List Nat :=
  code.map (fun sym => if sym = '.' then dit / 2 else 2 * dit)

/-- A worker as allocated, with the given dit unit and decode buffer. -/
def worker_with (dit : Nat) (buffer : List Char) : MorseCodeWorker :=
  { morse_code_worker_alloc with dit_delta := dit, buffer := buffer }

/-- The effect of a sequence of loop iterations without calls from outside. -/
def run_ticks (s : DecodeThread) (ins : List TickInput) : DecodeThread :=
  ins.foldl tick s

/-- A loop iteration in which every reading of the tick counter is `now`. -/
def at_time (now : Nat) : TickInput :=
  { acquire := true, t_edge := now, t_letter := now, t_space := now }

/-- Keying the letter E at dit 150 in the second that starts at tick `base`:
key down at `base + 900`, key up at `base + 1000` (a dot of 100 ms), and a tick
at `base + 1460` that flushes the letter. -/
def key_letter_E (base : Nat) : List Step :=
  [Step.play true, Step.tick (at_time (base + 900)), Step.play false,
    Step.tick (at_time (base + 1000)), Step.tick (at_time (base + 1460))]

/-- Keying the letter E `n` times, one letter per second. -/
def key_letters_E : Nat → List Step
  | 0 => []
  | n + 1 => key_letters_E n ++ key_letter_E (1000 * n)

/-- The decode thread after the letter E has been keyed at dit 150 with a
callback registered: key down at 900, key up at 1000 (a dot), letter flushed by
the tick at 1460. The word space of this silence period is still pending. -/
def after_letter_E : DecodeThread :=
  run initial (Step.set_callback true :: key_letter_E 0)

/-- The decode thread of a fresh worker after `n` letters E have been keyed,
one per second: the accumulator holds `n` times E, the last tone ended at tick
`1000 * n`, the letter is flushed, and (after the first letter) the word space
of the current silence is pending. -/
def after_n_letters_E (n : Nat) : DecodeThread :=
  { inst := { morse_code_worker_alloc with words := List.replicate n 'E' },
    was_playing := false, start_tick := 0, end_tick := 1000 * n,
    pushed := true, spaced := decide (n = 0), speaker := false }

/-- The word timeout is observed in a loop iteration only if the letter timeout
is: after the key edge has been handled, `end_tick + 7 * dit < now` at the
word-space check implies `end_tick + 3 * dit < now` at the letter check. -/
def tick_ordered (s : DecodeThread) (i : TickInput) : Prop :=
  space_due (tick_keying s i).end_tick (tick_keying s i).inst.dit_delta i.t_space = true →
    letter_due (tick_keying s i).end_tick (tick_keying s i).inst.dit_delta i.t_letter = true

/-- The steps of the decode engine proper: every API call except `set_text`,
and loop iterations with ordered timeouts. -/
def step_admissible (s : DecodeThread) : Step → Prop
  | Step.tick i => tick_ordered s i
  | Step.set_text _ => False
  | _ => True

/-- Every step of the sequence is admissible in the state it is taken in. -/
def run_admissible : DecodeThread → List Step → Prop
  | _, [] => True
  | s, st :: rest => step_admissible s st ∧ run_admissible (step s st) rest

/-- Whether a step is a call of `morse_code_worker_set_text_cstr`. -/
def Step.is_set_text : Step → Bool
  | Step.set_text _ => true
  | _ => false

/-- The invariant behind the accumulator bound: at most 65 characters, and at
most 64 while a word space is pending after a flushed letter. -/
def words_ok (s : DecodeThread) : Prop :=
  s.inst.words.length ≤ 65 ∧ (s.pushed = true → s.spaced = false → s.inst.words.length ≤ 64)

/-- The decode thread after one dash has been keyed at dit 150 with a callback
registered: key down at 600, key up at 1000 (400 ms). The buffer holds "-",
the letter is not flushed yet. -/
def after_dash : DecodeThread :=
  run initial
    [Step.set_callback true, Step.play true, Step.tick (at_time 600), Step.play false,
      Step.tick (at_time 1000)]

/-- Keying four dashes of 200 ms at dit 150, 200 ms apart, starting at tick
`base + 900`; the last tone ends at `base + 2300`. The buffer then holds
"----", which is not a code of the table. -/
def key_four_dashes (base : Nat) : List Step :=
  [Step.play true, Step.tick (at_time (base + 900)), Step.play false,
    Step.tick (at_time (base + 1100)),
    Step.play true, Step.tick (at_time (base + 1300)), Step.play false,
    Step.tick (at_time (base + 1500)),
    Step.play true, Step.tick (at_time (base + 1700)), Step.play false,
    Step.tick (at_time (base + 1900)),
    Step.play true, Step.tick (at_time (base + 2100)), Step.play false,
    Step.tick (at_time (base + 2300))]

/-- The decode buffer holds at most 5 symbols, each a dot or a dash. -/
def buffer_ok (b : List Char) : Prop :=
  b.length ≤ 5 ∧ ∀ sym ∈ b, sym = '.' ∨ sym = '-'

instance (b : List Char) : Decidable (buffer_ok b) := by
  unfold buffer_ok; exact inferInstance

instance (s : DecodeThread) : Decidable (words_ok s) := by
  unfold words_ok; exact inferInstance

instance (s : DecodeThread) (i : TickInput) : Decidable (tick_ordered s i) := by
  unfold tick_ordered; exact inferInstance

instance (s : DecodeThread) (st : Step) : Decidable (step_admissible s st) := by
  cases st <;> unfold step_admissible <;> exact inferInstance

/-! ## Scenarios of the playback statements -/

/-- The code the playback thread plays for a character: the result of its
lookup on the folded character, or no element when the lookup fails. -/
def code_of (c : Char) : List Char :=
  (playback_lookup (to_upper c) symbol_array morse_array).getD []

/-- The tones and silences of a text of mapped characters as the playback
thread renders it, after a silence of `acc`: for each character the tones of
its code with gaps of `dit` between them, and a silence of `3 * dit` after each
character. -/
def text_segments (dit : Nat) : Nat → List Char → List Seg
  | acc, [] => silence_seg acc
  | acc, c :: rest =>
    silence_seg acc ++ tones_and_gaps dit (code_of c) ++ text_segments dit (3 * dit) rest

/-- The length of a stretch in milliseconds. -/
def Seg.ms : Seg → Nat
  | Seg.tone ms => ms
  | Seg.silence ms => ms

/-- The summed length of a list of stretches. -/
def segments_ms (l : List Seg) : Nat := (l.map Seg.ms).sum

/-- The text of the SOS scenario. -/
def sos : List Char := ['S', 'O', 'S']

/-- The tones and silences of the SOS scenario at dit 100 as the playback
thread produces them: gaps of 100 inside every letter, a silence of 300 after
every letter. -/
def sos_segments : List Seg :=
  [Seg.tone 100, Seg.silence 100, Seg.tone 100, Seg.silence 100, Seg.tone 100, Seg.silence 300,
   Seg.tone 300, Seg.silence 100, Seg.tone 300, Seg.silence 100, Seg.tone 300, Seg.silence 300,
   Seg.tone 100, Seg.silence 100, Seg.tone 100, Seg.silence 100, Seg.tone 100, Seg.silence 300]

/-- The tones and silences of the SOS scenario as the specification lists them:
gaps of 300 between the three dashes of O and nothing after the last letter. -/
def sos_segments_claimed : List Seg :=
  [Seg.tone 100, Seg.silence 100, Seg.tone 100, Seg.silence 100, Seg.tone 100, Seg.silence 300,
   Seg.tone 300, Seg.silence 300, Seg.tone 300, Seg.silence 300, Seg.tone 300, Seg.silence 300,
   Seg.tone 100, Seg.silence 100, Seg.tone 100, Seg.silence 100, Seg.tone 100]

/-- An environment in which no cancel is ever requested and every acquisition
of the speaker fails (the speaker is busy). -/
def busy_env : PbEnv := { cancel := fun _ => false, acquire := fun _ => false }

/-! ## Reading a cancelled playback -/

/-- Whether the speaker is held after a trace that starts with the speaker in
state `held`: it is held from `speaker_start` to `speaker_release`. -/
def held_from (held : Bool) (out : List Ev) : Bool :=
  out.foldl (fun h e =>
    match e with
    | Ev.speaker_start => true
    | Ev.speaker_release => false
    | _ => h) held

/-- Whether the speaker is held at the end of a trace of a run. -/
def speaker_held (out : List Ev) : Bool := held_from false out

/-- What a positive cancel check does (lines 188, 195, 208, 224-229, 240, 248,
256): stop and release the speaker when it is held (switching the blue LED off
when it flashes), then flash red once. -/
def cancel_tail (flash held : Bool) : List Ev :=
  if held then [Ev.speaker_stop, Ev.speaker_release] ++ led_off flash ++ [Ev.flash_red]
  else [Ev.flash_red]

/-- The environment `env` with the cancel flag never set. -/
def no_cancel (env : PbEnv) : PbEnv := { cancel := fun _ => false, acquire := env.acquire }

/-- The outcome `r`, under `env`, of a piece of a run that starts in `s` and
that ends in `q` when no cancel is requested: either no check of the piece saw
the flag and `r` is `q`; or `r` is cancelled, the last check it made saw the
flag, no earlier check of the piece did, and its trace is a part `pre` of the
uncancelled trace followed by the cancel actions. -/
def cut_short (env : PbEnv) (flash : Bool) (s q r : Playback) : Prop :=
  (r = q ∧ ∀ k, s.checks ≤ k → k < q.checks → env.cancel k = false) ∨
  (r.cancelled = true ∧ r.pb_running = s.pb_running ∧
    s.checks < r.checks ∧ r.checks ≤ q.checks ∧
    env.cancel (r.checks - 1) = true ∧
    (∀ k, s.checks ≤ k → k + 1 < r.checks → env.cancel k = false) ∧
    ∃ pre, s.out <+: pre ∧ pre <+: q.out ∧
      r.out = pre ++ cancel_tail flash (speaker_held pre))

/-- The state `q` continues the state `s` of an uncancelled run: nothing is
cancelled, `pb_running` is untouched, the checks only grow, and the trace grows
by actions without a red flash that leave the speaker released. -/
def advances (s q : Playback) : Prop :=
  q.cancelled = false ∧ q.pb_running = s.pb_running ∧ s.checks ≤ q.checks ∧
  speaker_held q.out = false ∧
  ∃ E, q.out = s.out ++ E ∧ Ev.flash_red ∉ E

/-- The fuel suffices for every sliced loop of a run at this dit: for the gaps
of `dit`, `3 * dit` and `7 * dit` (in 32 bits) and for the tones. -/
def enough_fuel (dit fuel : Nat) : Prop :=
  dit + 4 < 5 * fuel ∧ u32 (3 * dit) + 4 < 5 * fuel ∧ u32 (7 * dit) + 4 < 5 * fuel

instance (dit fuel : Nat) : Decidable (enough_fuel dit fuel) := by
  unfold enough_fuel; exact inferInstance

/-- Whether an action is a delay (a slice of a tone or of a gap). -/
def Ev.is_delay : Ev → Bool
  | Ev.delay _ => true
  | _ => false

/-- A piece `L` of the playback run behaves well from the state `s`: without
cancel requests it returns a state `q` that continues `s`, and under `env` it
returns the outcome `q` cut short at the first check that sees the flag. -/
def piece_ok (env : PbEnv) (flash : Bool) (L : PbEnv → Playback → Option Playback)
    (s : Playback) : Prop :=
  ∃ q r, L (no_cancel env) s = some q ∧ L env s = some r ∧
    advances s q ∧ cut_short env flash s q r

/-- An environment in which the cancel flag is set from the `n`-th read of
`pb_cancel` on and every acquisition of the speaker succeeds. -/
def cancel_from (n : Nat) : PbEnv :=
  { cancel := fun k => decide (n ≤ k), acquire := fun _ => true }

/-! ## The playback run and the worker instance -/

/-- The effect of the label `done` of `morse_code_worker_playback_thread` on
the worker instance: `pb_running = false`. -/
def playback_thread_done (w : MorseCodeWorker) : MorseCodeWorker :=
  { w with pb_running := false }

/-- The function `morse_code_worker_is_playback_active`. -/
def morse_code_worker_is_playback_active (w : MorseCodeWorker) : Bool := w.pb_running

/-! ## The app: model and main loop (`src/morse_code_plus.c`) -/

/-- Modelled from the spec: the keys of the SDK type `InputKey` (header
`input/input.h`, not among the sources) that the main loop tests for; `other`
stands for any further value. -/
inductive InputKey where
  | up | down | right | left | ok | back | other
deriving DecidableEq, Repr

/-- Modelled from the spec: the event kinds of the SDK type `InputType` (header
`input/input.h`, not among the sources) that the main loop tests for;
`other` stands for any further value (such as a repeat). -/
inductive InputType where
  | press | release | short | long | other
deriving DecidableEq, Repr

/-- An input event as the main loop reads it from the queue: `in.key` and
`in.type`. -/
structure InputEvent where
  key : InputKey
  type : InputType
deriving DecidableEq, Repr

/-- The enumeration `AppState`. -/
inductive AppState where
  | main | menu | lookup
deriving DecidableEq, Repr

/-- The structure `MorseCodeModel`. The three indices are `uint8_t`. -/
structure MorseCodeModel where
  words : List Char
  volume : Nat
  dit_delta : Nat
  state : AppState
  menu_index : Nat
  lookup_index : Nat
  back_guard : Bool
  lookup_ok_guard : Bool
deriving DecidableEq, Repr

/-- The string `LOOKUP_ALPHABET` (37 characters). -/
def LOOKUP_ALPHABET : List Char :=
  [ 'A','B','C','D','E','F','G','H','I','J','K','L','M','N','O','P','Q','R','S','T','U','V',
    'W','X','Y','Z','1','2','3','4','5','6','7','8','9','0',' ' ]

/-- The constant `LOOKUP_ALPHABET_LEN = 26 + 10 + 1`. -/
def LOOKUP_ALPHABET_LEN : Nat := 26 + 10 + 1

/-- The table `MORSE_CODE_VOLUMES` (5 entries), in hundredths. -/
def MORSE_CODE_VOLUMES : List Nat := [0, 25, 50, 75, 100]

/-- Reduction of a natural number to an `uint8_t` value. -/
def u8 (n : Nat) : Nat := n % 256

/-- The read `LOOKUP_ALPHABET[i]` (NUL stands for a read outside the string). -/
def lookup_symbol (i : Nat) : Char := LOOKUP_ALPHABET.getD i (Char.ofNat 0)

/-- The copy `strlcpy(buf, s, 128)` into a buffer of 128 bytes. -/
def strlcpy_128 (s : List Char) : List Char := s.take 127

/-- The calls of the worker API that one iteration of the main loop makes. -/
inductive WorkerCall where
  | set_volume (volume_idx : Nat)
  | set_dit_delta (dit : Nat)
  | play (b : Bool)
  | playback_async (text : List Char) (flash_led : Bool)
  | set_text_cstr (s : List Char)
  | cancel_playback
deriving DecidableEq, Repr

/-- The part of an iteration of the main loop after the model has been updated
(lines 398-421): the calls of the worker made after the unlock. `playback_buf`
is the requested playback text when `start_playback` is set, `set_text_buf`
the text to set when `do_set_text` is set. -/
def worker_calls (state_now : AppState) (e : InputEvent) (m : MorseCodeModel)
    (playback_buf : Option (List Char)) (set_text_buf : Option (List Char)) : List WorkerCall :=
  [WorkerCall.set_volume m.volume, WorkerCall.set_dit_delta m.dit_delta]
  ++ (if state_now = AppState.main ∧ e.key = InputKey.ok ∧ e.type = InputType.press
      then [WorkerCall.play true] else [])
  ++ (if state_now = AppState.main ∧ e.key = InputKey.ok ∧ e.type = InputType.release
      then [WorkerCall.play false] else [])
  ++ (match playback_buf with
      | some (c :: rest) =>
        if c = Char.ofNat 0 then [] else [WorkerCall.playback_async (c :: rest) true]
      | _ => [])
  ++ (match set_text_buf with
      | some s => [WorkerCall.set_text_cstr s]
      | none => [])

/-- The branch `state_now == STATE_MENU` of the main loop (lines 316-347);
`none` is the jump to `exit_loop`. -/
def menu_event (m : MorseCodeModel) (e : InputEvent) :
    Option (MorseCodeModel × List WorkerCall) :=
  if e.type = InputType.press then
    if e.key = InputKey.up then
      let m1 := { m with menu_index := if m.menu_index = 0 then 3 else u8 (m.menu_index - 1) }
      some (m1, worker_calls AppState.menu e m1 none none)
    else if e.key = InputKey.down then
      let m1 := { m with menu_index := u8 ((m.menu_index + 1) % 4) }
      some (m1, worker_calls AppState.menu e m1 none none)
    else if e.key = InputKey.back ∨ e.key = InputKey.left then
      let m1 := { m with state := AppState.main, back_guard := true }
      some (m1, worker_calls AppState.menu e m1 none none)
    else if e.key = InputKey.ok then
      if m.menu_index = 0 then
        let m1 := { m with words := [], state := AppState.main }
        some (m1, worker_calls AppState.menu e m1 none (some []))
      else if m.menu_index = 1 then
        let m1 := { m with state := AppState.lookup, lookup_ok_guard := true }
        some (m1, worker_calls AppState.menu e m1 none none)
      else if m.menu_index = 2 then
        let m1 := { m with state := AppState.main }
        some (m1, worker_calls AppState.menu e m1 (some (strlcpy_128 m.words)) none)
      else if m.menu_index = 3 then none
      else some (m, worker_calls AppState.menu e m none none)
    else some (m, worker_calls AppState.menu e m none none)
  else some (m, worker_calls AppState.menu e m none none)

/-- The handling of a press in `STATE_LOOKUP` (lines 357-373): the updated
model and, when `start_playback` is set, the text to play. -/
def lookup_pressed (m : MorseCodeModel) (e : InputEvent) : MorseCodeModel × Option (List Char) :=
  if e.type = InputType.press then
    if e.key = InputKey.up then
      ({ m with lookup_index :=
          if m.lookup_index = 0 then u8 (LOOKUP_ALPHABET_LEN - 1)
          else u8 (m.lookup_index - 1) }, none)
    else if e.key = InputKey.down then
      ({ m with lookup_index := u8 ((m.lookup_index + 1) % u8 LOOKUP_ALPHABET_LEN) }, none)
    else if e.key = InputKey.left ∨ e.key = InputKey.back then
      ({ m with state := AppState.menu, back_guard := decide (e.key = InputKey.back) }, none)
    else if e.key = InputKey.right then
      (m, some [lookup_symbol m.lookup_index])
    else (m, none)
  else (m, none)

/-- The branch `state_now == STATE_LOOKUP` of the main loop (lines 349-379). -/
def lookup_event (m : MorseCodeModel) (e : InputEvent) :
    Option (MorseCodeModel × List WorkerCall) :=
  if m.lookup_ok_guard ∧ e.key = InputKey.ok then
    some (if e.type = InputType.release then { m with lookup_ok_guard := false } else m, [])
  else
    let m1 := (lookup_pressed m e).1
    if e.key = InputKey.ok ∧ e.type = InputType.short ∧ m1.lookup_ok_guard = false then
      let m2 := { m1 with words := m1.words ++ [lookup_symbol m1.lookup_index] }
      some (m2, worker_calls AppState.lookup e m2 (lookup_pressed m e).2
        (some (strlcpy_128 m2.words)))
    else some (m1, worker_calls AppState.lookup e m1 (lookup_pressed m e).2 none)

/-- The update of the model in `STATE_MAIN` (lines 381-396). -/
def main_update (m : MorseCodeModel) (e : InputEvent) : MorseCodeModel :=
  if e.key = InputKey.back ∧ e.type = InputType.short then
    { m with state := AppState.menu, menu_index := 0 }
  else if e.key = InputKey.ok then m
  else if e.key = InputKey.up ∧ e.type = InputType.press then
    if m.volume < 4 then { m with volume := u8 (m.volume + 1) } else m
  else if e.key = InputKey.down ∧ e.type = InputType.press then
    if m.volume > 0 then { m with volume := u8 (m.volume - 1) } else m
  else if e.key = InputKey.left ∧ e.type = InputType.press then
    if m.dit_delta > 10 then { m with dit_delta := m.dit_delta - 10 } else m
  else if e.key = InputKey.right ∧ e.type = InputType.press then
    if m.dit_delta ≥ 10 then { m with dit_delta := u32 (m.dit_delta + 10) } else m
  else m

/-- The branch `STATE_MAIN` of the main loop (lines 381-396). -/
def main_event (m : MorseCodeModel) (e : InputEvent) :
    Option (MorseCodeModel × List WorkerCall) :=
  some (main_update m e, worker_calls AppState.main e (main_update m e) none none)

/-- One iteration of the main loop of `morse_code_plus_app` (lines 277-424) for
the input event `e`, with `playback_active` the answer of
`morse_code_worker_is_playback_active`: the new model and the worker calls
made, or `none` when the loop is left. -/
def app_event (m : MorseCodeModel) (playback_active : Bool) (e : InputEvent) :
    Option (MorseCodeModel × List WorkerCall) :=
  if e.key = InputKey.back ∧ e.type = InputType.long then none
  else if playback_active then
    if e.key = InputKey.back ∧ e.type = InputType.press then
      some (m, [WorkerCall.cancel_playback])
    else some (m, [])
  else if m.back_guard then
    some (if e.key = InputKey.back ∧ e.type = InputType.release
      then { m with back_guard := false } else m, [])
  else
    match m.state with
    | AppState.menu => menu_event m e
    | AppState.lookup => lookup_event m e
    | AppState.main => main_event m e

/-- The model as `morse_code_alloc` initialises it. -/
def morse_code_alloc : MorseCodeModel :=
  { words := [], volume := 3, dit_delta := 150, state := AppState.main, menu_index := 0,
    lookup_index := 0, back_guard := false, lookup_ok_guard := false }

/-- What happens to the model: the main loop handles an input event, or the
worker callback `worker_ui_cb` stores a new text. -/
inductive UiStep where
  | input (playback_active : Bool) (e : InputEvent)
  | worker_cb (words : List Char)
deriving DecidableEq, Repr

/-- The model after a sequence of steps; the steps that follow the exit of the
main loop are not processed. -/
def ui_run (m : MorseCodeModel) : List UiStep → MorseCodeModel
  | [] => m
  | UiStep.input a e :: rest =>
    match app_event m a e with
    | none => m
    | some (m1, _) => ui_run m1 rest
  | UiStep.worker_cb w :: rest => ui_run { m with words := w } rest

/-- The indices of the model are within their arrays: `volume` within
`MORSE_CODE_VOLUMES`, `menu_index` within the 4 menu items, `lookup_index`
within `LOOKUP_ALPHABET`. -/
def indices_ok (m : MorseCodeModel) : Prop :=
  m.volume ≤ 4 ∧ m.menu_index ≤ 3 ∧ m.lookup_index ≤ 36

instance (m : MorseCodeModel) : Decidable (indices_ok m) := by
  unfold indices_ok; exact inferInstance

/-- One step of the script of a playback run: a checkpoint (a read of
`pb_cancel`), an attempt to acquire the speaker, or an action. -/
inductive Item where
  | check
  | acquire
  | act (e : Ev)
deriving DecidableEq, Repr

/-- The actions of a script, in order. -/
def acts : List Item → List Ev
  | [] => []
  | Item.act e :: rest => e :: acts rest
  | Item.check :: rest => acts rest
  | Item.acquire :: rest => acts rest

/-- The number of checkpoints of a script. -/
def check_count : List Item → Nat
  | [] => 0
  | Item.check :: rest => check_count rest + 1
  | Item.act _ :: rest => check_count rest
  | Item.acquire :: rest => check_count rest

/-- The number of acquisition attempts of a script. -/
def acquire_count : List Item → Nat
  | [] => 0
  | Item.acquire :: rest => acquire_count rest + 1
  | Item.act _ :: rest => acquire_count rest
  | Item.check :: rest => acquire_count rest

/-- The part of a script that precedes its checkpoint number `k` (counted
from 0); the whole script when it has no such checkpoint. -/
def before_check : Nat → List Item → List Item
  | _, [] => []
  | 0, Item.check :: _ => []
  | k + 1, Item.check :: rest => Item.check :: before_check k rest
  | k, Item.act e :: rest => Item.act e :: before_check k rest
  | k, Item.acquire :: rest => Item.acquire :: before_check k rest

/-- A script performed under a cancel flag, from a state of the run: an action
is appended to the trace, an acquisition attempt is counted, and a checkpoint
samples the flag: when it is set the run ends there with the cancel actions
(stop and release of the speaker when it is held, then the red flash) and
nothing of the rest of the script is performed. -/
def perform (cancel : Nat → Bool) (flash : Bool) : List Item → Playback → Playback
  | [], s => s
  | Item.check :: rest, s =>
    if cancel s.checks then
      { s with checks := s.checks + 1,
               out := s.out ++ cancel_tail flash (speaker_held s.out),
               cancelled := true }
    else perform cancel flash rest { s with checks := s.checks + 1 }
  | Item.acquire :: rest, s => perform cancel flash rest { s with acquires := s.acquires + 1 }
  | Item.act e :: rest, s => perform cancel flash rest { s with out := s.out ++ [e] }

/-- The script of a sliced wait: before each delay of the list a checkpoint. -/
def slice_items : List Nat → List Item
  | [] => []
  | d :: ds => Item.check :: Item.act (Ev.delay d) :: slice_items ds

/-- A list of actions as a script without checkpoints. -/
def act_items (es : List Ev) : List Item := es.map Item.act

/-- The script of a gap of `ms` milliseconds: a checkpoint before each of its
delays of 5 ms, as many as it takes to reach `ms`. -/
def gap_script (ms : Nat) : List Item := slice_items (List.replicate ((ms + 4) / 5) 5)

/-- The slices of a tone of `dur` milliseconds: slices of 5 ms and a last
shorter one for the remainder. -/
def tone_slices (dur : Nat) : List Nat :=
  List.replicate (dur / 5) 5 ++ (if dur % 5 = 0 then [] else [dur % 5])

/-- The script of a tone of `dur` milliseconds on an acquired speaker: LED on
when it flashes, tone start, a checkpoint before each slice, tone stop, release
of the speaker, LED off. -/
def tone_script (flash : Bool) (dur : Nat) : List Item :=
  act_items (led_on flash ++ [Ev.speaker_start]) ++ slice_items (tone_slices dur) ++
    act_items ([Ev.speaker_stop, Ev.speaker_release] ++ led_off flash)

/-- The script of one element of a code: the acquisition attempt, the tone
when it succeeded (`ok`) and a silent gap of the same length otherwise, then
the gap of one dit when more elements follow. -/
def element_script (flash : Bool) (dit : Nat) (ok : Bool) (sym : Char) (more : Bool) :
    List Item :=
  Item.acquire ::
    ((if ok then tone_script flash (tone_duration dit sym)
      else gap_script (tone_duration dit sym)) ++
     (if more then gap_script dit else []))

/-- The script of a code, the first acquisition attempt being number `a`. -/
def code_script (flash : Bool) (dit : Nat) (acquire : Nat → Bool) : Nat → List Char → List Item
  | _, [] => []
  | a, sym :: rest =>
    element_script flash dit (acquire a) sym (decide (rest ≠ [])) ++
      code_script flash dit acquire (a + 1) rest

/-- The script of one character of the text: the checkpoint at the top of the
loop, then for a space the gap of seven dits, for a character without a code
the gap of three dits, and for a character with a code its elements followed
by the gap of three dits (the products in 32 bits). -/
def char_script (flash : Bool) (dit : Nat) (acquire : Nat → Bool) (a : Nat) (c : Char) :
    List Item :=
  Item.check ::
    (if to_upper c = ' ' then gap_script (u32 (7 * dit))
     else
       match playback_lookup (to_upper c) symbol_array morse_array with
       | none => gap_script (u32 (3 * dit))
       | some code => code_script flash dit acquire a code ++ gap_script (u32 (3 * dit)))

/-- The script of a text: the scripts of its characters one after the other,
up to the end of the text or its first NUL character. -/
def text_script (flash : Bool) (dit : Nat) (acquire : Nat → Bool) : Nat → List Char → List Item
  | _, [] => []
  | a, c :: rest =>
    if c = Char.ofNat 0 then []
    else
      char_script flash dit acquire a c ++
        text_script flash dit acquire (a + acquire_count (char_script flash dit acquire a c)) rest

/-! # Theorems -/

/-! ## Basic facts -/

theorem u32_of_lt {n : Nat} (h : n < 4294967296) : u32 n = n := Nat.mod_eq_of_lt h

/-! ## Key-up classification -/

/-- C1 (amended). For every dit, every duration `d` and every decode buffer
holding fewer than 5 symbols: `d ≤ dit` appends one dot (for every dit); and
when `3 * dit` is below `2^32`, `dit < d ≤ 3 * dit` appends one dash and
`d > 3 * dit` appends nothing and leaves the buffer empty. -/
theorem fill_buffer_classifies (w : MorseCodeWorker) (d : Nat) (hbuf : w.buffer.length < 5) :
    (d ≤ w.dit_delta →
      (morse_code_worker_fill_buffer w d).buffer = w.buffer ++ ['.']) ∧
    (w.dit_delta * 3 < 4294967296 → w.dit_delta < d → d ≤ 3 * w.dit_delta →
      (morse_code_worker_fill_buffer w d).buffer = w.buffer ++ ['-']) ∧
    (w.dit_delta * 3 < 4294967296 → 3 * w.dit_delta < d →
      (morse_code_worker_fill_buffer w d).buffer = []) := by
  refine ⟨?_, ?_, ?_⟩
  · intro h
    have : ¬ (w.buffer.length + 1 > 5) := by omega
    simp [morse_code_worker_fill_buffer, h, this]
  · intro h3 h1 h2
    have hn : ¬ d ≤ w.dit_delta := by omega
    have hd : d ≤ u32 (w.dit_delta * 3) := by rw [u32_of_lt h3]; omega
    have : ¬ (w.buffer.length + 1 > 5) := by omega
    simp [morse_code_worker_fill_buffer, hn, hd, this]
  · intro h3 h1
    have hn : ¬ d ≤ w.dit_delta := by omega
    have hd : ¬ d ≤ u32 (w.dit_delta * 3) := by rw [u32_of_lt h3]; omega
    simp [morse_code_worker_fill_buffer, hn, hd]

/-- Witness of `fill_buffer_classifies`: dit 150, buffer ".", durations 100,
400 and 500. -/
theorem fill_buffer_classifies_witness :
    (morse_code_worker_fill_buffer (worker_with 150 ['.']) 100).buffer = ['.', '.'] ∧
    (morse_code_worker_fill_buffer (worker_with 150 ['.']) 400).buffer = ['.', '-'] ∧
    (morse_code_worker_fill_buffer (worker_with 150 ['.']) 500).buffer = [] :=
  ⟨(fill_buffer_classifies (worker_with 150 ['.']) 100 (by decide)).1 (by decide),
   (fill_buffer_classifies (worker_with 150 ['.']) 400 (by decide)).2.1
      (by decide) (by decide) (by decide),
   (fill_buffer_classifies (worker_with 150 ['.']) 500 (by decide)).2.2 (by decide) (by decide)⟩

/-- C1 (as stated, refuted). With the 32-bit dit 1431655766 the product
`3 * dit` wraps to 2, so the duration 1431655767, which lies between `dit` and
`3 * dit`, is not classified as a dash: the empty buffer stays empty. Reading
`3 * dit` as the wrapped 32-bit product does not save the claim either: the
duration 5 is above that product, yet it is classified as a dot. -/
theorem fill_buffer_wraps :
    1431655766 < 4294967296 ∧ 1431655767 < 4294967296 ∧
    (worker_with 1431655766 []).buffer.length < 5 ∧
    (worker_with 1431655766 []).dit_delta < 1431655767 ∧
    1431655767 ≤ 3 * (worker_with 1431655766 []).dit_delta ∧
    (morse_code_worker_fill_buffer (worker_with 1431655766 []) 1431655767).buffer = [] ∧
    (morse_code_worker_fill_buffer (worker_with 1431655766 []) 1431655767).buffer
      ≠ (worker_with 1431655766 []).buffer ++ ['-'] ∧
    u32 (3 * (worker_with 1431655766 []).dit_delta) < 5 ∧
    (morse_code_worker_fill_buffer (worker_with 1431655766 []) 5).buffer = ['.'] := by
  decide

/-! ## Decoding a keyed code -/

theorem classify_all_frame (w : MorseCodeWorker) (ds : List Nat) :
    classify_all w ds = { w with buffer := (classify_all w ds).buffer } := by
  induction ds generalizing w with
  | nil => rfl
  | cons d ds ih =>
    have h : classify_all w (d :: ds) = classify_all (morse_code_worker_fill_buffer w d) ds := rfl
    rw [h, ih]
    rfl

/-- Classifying, one after the other, durations that each select the symbol of
a code appends that code to the buffer, as long as the buffer stays within 5
symbols. -/
theorem classify_all_appends (dur : Char → Nat) (w : MorseCodeWorker) (code : List Char)
    (hdot : dur '.' ≤ w.dit_delta)
    (hdash : w.dit_delta < dur '-' ∧ dur '-' ≤ u32 (w.dit_delta * 3))
    (hsym : ∀ sym ∈ code, sym = '.' ∨ sym = '-')
    (hlen : w.buffer.length + code.length ≤ 5) :
    (classify_all w (code.map dur)).buffer = w.buffer ++ code := by
  induction code generalizing w with
  | nil => simp [classify_all]
  | cons sym rest ih =>
    have hstep : classify_all w ((sym :: rest).map dur)
        = classify_all (morse_code_worker_fill_buffer w (dur sym)) (rest.map dur) := rfl
    have hl : ¬ (w.buffer.length + 1 > 5) := by simp at hlen; omega
    have hb : (morse_code_worker_fill_buffer w (dur sym)).buffer = w.buffer ++ [sym] := by
      rcases hsym sym (by simp) with h | h
      · subst h
        simp [morse_code_worker_fill_buffer, hdot, hl]
      · subst h
        have hn : ¬ dur '-' ≤ w.dit_delta := by omega
        simp [morse_code_worker_fill_buffer, hn, hdash.2, hl]
    have hd : (morse_code_worker_fill_buffer w (dur sym)).dit_delta = w.dit_delta := rfl
    rw [hstep, ih (morse_code_worker_fill_buffer w (dur sym))]
    · rw [hb]; simp
    · rw [hd]; exact hdot
    · rw [hd]; exact hdash
    · intro x hx; exact hsym x (by simp [hx])
    · rw [hb]; simp at hlen ⊢; omega

/-- Every entry of the table: the code has at most 5 symbols, each a dot or a
dash, the letter scan maps the code to the character and the playback scan maps
the character to the code. -/
theorem table_entries :
    ∀ p ∈ List.zip morse_array symbol_array,
      p.1 ≠ [] ∧ p.1.length ≤ 5 ∧ (∀ sym ∈ p.1, sym = '.' ∨ sym = '-') ∧
      fill_letter_scan p.1 morse_array symbol_array = some p.2 ∧
      playback_lookup p.2 symbol_array morse_array = some p.1 := by
  decide

theorem classify_keyed (w : MorseCodeWorker) (code : List Char)
    (hdit : 1 ≤ w.dit_delta) (h3 : 3 * w.dit_delta < 4294967296) (hbuf : w.buffer = [])
    (hsym : ∀ sym ∈ code, sym = '.' ∨ sym = '-') (hlen : code.length ≤ 5) :
    classify_all w (keyed_durations w.dit_delta code) = { w with buffer := code } := by
  have hb := classify_all_appends (fun sym => if sym = '.' then w.dit_delta / 2 else 2 * w.dit_delta)
    w code (by simp; omega)
    (by
      have h : u32 (w.dit_delta * 3) = w.dit_delta * 3 := u32_of_lt (by omega)
      rw [h]
      have hne : ¬ ('-' = '.') := by decide
      simp only [hne, if_false]
      omega)
    hsym (by rw [hbuf]; simpa using hlen)
  rw [classify_all_frame]
  unfold keyed_durations
  rw [hb, hbuf]
  rfl

/-- C2. For every table entry (code, c), every dit ≥ 1 with `3 * dit` below
`2^32`, an empty decode buffer, an accumulator of at most 63 characters and a
registered callback: classifying one key-up duration per symbol of the code
(`dit / 2` for a dot, `2 * dit` for a dash) fills the buffer with the code, and
the letter flush that follows leaves the accumulator equal to the old one with
exactly c appended, leaves the buffer empty and invokes the callback exactly
once (with the new accumulator). -/
theorem decode_valid_code (code : List Char) (c : Char) (s : DecodeThread) (i : TickInput)
    (hentry : (code, c) ∈ List.zip morse_array symbol_array)
    (hdit : 1 ≤ s.inst.dit_delta) (h3 : 3 * s.inst.dit_delta < 4294967296)
    (hbuf : s.inst.buffer = []) (hacc : s.inst.words.length ≤ 63)
    (hcb : s.inst.callback = true)
    (hpushed : s.pushed = false)
    (hdue : letter_due s.end_tick s.inst.dit_delta i.t_letter = true) :
    (classify_all s.inst (keyed_durations s.inst.dit_delta code)).buffer = code ∧
    (tick_letter
      { s with inst := classify_all s.inst (keyed_durations s.inst.dit_delta code) } i).inst.words
      = s.inst.words ++ [c] ∧
    (tick_letter
      { s with inst := classify_all s.inst (keyed_durations s.inst.dit_delta code) } i).inst.buffer
      = [] ∧
    (tick_letter
      { s with inst := classify_all s.inst (keyed_durations s.inst.dit_delta code) } i).inst.calls
      = s.inst.calls ++ [s.inst.words ++ [c]] := by
  obtain ⟨hne, hlen, hsym, hscan, -⟩ := table_entries (code, c) hentry
  simp only at hne hlen hsym hscan
  rw [classify_keyed s.inst code hdit h3 hbuf hsym hlen]
  have hl : ¬ (s.inst.words.length > 63) := by omega
  simp [tick_letter, hpushed, hdue, hne, morse_code_worker_fill_letter, hscan, hl,
    invoke_callback, hcb]

/-- Witness of `decode_valid_code`: dit 150, the code "-" of T keyed after the
accumulator "E", flushed by a tick 451 ms after the tone end. -/
theorem decode_valid_code_witness :
    (tick_letter
      { inst := classify_all
          { morse_code_worker_alloc with words := ['E'], callback := true }
          (keyed_durations 150 ['-']),
        was_playing := false, start_tick := 0, end_tick := 1000,
        pushed := false, spaced := false, speaker := false }
      { acquire := true, t_edge := 1451, t_letter := 1451, t_space := 1451 }).inst.words
      = ['E', 'T'] :=
  (decode_valid_code ['-'] 'T'
    { inst := { morse_code_worker_alloc with words := ['E'], callback := true },
      was_playing := false, start_tick := 0, end_tick := 1000,
      pushed := false, spaced := false, speaker := false }
    { acquire := true, t_edge := 1451, t_letter := 1451, t_space := 1451 }
    (by decide) (by decide) (by decide) rfl (by decide) rfl rfl (by decide)).2.1

/-! ## Playback to decode round trip -/

theorem symbol_has_entry :
    ∀ c ∈ symbol_array, ∃ p ∈ List.zip morse_array symbol_array, p.2 = c := by
  decide

/-- C3. For every table character c and every dit ≥ 1 with `3 * dit` below
`2^32`: the playback lookup finds a code for c, and the tone durations the
playback engine uses for that code (`dit` for a dot, `3 * dit` for a dash), fed
in order to the decode classifier with the same dit from an empty buffer and
then flushed by the letter lookup, make c the last character of the
accumulator. -/
theorem playback_decode_roundtrip (c : Char) (w : MorseCodeWorker)
    (hc : c ∈ symbol_array) (hdit : 1 ≤ w.dit_delta) (h3 : 3 * w.dit_delta < 4294967296)
    (hbuf : w.buffer = []) :
    ∃ code, playback_lookup c symbol_array morse_array = some code ∧
      (classify_all w (code.map (tone_duration w.dit_delta))).buffer = code ∧
      (morse_code_worker_fill_letter
        (classify_all w (code.map (tone_duration w.dit_delta)))).words.getLast? = some c := by
  obtain ⟨p, hp, hpc⟩ := symbol_has_entry c hc
  obtain ⟨-, hlen, hsym, hscan, hlook⟩ := table_entries p hp
  rw [hpc] at hscan hlook
  have hu : u32 (w.dit_delta * 3) = w.dit_delta * 3 := u32_of_lt (by omega)
  have hu2 : u32 (3 * w.dit_delta) = 3 * w.dit_delta := u32_of_lt (by omega)
  have hb := classify_all_appends (tone_duration w.dit_delta) w p.1
    (by simp [tone_duration])
    (by
      have hne : ¬ ('-' = '.') := by decide
      simp only [tone_duration, hne, if_false, hu, hu2]
      omega)
    hsym (by rw [hbuf]; simpa using hlen)
  rw [hbuf, List.nil_append] at hb
  refine ⟨p.1, hlook, hb, ?_⟩
  simp [morse_code_worker_fill_letter, hb, hscan]

/-- Witness of `playback_decode_roundtrip`: the character S at dit 100. -/
theorem playback_decode_roundtrip_witness :
    ∃ code, playback_lookup 'S' symbol_array morse_array = some code ∧
      (classify_all (worker_with 100 []) (code.map (tone_duration 100))).buffer = code ∧
      (morse_code_worker_fill_letter
        (classify_all (worker_with 100 []) (code.map (tone_duration 100)))).words.getLast?
        = some 'S' :=
  playback_decode_roundtrip 'S' (worker_with 100 []) (by decide) (by decide) (by decide) rfl

/-! ## The symbol table -/

/-- C4. The symbol table is a bijection on its 36 entries: both tables have 36
entries, the characters of `symbol_array` are pairwise distinct, the codes of
`morse_array` are pairwise distinct, and for every index i the playback lookup
(character to code) followed by the letter scan (code to character) returns
`symbol_array[i]`, and the letter scan followed by the playback lookup returns
`morse_array[i]`. -/
theorem symbol_table_bijection :
    symbol_array.length = 36 ∧ morse_array.length = 36 ∧
    symbol_array.Nodup ∧ morse_array.Nodup ∧
    ∀ i : Fin 36,
      (∃ c, symbol_array.get? i.val = some c ∧
        ((playback_lookup c symbol_array morse_array).bind
          (fun code => fill_letter_scan code morse_array symbol_array)) = some c) ∧
      (∃ code, morse_array.get? i.val = some code ∧
        ((fill_letter_scan code morse_array symbol_array).bind
          (fun c => playback_lookup c symbol_array morse_array)) = some code) := by
  refine ⟨rfl, rfl, by decide, by decide, ?_⟩
  intro i
  fin_cases i <;> exact ⟨⟨_, rfl, by decide⟩, ⟨_, rfl, by decide⟩⟩

/-! ## The word space -/

theorem tick_idle (s : DecodeThread) (i : TickInput)
    (hplay : s.inst.play = false) (hwas : s.was_playing = false)
    (hpushed : s.pushed = true) (hspaced : s.spaced = true) :
    tick s i = s := by
  simp [tick, tick_keying, tick_letter, tick_space, hplay, hwas, hpushed, hspaced]

theorem run_ticks_idle (s : DecodeThread) (ins : List TickInput)
    (hplay : s.inst.play = false) (hwas : s.was_playing = false)
    (hpushed : s.pushed = true) (hspaced : s.spaced = true) :
    run_ticks s ins = s := by
  induction ins with
  | nil => rfl
  | cons i rest ih =>
    have h : run_ticks s (i :: rest) = run_ticks (tick s i) rest := rfl
    rw [h, tick_idle s i hplay hwas hpushed hspaced, ih]

theorem tick_waiting (s : DecodeThread) (i : TickInput)
    (hplay : s.inst.play = false) (hwas : s.was_playing = false)
    (hpushed : s.pushed = true) (hspaced : s.spaced = false) :
    tick s i =
      if space_due s.end_tick s.inst.dit_delta i.t_space then
        { s with
          inst := invoke_callback { s.inst with words := s.inst.words ++ [' '] }
          spaced := true }
      else s := by
  simp [tick, tick_keying, tick_letter, tick_space, hplay, hwas, hpushed, hspaced]

theorem invoke_callback_play (w : MorseCodeWorker) : (invoke_callback w).play = w.play := by
  unfold invoke_callback; split <;> rfl

/-- Without 32-bit wrap of `end_tick + 7 * dit`, the word-space test holds
exactly when the silence is longer than `7 * dit`. -/
theorem space_due_iff (end_tick dit now : Nat) (h : end_tick + 7 * dit < 4294967296) :
    space_due end_tick dit now = true ↔ 7 * dit < now - end_tick := by
  have h1 : u32 (dit * 7) = dit * 7 := u32_of_lt (by omega)
  have h2 : u32 (end_tick + dit * 7) = end_tick + dit * 7 := u32_of_lt (by omega)
  simp only [space_due, h1, h2, decide_eq_true_eq]
  omega

/-- The word-space latch: from a state with the key up, the letter flushed and
the word space pending, a run of ticks either changes nothing or appends one
space and invokes the callback once. -/
theorem word_space_latch (s : DecodeThread) (ins : List TickInput)
    (hplay : s.inst.play = false) (hwas : s.was_playing = false)
    (hpushed : s.pushed = true) (hspaced : s.spaced = false) :
    run_ticks s ins =
      if ins.any (fun i => space_due s.end_tick s.inst.dit_delta i.t_space) then
        { s with
          inst := invoke_callback { s.inst with words := s.inst.words ++ [' '] }
          spaced := true }
      else s := by
  induction ins with
  | nil => rfl
  | cons i rest ih =>
    have h : run_ticks s (i :: rest) = run_ticks (tick s i) rest := rfl
    rw [h, tick_waiting s i hplay hwas hpushed hspaced]
    by_cases hd : space_due s.end_tick s.inst.dit_delta i.t_space = true
    · have hidle := run_ticks_idle
        { s with
          inst := invoke_callback { s.inst with words := s.inst.words ++ [' '] }
          spaced := true } rest
        (by show (invoke_callback _).play = false
            rw [invoke_callback_play]; exact hplay) hwas hpushed rfl
      rw [if_pos hd, hidle]
      simp [hd]
    · rw [if_neg hd, ih]
      simp [hd]

/-- C5 (amended). After a key-up whose letter has been flushed (key up, letter
pushed, word space pending), for every sequence of further ticks with the key
staying up: if some tick passes the word-space test `end_tick + 7 * dit < now`,
the run ends with exactly one space appended to the accumulator and exactly one
callback invocation for it; otherwise nothing changes. No later tick appends
another space or invokes the callback again. Without 32-bit wrap the test holds
exactly when the silence `now - end_tick` is strictly longer than `7 * dit`. -/
theorem word_space_once :
    (∀ (s : DecodeThread) (ins : List TickInput),
      s.inst.play = false → s.was_playing = false → s.pushed = true → s.spaced = false →
      run_ticks s ins =
        if ins.any (fun i => space_due s.end_tick s.inst.dit_delta i.t_space) then
          { s with
            inst := invoke_callback { s.inst with words := s.inst.words ++ [' '] }
            spaced := true }
        else s) ∧
    (∀ end_tick dit now : Nat, end_tick + 7 * dit < 4294967296 →
      (space_due end_tick dit now = true ↔ 7 * dit < now - end_tick)) :=
  ⟨word_space_latch, space_due_iff⟩

/-- Witness of `word_space_once`: after the letter E (tone end at 1000, dit
150), ticks at 2040, 2051, 2061 and 5000 append one space and invoke the
callback once. -/
theorem word_space_once_witness :
    (run_ticks after_letter_E [at_time 2040, at_time 2051, at_time 2061, at_time 5000]).inst.words
      = ['E', ' '] ∧
    (run_ticks after_letter_E [at_time 2040, at_time 2051, at_time 2061, at_time 5000]).inst.calls
      = [['E'], ['E', ' ']] := by
  rw [word_space_once.1 after_letter_E _ (by decide) (by decide) (by decide) (by decide)]
  decide

/-- C5 (as stated, refuted). After the letter E (tone end at tick 1000, dit
150), a tick at 2050 sees a silence that has reached `7 * dit` = 1050 ms, yet
appends no space and does not invoke the callback: the code asks for a silence
strictly longer than `7 * dit`. -/
theorem word_space_not_at_threshold :
    after_letter_E.inst.play = false ∧ after_letter_E.was_playing = false ∧
    after_letter_E.pushed = true ∧ after_letter_E.spaced = false ∧
    after_letter_E.inst.words = ['E'] ∧
    7 * after_letter_E.inst.dit_delta ≤ 2050 - after_letter_E.end_tick ∧
    (run_ticks after_letter_E [at_time 2050]).inst.words = ['E'] ∧
    (run_ticks after_letter_E [at_time 2050]).inst.calls = after_letter_E.inst.calls := by
  decide

/-! ## The decode buffer bound -/

@[simp] theorem invoke_callback_buffer (w : MorseCodeWorker) :
    (invoke_callback w).buffer = w.buffer := by
  unfold invoke_callback; split <;> rfl

@[simp] theorem invoke_callback_words (w : MorseCodeWorker) :
    (invoke_callback w).words = w.words := by
  unfold invoke_callback; split <;> rfl

@[simp] theorem invoke_callback_dit (w : MorseCodeWorker) :
    (invoke_callback w).dit_delta = w.dit_delta := by
  unfold invoke_callback; split <;> rfl

theorem buffer_ok_nil : buffer_ok [] := ⟨by simp, by simp⟩

theorem fill_buffer_ok (w : MorseCodeWorker) (d : Nat) (h : buffer_ok w.buffer) :
    buffer_ok (morse_code_worker_fill_buffer w d).buffer := by
  have hsnoc : ∀ c : Char, (c = '.' ∨ c = '-') →
      buffer_ok (if (w.buffer ++ [c]).length > 5 then [] else w.buffer ++ [c]) := by
    intro c hc
    split
    · exact buffer_ok_nil
    · rename_i hlen
      refine ⟨by omega, ?_⟩
      intro sym hsym
      rcases List.mem_append.1 hsym with h1 | h1
      · exact h.2 sym h1
      · rw [List.mem_singleton.1 h1]; exact hc
  unfold morse_code_worker_fill_buffer
  by_cases h1 : d ≤ w.dit_delta
  · simp only [h1, if_true]; exact hsnoc '.' (Or.inl rfl)
  · by_cases h2 : d ≤ u32 (w.dit_delta * 3)
    · simp only [h1, h2, if_true, if_false]; exact hsnoc '-' (Or.inr rfl)
    · simp only [h1, h2, if_false]; exact buffer_ok_nil

theorem tick_buffer_ok (s : DecodeThread) (i : TickInput) (h : buffer_ok s.inst.buffer) :
    buffer_ok (tick s i).inst.buffer := by
  have h1 : buffer_ok (tick_keying s i).inst.buffer := by
    unfold tick_keying
    split
    · split <;> exact h
    · split
      · exact fill_buffer_ok _ _ h
      · exact h
  have h2 : buffer_ok (tick_letter (tick_keying s i) i).inst.buffer := by
    unfold tick_letter
    split
    · split
      · split
        · simp only [invoke_callback_buffer, morse_code_worker_fill_letter]
          exact buffer_ok_nil
        · exact h1
      · exact h1
    · exact h1
  unfold tick tick_space
  split
  · split
    · simpa using h2
    · exact h2
  · exact h2

theorem step_buffer_ok (s : DecodeThread) (st : Step) (h : buffer_ok s.inst.buffer) :
    buffer_ok (step s st).inst.buffer := by
  cases st with
  | tick i => exact tick_buffer_ok s i h
  | play b => exact h
  | set_dit_delta d => exact h
  | set_callback r => exact h
  | reset_text =>
    simp only [step, morse_code_worker_reset_text, invoke_callback_buffer]
    exact buffer_ok_nil
  | set_text t =>
    simp only [step, morse_code_worker_set_text_cstr, invoke_callback_buffer]
    exact h

theorem run_buffer_ok (s : DecodeThread) (steps : List Step) (h : buffer_ok s.inst.buffer) :
    buffer_ok (run s steps).inst.buffer := by
  induction steps generalizing s with
  | nil => exact h
  | cons st rest ih => exact ih (step s st) (step_buffer_ok s st h)

/-- C6. In every state reachable from the initial worker state (empty buffer)
by any sequence of loop iterations (key-up classifications with any durations,
letter flushes) and API calls (any dit values, reset_text, set_text), the decode
buffer holds at most 5 symbols, each a dot or a dash; the same bound is kept by
every single classification and letter flush; and a classification applied to
a buffer of 5 symbols, which would make it 6 long, leaves it empty instead. -/
theorem decode_buffer_bounded :
    (∀ steps : List Step, buffer_ok (run initial steps).inst.buffer) ∧
    (∀ (w : MorseCodeWorker) (d : Nat), buffer_ok w.buffer →
      buffer_ok (morse_code_worker_fill_buffer w d).buffer ∧
      (morse_code_worker_fill_letter w).buffer = [] ∧
      (morse_code_worker_reset_text w).buffer = []) ∧
    (∀ (w : MorseCodeWorker) (d : Nat), w.buffer.length = 5 →
      (morse_code_worker_fill_buffer w d).buffer = []) := by
  refine ⟨fun steps => run_buffer_ok initial steps buffer_ok_nil, ?_, ?_⟩
  · intro w d h
    exact ⟨fill_buffer_ok w d h, rfl, by simp [morse_code_worker_reset_text]⟩
  · intro w d h
    unfold morse_code_worker_fill_buffer
    by_cases h1 : d ≤ w.dit_delta
    · simp [h1, h]
    · by_cases h2 : d ≤ u32 (w.dit_delta * 3)
      · simp [h1, h2, h]
      · simp [h1, h2]

/-- Witness of `decode_buffer_bounded`: after two dots keyed at dit 150 the buffer
is within the bound, and a dot classified on top of the buffer "....." empties
it. -/
theorem decode_buffer_bounded_witness :
    buffer_ok (run initial
      [Step.play true, Step.tick (at_time 10), Step.play false, Step.tick (at_time 110),
        Step.play true, Step.tick (at_time 210), Step.play false,
        Step.tick (at_time 310)]).inst.buffer ∧
    (morse_code_worker_fill_buffer (worker_with 150 ['.', '.', '.', '.', '.']) 100).buffer = [] :=
  ⟨decode_buffer_bounded.1 _, decode_buffer_bounded.2.2 _ 100 rfl⟩

/-! ## The accumulator bound -/

theorem run_append (s : DecodeThread) (xs ys : List Step) :
    run s (xs ++ ys) = run (run s xs) ys := by
  simp [run, List.foldl_append]

theorem key_letter_E_step (n : Nat) (hn : n < 64) :
    run (after_n_letters_E n) (key_letter_E (1000 * n)) = after_n_letters_E (n + 1) := by
  interval_cases n <;> decide

/-- Keying `n ≤ 64` letters E on a fresh worker puts `n` characters into the
accumulator. -/
theorem run_key_letters_E (n : Nat) (hn : n ≤ 64) :
    run initial (key_letters_E n) = after_n_letters_E n := by
  induction n with
  | zero => rfl
  | succ k ih =>
    have h : key_letters_E (k + 1) = key_letters_E k ++ key_letter_E (1000 * k) := rfl
    rw [h, run_append, ih (by omega), key_letter_E_step k (by omega)]

theorem key_letters_E_no_set_text (n : Nat) :
    (key_letters_E n).all (fun st => !st.is_set_text) = true := by
  induction n with
  | zero => rfl
  | succ k ih =>
    have h : key_letters_E (k + 1) = key_letters_E k ++ key_letter_E (1000 * k) := rfl
    rw [h, List.all_append, ih]
    rfl

/-- C7 (as stated, refuted). Keying the letter E 64 times on a fresh worker
(dit 150, one letter per second, no set_text call) leaves an accumulator of 64
characters: the length check of `morse_code_worker_fill_letter` runs before the
append and only resets an accumulator that is already longer than 63. -/
theorem accumulator_reaches_64 :
    (key_letters_E 64).all (fun st => !st.is_set_text) = true ∧
    (run initial (key_letters_E 64)).inst.words = List.replicate 64 'E' ∧
    ¬ ((run initial (key_letters_E 64)).inst.words.length ≤ 63) := by
  rw [run_key_letters_E 64 (le_refl 64)]
  refine ⟨key_letters_E_no_set_text 64, rfl, by decide⟩

theorem fill_letter_words_le (w : MorseCodeWorker) :
    (morse_code_worker_fill_letter w).words.length ≤ 64 := by
  unfold morse_code_worker_fill_letter
  by_cases h : w.words.length > 63
  · cases fill_letter_scan w.buffer morse_array symbol_array <;> simp [h]
  · cases fill_letter_scan w.buffer morse_array symbol_array <;> simp [h] <;> omega

@[simp] theorem fill_letter_dit (w : MorseCodeWorker) :
    (morse_code_worker_fill_letter w).dit_delta = w.dit_delta := rfl

theorem keying_words_ok (s : DecodeThread) (i : TickInput) (h : words_ok s) :
    words_ok (tick_keying s i) := by
  unfold tick_keying
  split
  · split
    · exact h
    · exact h
  · split
    · exact ⟨h.1, fun hp => by simp at hp⟩
    · exact h

theorem letter_space_words_ok (s : DecodeThread) (i : TickInput) (h : words_ok s)
    (hord : space_due s.end_tick s.inst.dit_delta i.t_space = true →
      letter_due s.end_tick s.inst.dit_delta i.t_letter = true) :
    words_ok (tick_space (tick_letter s i) i) := by
  have hfl := fill_letter_words_le s.inst
  obtain ⟨h65, h64⟩ := h
  by_cases hsd : space_due s.end_tick s.inst.dit_delta i.t_space = true
  · have hld := hord hsd
    by_cases hp : s.pushed = true
    · by_cases hs : s.spaced = true
      · simp [tick_letter, tick_space, hp, hs, words_ok, h65]
      · have hs2 : s.spaced = false := by simpa using hs
        have := h64 hp hs2
        simp [tick_letter, tick_space, hp, hs2, hsd, words_ok]
        omega
    · have hp2 : s.pushed = false := by simpa using hp
      by_cases hb : s.inst.buffer = []
      · simp [tick_letter, tick_space, hp2, hld, hb, words_ok, h65]
      · by_cases hs : s.spaced = true
        · simp [tick_letter, tick_space, hp2, hld, hb, hs, words_ok]
          omega
        · have hs2 : s.spaced = false := by simpa using hs
          simp [tick_letter, tick_space, hp2, hld, hb, hs2, hsd, words_ok]
          omega
  · have hsd2 : space_due s.end_tick s.inst.dit_delta i.t_space = false := by simpa using hsd
    by_cases hp : s.pushed = true
    · by_cases hs : s.spaced = true
      · simp [tick_letter, tick_space, hp, hs, words_ok, h65]
      · have hs2 : s.spaced = false := by simpa using hs
        have := h64 hp hs2
        simp [tick_letter, tick_space, hp, hs2, hsd2, words_ok]
        omega
    · have hp2 : s.pushed = false := by simpa using hp
      by_cases hld : letter_due s.end_tick s.inst.dit_delta i.t_letter = true
      · by_cases hb : s.inst.buffer = []
        · simp [tick_letter, tick_space, hp2, hld, hb, words_ok, h65]
        · by_cases hs : s.spaced = true
          · simp [tick_letter, tick_space, hp2, hld, hb, hs, words_ok]
            omega
          · have hs2 : s.spaced = false := by simpa using hs
            simp [tick_letter, tick_space, hp2, hld, hb, hs2, hsd2, words_ok]
            omega
      · have hld2 : letter_due s.end_tick s.inst.dit_delta i.t_letter = false := by
          simpa using hld
        by_cases hs : s.spaced = true
        · simp [tick_letter, tick_space, hp2, hld2, hs, words_ok, h65]
        · have hs2 : s.spaced = false := by simpa using hs
          simp [tick_letter, tick_space, hp2, hld2, hs2, hsd2, words_ok, h65]

theorem tick_words_ok (s : DecodeThread) (i : TickInput) (h : words_ok s)
    (hord : tick_ordered s i) : words_ok (tick s i) :=
  letter_space_words_ok (tick_keying s i) i (keying_words_ok s i h) hord

theorem step_words_ok (s : DecodeThread) (st : Step) (h : words_ok s)
    (hadm : step_admissible s st) : words_ok (step s st) := by
  cases st with
  | tick i => exact tick_words_ok s i h hadm
  | play b => exact h
  | set_dit_delta d => exact h
  | set_callback r => exact h
  | reset_text => simp [step, morse_code_worker_reset_text, words_ok]
  | set_text t => exact absurd hadm (by simp [step_admissible])

theorem run_words_ok (s : DecodeThread) (steps : List Step) (h : words_ok s)
    (hadm : run_admissible s steps) : words_ok (run s steps) := by
  induction steps generalizing s with
  | nil => exact h
  | cons st rest ih => exact ih (step s st) (step_words_ok s st h hadm.1) hadm.2

/-- Without 32-bit wrap of `end_tick + 7 * dit`, and with the word-space reading
of the tick counter at most `4 * dit` after the letter reading, the timeouts of
an iteration are ordered. -/
theorem tick_ordered_of_no_wrap (s : DecodeThread) (i : TickInput)
    (hwrap : (tick_keying s i).end_tick + 7 * (tick_keying s i).inst.dit_delta < 4294967296)
    (hread : i.t_space ≤ i.t_letter + 4 * (tick_keying s i).inst.dit_delta) :
    tick_ordered s i := by
  intro hsd
  have h1 : u32 ((tick_keying s i).inst.dit_delta * 7) = (tick_keying s i).inst.dit_delta * 7 :=
    u32_of_lt (by omega)
  have h2 : u32 ((tick_keying s i).inst.dit_delta * 3) = (tick_keying s i).inst.dit_delta * 3 :=
    u32_of_lt (by omega)
  have h3 : u32 ((tick_keying s i).end_tick + (tick_keying s i).inst.dit_delta * 7)
      = (tick_keying s i).end_tick + (tick_keying s i).inst.dit_delta * 7 := u32_of_lt (by omega)
  have h4 : u32 ((tick_keying s i).end_tick + (tick_keying s i).inst.dit_delta * 3)
      = (tick_keying s i).end_tick + (tick_keying s i).inst.dit_delta * 3 := u32_of_lt (by omega)
  simp only [space_due, h1, h3, decide_eq_true_eq] at hsd
  simp only [letter_due, h2, h4, decide_eq_true_eq]
  omega

/-- C7 (amended). In every state reachable from the initial worker state (empty
accumulator) by decode-engine steps without set_text calls, where every loop
iteration observes the word timeout only if it observes the letter timeout, the
accumulator holds at most 65 characters, and at most 64 while a word space is
pending after a flushed letter; every letter flush leaves at most 64 characters
(it empties an accumulator longer than 63 before appending). The ordering
holds whenever `end_tick + 7 * dit` does not wrap in 32 bits and the two tick
readings of an iteration are at most `4 * dit` apart. -/
theorem accumulator_bounded :
    (∀ steps : List Step, run_admissible initial steps →
      (run initial steps).inst.words.length ≤ 65 ∧
      ((run initial steps).pushed = true → (run initial steps).spaced = false →
        (run initial steps).inst.words.length ≤ 64)) ∧
    (∀ w : MorseCodeWorker, (morse_code_worker_fill_letter w).words.length ≤ 64) ∧
    (∀ (s : DecodeThread) (i : TickInput),
      (tick_keying s i).end_tick + 7 * (tick_keying s i).inst.dit_delta < 4294967296 →
      i.t_space ≤ i.t_letter + 4 * (tick_keying s i).inst.dit_delta →
      tick_ordered s i) := by
  refine ⟨fun steps hadm => run_words_ok initial steps ?_ hadm, fill_letter_words_le,
    tick_ordered_of_no_wrap⟩
  exact ⟨by decide, fun _ _ => by decide⟩

/-- Witness of `accumulator_bounded`: the letter E keyed once at dit 150, then a
tick 1100 ms after the tone end that appends the word space. -/
theorem accumulator_bounded_witness :
    (run initial (key_letter_E 0 ++ [Step.tick (at_time 2100)])).inst.words.length ≤ 65 ∧
    ((run initial (key_letter_E 0 ++ [Step.tick (at_time 2100)])).pushed = true →
      (run initial (key_letter_E 0 ++ [Step.tick (at_time 2100)])).spaced = false →
      (run initial (key_letter_E 0 ++ [Step.tick (at_time 2100)])).inst.words.length ≤ 64) :=
  accumulator_bounded.1 (key_letter_E 0 ++ [Step.tick (at_time 2100)])
    ⟨trivial,
      accumulator_bounded.2.2 _ _ (by decide) (by decide), trivial,
      accumulator_bounded.2.2 _ _ (by decide) (by decide),
      accumulator_bounded.2.2 _ _ (by decide) (by decide),
      accumulator_bounded.2.2 _ _ (by decide) (by decide), trivial⟩

/-! ## The letter flush -/

/-- Without 32-bit wrap of `end_tick + 3 * dit`, the letter test holds exactly
when the silence is longer than `3 * dit`. -/
theorem letter_due_iff (end_tick dit now : Nat) (h : end_tick + 3 * dit < 4294967296) :
    letter_due end_tick dit now = true ↔ 3 * dit < now - end_tick := by
  have h1 : u32 (dit * 3) = dit * 3 := u32_of_lt (by omega)
  have h2 : u32 (end_tick + dit * 3) = end_tick + dit * 3 := u32_of_lt (by omega)
  simp only [letter_due, h1, h2, decide_eq_true_eq]
  omega

theorem invoke_callback_calls (w : MorseCodeWorker) (h : w.callback = true) :
    (invoke_callback w).calls = w.calls ++ [w.words] := by
  simp [invoke_callback, h]

theorem tick_space_buffer (s : DecodeThread) (i : TickInput) :
    (tick_space s i).inst.buffer = s.inst.buffer := by
  unfold tick_space
  split
  · split
    · simp
    · rfl
  · rfl

theorem tick_space_pushed (s : DecodeThread) (i : TickInput) :
    (tick_space s i).pushed = s.pushed := by
  unfold tick_space
  split
  · split <;> rfl
  · rfl

theorem tick_space_calls (s : DecodeThread) (i : TickInput) :
    s.inst.calls <+: (tick_space s i).inst.calls := by
  unfold tick_space
  split
  · split
    · simp only [invoke_callback]
      split
      · exact List.prefix_append _ _
      · exact List.prefix_refl _
    · exact List.prefix_refl _
  · exact List.prefix_refl _

/-- C8 (amended). On every decode tick where, once the key edge has been
handled, the last key-up has not been flushed, the decode buffer is non-empty
and the letter test `end_tick + 3 * dit < now` holds, the engine runs the letter
lookup on the buffer, clears the buffer and invokes the callback with the
resulting accumulator on that tick (before the word-space check of the same
tick). Without 32-bit wrap the test holds exactly when the silence
`now - end_tick` is strictly longer than `3 * dit`. -/
theorem letter_flush_on_timeout :
    (∀ (s : DecodeThread) (i : TickInput),
      (tick_keying s i).pushed = false →
      (tick_keying s i).inst.buffer ≠ [] →
      letter_due (tick_keying s i).end_tick (tick_keying s i).inst.dit_delta i.t_letter = true →
      tick s i =
        tick_space
          { tick_keying s i with
            inst := invoke_callback (morse_code_worker_fill_letter (tick_keying s i).inst)
            pushed := true } i ∧
      (tick s i).inst.buffer = [] ∧ (tick s i).pushed = true ∧
      ((tick_keying s i).inst.callback = true →
        ((tick_keying s i).inst.calls ++ [(morse_code_worker_fill_letter (tick_keying s i).inst).words])
          <+: (tick s i).inst.calls)) ∧
    (∀ end_tick dit now : Nat, end_tick + 3 * dit < 4294967296 →
      (letter_due end_tick dit now = true ↔ 3 * dit < now - end_tick)) := by
  refine ⟨?_, letter_due_iff⟩
  intro s i hp hb hd
  have ht : tick s i =
      tick_space
        { tick_keying s i with
          inst := invoke_callback (morse_code_worker_fill_letter (tick_keying s i).inst)
          pushed := true } i := by
    simp [tick, tick_letter, hp, hb, hd]
  refine ⟨ht, ?_, ?_, ?_⟩
  · rw [ht, tick_space_buffer]
    simp [morse_code_worker_fill_letter]
  · rw [ht, tick_space_pushed]
  · intro hcb
    rw [ht]
    refine List.IsPrefix.trans ?_ (tick_space_calls _ i)
    have hcb2 : (morse_code_worker_fill_letter (tick_keying s i).inst).callback = true := hcb
    show _ <+: (invoke_callback (morse_code_worker_fill_letter (tick_keying s i).inst)).calls
    rw [invoke_callback_calls _ hcb2]
    exact List.prefix_refl _

/-- Witness of `letter_flush_on_timeout`: dit 150 and buffer "-" (tone end at
tick 1000); the tick at 1451, after a silence of 451 ms, appends T, clears the
buffer and invokes the callback. -/
theorem letter_flush_on_timeout_witness :
    tick after_dash (at_time 1451) =
      { after_dash with
        inst := { after_dash.inst with buffer := [], words := ['T'], calls := [['T']] }
        pushed := true } ∧
    (tick after_dash (at_time 1451)).inst.buffer = [] :=
  ⟨(letter_flush_on_timeout.1 after_dash (at_time 1451)
      (by decide) (by decide) (by decide)).1.trans (by decide),
   (letter_flush_on_timeout.1 after_dash (at_time 1451)
      (by decide) (by decide) (by decide)).2.1⟩

/-- C8 (as stated, refuted). With dit 150 and buffer "-" (tone end at tick
1000), the tick at 1450 sees a silence of 450 ms = `3 * dit`, the key up, the
key-up not flushed and the buffer non-empty, yet it changes nothing: T is not
appended, the buffer is not cleared and the callback is not invoked. -/
theorem letter_flush_not_at_threshold :
    after_dash.inst.play = false ∧ after_dash.pushed = false ∧
    after_dash.inst.buffer = ['-'] ∧ after_dash.inst.dit_delta = 150 ∧
    3 * after_dash.inst.dit_delta ≤ 1450 - after_dash.end_tick ∧
    tick after_dash (at_time 1450) = after_dash ∧
    (tick after_dash (at_time 1450)).inst.words = [] := by
  decide

/-! ## Unmatched codes -/

theorem fill_letter_scan_none (buffer : List Char) (ms : List (List Char)) (ss : List Char)
    (h : buffer ∉ ms) : fill_letter_scan buffer ms ss = none := by
  induction ms generalizing ss with
  | nil => cases ss <;> rfl
  | cons m rest ih =>
    cases ss with
    | nil => rfl
    | cons c cs =>
      have hne : buffer ≠ m := fun e => h (by simp [e])
      have hrest : buffer ∉ rest := fun e => h (by simp [e])
      simp [fill_letter_scan, hne, ih cs hrest]

/-- C9 (amended). For every non-empty decode buffer that equals none of the 36
table codes, the letter flush (key-up not flushed, letter test true, callback
registered) appends no character: it leaves an accumulator of at most 63
characters unchanged and empties an accumulator longer than 63; it clears the
buffer and invokes the callback exactly once, with the resulting
accumulator. -/
theorem unmatched_code_dropped (s : DecodeThread) (i : TickInput)
    (hbuf : s.inst.buffer ≠ []) (hcode : s.inst.buffer ∉ morse_array)
    (hcb : s.inst.callback = true) (hpushed : s.pushed = false)
    (hdue : letter_due s.end_tick s.inst.dit_delta i.t_letter = true) :
    (tick_letter s i).inst.words = (if s.inst.words.length > 63 then [] else s.inst.words) ∧
    (s.inst.words.length ≤ 63 → (tick_letter s i).inst.words = s.inst.words) ∧
    (tick_letter s i).inst.buffer = [] ∧
    (tick_letter s i).inst.calls
      = s.inst.calls ++ [if s.inst.words.length > 63 then [] else s.inst.words] := by
  have hscan := fill_letter_scan_none s.inst.buffer morse_array symbol_array hcode
  have hw : (tick_letter s i).inst.words
      = (if s.inst.words.length > 63 then [] else s.inst.words) := by
    simp [tick_letter, hpushed, hdue, hbuf, morse_code_worker_fill_letter, hscan]
  refine ⟨hw, ?_, ?_, ?_⟩
  · intro hle
    have : ¬ (s.inst.words.length > 63) := by omega
    rw [hw, if_neg this]
  · simp [tick_letter, hpushed, hdue, hbuf, morse_code_worker_fill_letter]
  · simp [tick_letter, hpushed, hdue, hbuf, morse_code_worker_fill_letter, hscan,
      invoke_callback, hcb]

/-- Witness of `unmatched_code_dropped`: after the letter E, four dashes are
keyed at dit 150 (last tone end at tick 3300); the flush at tick 3800 leaves the
accumulator "E", clears the buffer and invokes the callback once more. -/
theorem unmatched_code_dropped_witness :
    (run after_letter_E (key_four_dashes 1000)).inst.buffer = ['-', '-', '-', '-'] ∧
    (tick_letter (run after_letter_E (key_four_dashes 1000)) (at_time 3800)).inst.words = ['E'] ∧
    (tick_letter (run after_letter_E (key_four_dashes 1000)) (at_time 3800)).inst.buffer = [] ∧
    (tick_letter (run after_letter_E (key_four_dashes 1000)) (at_time 3800)).inst.calls
      = [['E'], ['E']] :=
  ⟨by decide,
   ((unmatched_code_dropped (run after_letter_E (key_four_dashes 1000)) (at_time 3800)
      (by decide) (by decide) (by decide) (by decide) (by decide)).2.1 (by decide)).trans
      (by decide),
   (unmatched_code_dropped (run after_letter_E (key_four_dashes 1000)) (at_time 3800)
      (by decide) (by decide) (by decide) (by decide) (by decide)).2.2.1,
   (unmatched_code_dropped (run after_letter_E (key_four_dashes 1000)) (at_time 3800)
      (by decide) (by decide) (by decide) (by decide) (by decide)).2.2.2.trans (by decide)⟩

/-- C9 (as stated, refuted). After 64 letters E have been keyed on a fresh
worker the accumulator holds 64 characters; four dashes keyed next give the
buffer "----", which is none of the table codes; the letter flush of the tick
at 66800 then empties the accumulator instead of leaving it unchanged. -/
theorem unmatched_code_resets_long_accumulator :
    (run initial (key_letters_E 64 ++ key_four_dashes 64000)).inst.words
      = List.replicate 64 'E' ∧
    (run initial (key_letters_E 64 ++ key_four_dashes 64000)).inst.buffer
      = ['-', '-', '-', '-'] ∧
    ['-', '-', '-', '-'] ∉ morse_array ∧
    (run initial (key_letters_E 64 ++ key_four_dashes 64000)).pushed = false ∧
    (tick (run initial (key_letters_E 64 ++ key_four_dashes 64000))
      (at_time 66800)).inst.words = [] ∧
    (tick_letter (run initial (key_letters_E 64 ++ key_four_dashes 64000))
      (at_time 66800)).inst.words = [] := by
  rw [run_append, run_key_letters_E 64 (le_refl 64)]
  decide

/-! ## Playback: the sliced loops without cancellation -/

/-- The events of a list of delays. -/
theorem timeline_from_delays (sounding : Bool) (acc : Nat) (ds : List Nat) (rest : List Ev) :
    timeline_from sounding acc (ds.map Ev.delay ++ rest)
      = timeline_from sounding (acc + ds.sum) rest := by
  induction ds generalizing acc with
  | nil => simp
  | cons d ds ih =>
    have h : timeline_from sounding acc ((d :: ds).map Ev.delay ++ rest)
        = timeline_from sounding (acc + d) (ds.map Ev.delay ++ rest) := rfl
    rw [h, ih, List.sum_cons, Nat.add_assoc]

/-- An uncancelled sliced gap of `ms` milliseconds performs `⌈ms / 5⌉` delays of
5 ms and as many cancel checks. -/
theorem gap_loop_quiet (env : PbEnv) (hq : ∀ k, env.cancel k = false) (ms : Nat)
    (hms : ms < 4294967296) :
    ∀ (fuel t : Nat) (s : Playback), t % 5 = 0 → (ms + 4 - t) / 5 < fuel →
      gap_loop env ms fuel t s =
        some { s with
          checks := s.checks + (ms + 4 - t) / 5
          out := s.out ++ List.replicate ((ms + 4 - t) / 5) (Ev.delay 5) } := by
  intro fuel
  induction fuel with
  | zero => intro t s _ h; omega
  | succ n ih =>
    intro t s ht hfuel
    unfold gap_loop
    by_cases hlt : t < ms
    · have hu : u32 (t + 5) = t + 5 := u32_of_lt (by omega)
      have hk : (ms + 4 - t) / 5 = (ms + 4 - (t + 5)) / 5 + 1 := by omega
      rw [if_pos hlt, hq, hu]
      simp only [Bool.false_eq_true, if_false]
      rw [ih (t + 5) _ (by omega) (by omega), hk]
      simp only [List.replicate_succ, List.append_assoc, List.singleton_append]
      congr 2
      omega
    · have hk : (ms + 4 - t) / 5 = 0 := by omega
      rw [if_neg hlt, hk]
      simp

/-- An uncancelled sliced tone of `dur` milliseconds, entered at `played`,
performs delays of at most 5 ms each that add up to `dur - played`. -/
theorem tone_loop_quiet (env : PbEnv) (hq : ∀ k, env.cancel k = false) (flash : Bool)
    (dur : Nat) (hdur : dur < 4294967296) :
    ∀ (fuel played : Nat), played ≤ dur → (dur + 4 - played) / 5 < fuel →
      ∃ ds : List Nat, ds.sum = dur - played ∧ (∀ d ∈ ds, 0 < d ∧ d ≤ 5) ∧
        ∀ s : Playback, tone_loop env flash dur fuel played s =
          some { s with checks := s.checks + ds.length, out := s.out ++ ds.map Ev.delay } := by
  intro fuel
  induction fuel with
  | zero => intro t _ h; omega
  | succ n ih =>
    intro played hle hfuel
    by_cases hlt : played < dur
    · by_cases h5 : dur - played > 5
      · have hu : u32 (played + 5) = played + 5 := u32_of_lt (by omega)
        obtain ⟨ds, hsum, hall, hrun⟩ := ih (played + 5) (by omega) (by omega)
        refine ⟨5 :: ds, by simp [hsum]; omega, ?_, ?_⟩
        · intro d hd
          rcases List.mem_cons.1 hd with h | h
          · omega
          · exact hall d h
        · intro s
          unfold tone_loop
          rw [if_pos hlt, hq]
          simp only [Bool.false_eq_true, if_false, h5, if_true, hu]
          rw [hrun]
          simp only [List.length_cons, List.map_cons, List.append_assoc, List.singleton_append]
          congr 2
          omega
      · have hu : u32 (played + (dur - played)) = played + (dur - played) :=
          u32_of_lt (by omega)
        obtain ⟨ds, hsum, hall, hrun⟩ := ih (played + (dur - played)) (by omega) (by omega)
        refine ⟨(dur - played) :: ds, by simp [hsum]; omega, ?_, ?_⟩
        · intro d hd
          rcases List.mem_cons.1 hd with h | h
          · omega
          · exact hall d h
        · intro s
          unfold tone_loop
          rw [if_pos hlt, hq]
          simp only [Bool.false_eq_true, if_false, h5, hu]
          rw [hrun]
          simp only [List.length_cons, List.map_cons, List.append_assoc, List.singleton_append]
          congr 2
          omega
    · refine ⟨[], by simp; omega, by simp, ?_⟩
      intro s
      unfold tone_loop
      rw [if_neg hlt]
      simp

theorem timeline_from_led_on (flash sounding : Bool) (acc : Nat) (rest : List Ev) :
    timeline_from sounding acc (led_on flash ++ rest) = timeline_from sounding acc rest := by
  cases flash <;> rfl

theorem timeline_from_led_off (flash sounding : Bool) (acc : Nat) (rest : List Ev) :
    timeline_from sounding acc (led_off flash ++ rest) = timeline_from sounding acc rest := by
  cases flash <;> rfl

theorem timeline_from_gap (sounding : Bool) (acc k : Nat) (rest : List Ev) :
    timeline_from sounding acc (List.replicate k (Ev.delay 5) ++ rest)
      = timeline_from sounding (acc + 5 * k) rest := by
  have h := timeline_from_delays sounding acc (List.replicate k 5) rest
  rw [List.map_replicate, List.sum_replicate] at h
  rw [h]
  congr 1
  simp [Nat.mul_comm]

theorem tone_duration_eq (dit : Nat) (sym : Char) (h3 : 3 * dit < 4294967296) :
    tone_duration dit sym = if sym = '.' then dit else 3 * dit := by
  unfold tone_duration
  rw [u32_of_lt h3]

/-- The trace of one sounded element reads as one tone. -/
theorem timeline_from_tone (flash : Bool) (ds : List Nat) (acc : Nat) (X : List Ev) :
    timeline_from false acc
        (led_on flash ++ [Ev.speaker_start] ++ ds.map Ev.delay
          ++ [Ev.speaker_stop, Ev.speaker_release] ++ led_off flash ++ X)
      = silence_seg acc ++ Seg.tone ds.sum :: timeline_from false 0 X := by
  simp only [List.append_assoc]
  rw [timeline_from_led_on]
  have h1 : timeline_from false acc
      ([Ev.speaker_start] ++ (ds.map Ev.delay ++ ([Ev.speaker_stop, Ev.speaker_release]
        ++ (led_off flash ++ X))))
      = silence_seg acc ++ timeline_from true 0 (ds.map Ev.delay
        ++ ([Ev.speaker_stop, Ev.speaker_release] ++ (led_off flash ++ X))) := rfl
  rw [h1, timeline_from_delays]
  have h2 : timeline_from true (0 + ds.sum)
      ([Ev.speaker_stop, Ev.speaker_release] ++ (led_off flash ++ X))
      = Seg.tone (0 + ds.sum) :: timeline_from false 0 (led_off flash ++ X) := rfl
  rw [h2, timeline_from_led_off, Nat.zero_add]

theorem and_then_some (s : Playback) (k : Playback → Option Playback)
    (h : s.cancelled = false) : and_then (some s) k = k s := by
  simp [and_then, h]

/-- One element of a code, uncancelled and with the speaker acquired, at a dit
that is a positive multiple of 5: its trace reads as one tone of `dit` (dot) or
`3 * dit` (dash), followed by a gap of `dit` when more elements follow. -/
theorem play_element_quiet (env : PbEnv) (hq : ∀ k, env.cancel k = false)
    (hacq : ∀ k, env.acquire k = true) (flash : Bool) (dit fuel : Nat) (sym : Char) (more : Bool)
    (s : Playback) (h5 : 5 ∣ dit) (h3 : 3 * dit < 4294967296)
    (hfuel : 3 * dit < 5 * fuel) (hs : s.cancelled = false) :
    ∃ (n : Nat) (E : List Ev),
      play_element env flash dit fuel sym more s =
        some { s with checks := s.checks + n, acquires := s.acquires + 1, out := s.out ++ E } ∧
      ∀ (acc : Nat) (X : List Ev),
        timeline_from false acc (E ++ X) =
          silence_seg acc ++ Seg.tone (if sym = '.' then dit else 3 * dit) ::
            timeline_from false (if more then dit else 0) X := by
  have hdur := tone_duration_eq dit sym h3
  have hdl : tone_duration dit sym ≤ 3 * dit := by rw [hdur]; split <;> omega
  obtain ⟨ds, hsum, -, hrun⟩ := tone_loop_quiet env hq flash (tone_duration dit sym) (by omega)
    fuel 0 (by omega) (by omega)
  have hgap := gap_loop_quiet env hq dit (by omega) fuel 0
  obtain ⟨q, hq5⟩ := h5
  have hgk : (dit + 4 - 0) / 5 = q := by omega
  cases more with
  | false =>
    refine ⟨ds.length,
      led_on flash ++ [Ev.speaker_start] ++ ds.map Ev.delay
        ++ [Ev.speaker_stop, Ev.speaker_release] ++ led_off flash, ?_, ?_⟩
    · unfold play_element
      simp only [hacq, if_true, hrun, and_then, hs, Bool.false_eq_true, if_false]
      simp [List.append_assoc]
    · intro acc X
      rw [timeline_from_tone, hsum, hdur]
      simp
  | true =>
    refine ⟨ds.length + q,
      led_on flash ++ [Ev.speaker_start] ++ ds.map Ev.delay
        ++ [Ev.speaker_stop, Ev.speaker_release] ++ led_off flash
        ++ List.replicate q (Ev.delay 5), ?_, ?_⟩
    · unfold play_element
      simp only [hacq, if_true, hrun, and_then, hs, Bool.false_eq_true, if_false]
      rw [hgap _ (by omega) (by omega), hgk]
      simp [List.append_assoc, Nat.add_assoc]
    · intro acc X
      rw [List.append_assoc, timeline_from_tone, hsum, hdur, timeline_from_gap]
      simp [hq5]

/-- A whole code, uncancelled and with the speaker acquired, at a dit that is a
positive multiple of 5: its trace reads as the tones of the code with a gap of
`dit` between consecutive tones. -/
theorem play_code_quiet (env : PbEnv) (hq : ∀ k, env.cancel k = false)
    (hacq : ∀ k, env.acquire k = true) (flash : Bool) (dit fuel : Nat)
    (hpos : 0 < dit) (h5 : 5 ∣ dit) (h3 : 3 * dit < 4294967296) (hfuel : 3 * dit < 5 * fuel) :
    ∀ (code : List Char) (s : Playback), code ≠ [] → s.cancelled = false →
      ∃ (n a : Nat) (E : List Ev),
        play_code env flash dit fuel code s =
          some { s with
            checks := s.checks + n, acquires := s.acquires + a, out := s.out ++ E } ∧
        ∀ (acc : Nat) (X : List Ev),
          timeline_from false acc (E ++ X) =
            silence_seg acc ++ tones_and_gaps dit code ++ timeline_from false 0 X := by
  intro code
  induction code with
  | nil => intro s h; exact absurd rfl h
  | cons sym rest ih =>
    intro s _ hs
    cases rest with
    | nil =>
      obtain ⟨n, E, hrun, htl⟩ :=
        play_element_quiet env hq hacq flash dit fuel sym false s h5 h3 hfuel hs
      refine ⟨n, 1, E, ?_, ?_⟩
      · have hd : decide (([] : List Char) ≠ []) = false := by decide
        unfold play_code
        rw [hd, hrun]
        simp [and_then, hs, play_code]
      · intro acc X
        rw [htl]
        simp [tones_and_gaps]
    | cons y ys =>
      obtain ⟨n, E, hrun, htl⟩ :=
        play_element_quiet env hq hacq flash dit fuel sym true s h5 h3 hfuel hs
      obtain ⟨n2, a2, E2, hrun2, htl2⟩ := ih
        { s with checks := s.checks + n, acquires := s.acquires + 1, out := s.out ++ E }
        (by simp) hs
      refine ⟨n + n2, 1 + a2, E ++ E2, ?_, ?_⟩
      · have hd : decide ((y :: ys) ≠ []) = true := by simp
        unfold play_code
        rw [hd, hrun, and_then_some
          { s with checks := s.checks + n, acquires := s.acquires + 1, out := s.out ++ E } _ hs,
          hrun2]
        simp [List.append_assoc, Nat.add_assoc]
      · intro acc X
        rw [List.append_assoc, htl, htl2]
        have hsil : silence_seg dit = [Seg.silence dit] := by
          unfold silence_seg
          rw [if_neg (by omega)]
        simp [tones_and_gaps, hsil]

/-! ## Playback: rendering of a mapped character -/

theorem table_chars :
    ∀ x ∈ symbol_array, to_upper x = x ∧ x ≠ Char.ofNat 0 ∧ x ≠ ' ' := by
  decide

theorem to_upper_nul : to_upper (Char.ofNat 0) = Char.ofNat 0 := by decide

theorem tones_and_gaps_tones (dit : Nat) (code : List Char) :
    (tones_and_gaps dit code).filter Seg.is_tone
      = code.map (fun sym => Seg.tone (if sym = '.' then dit else 3 * dit)) := by
  induction code with
  | nil => rfl
  | cons sym rest ih =>
    cases rest with
    | nil => rfl
    | cons y ys =>
      have h : tones_and_gaps dit (sym :: y :: ys)
          = Seg.tone (if sym = '.' then dit else 3 * dit) :: Seg.silence dit
            :: tones_and_gaps dit (y :: ys) := rfl
      have hf : (Seg.tone (if sym = '.' then dit else 3 * dit) :: Seg.silence dit
            :: tones_and_gaps dit (y :: ys)).filter Seg.is_tone
          = Seg.tone (if sym = '.' then dit else 3 * dit)
            :: (tones_and_gaps dit (y :: ys)).filter Seg.is_tone := rfl
      rw [h, hf, ih]
      rfl

theorem tones_and_gaps_gaps (dit : Nat) (code : List Char) :
    (tones_and_gaps dit code).filter (fun g => !g.is_tone)
      = List.replicate (code.length - 1) (Seg.silence dit) := by
  induction code with
  | nil => rfl
  | cons sym rest ih =>
    cases rest with
    | nil => rfl
    | cons y ys =>
      have h : tones_and_gaps dit (sym :: y :: ys)
          = Seg.tone (if sym = '.' then dit else 3 * dit) :: Seg.silence dit
            :: tones_and_gaps dit (y :: ys) := rfl
      have hf : (Seg.tone (if sym = '.' then dit else 3 * dit) :: Seg.silence dit
            :: tones_and_gaps dit (y :: ys)).filter (fun g => !g.is_tone)
          = Seg.silence dit :: (tones_and_gaps dit (y :: ys)).filter (fun g => !g.is_tone) := rfl
      rw [h, hf, ih]
      simp [List.replicate_succ]

/-- A single character whose fold is mapped to `code`, uncancelled and with the
speaker acquired: the run completes, and its trace reads as the rendering of
the code. The run depends on the character only through its fold. -/
theorem play_text_mapped (env : PbEnv) (hq : ∀ k, env.cancel k = false)
    (hacq : ∀ k, env.acquire k = true) (flash : Bool) (dit fuel : Nat) (u : Char)
    (code : List Char) (hlook : playback_lookup u symbol_array morse_array = some code)
    (hcode : code ≠ []) (hsp : u ≠ ' ')
    (hpos : 0 < dit) (h5 : 5 ∣ dit) (h3 : 3 * dit < 4294967296) (hfuel : 3 * dit < 5 * fuel) :
    ∃ r : Playback, r.cancelled = false ∧ r.pb_running = false ∧
      timeline r.out = rendering dit code ∧
      ∀ c : Char, c ≠ Char.ofNat 0 → to_upper c = u →
        morse_code_worker_playback_thread env fuel flash dit [c] = some r := by
  obtain ⟨n, a, E, hrun, htl⟩ := play_code_quiet env hq hacq flash dit fuel hpos h5 h3 hfuel code
    { playback_start with checks := playback_start.checks + 1 } hcode rfl
  obtain ⟨q, hq5⟩ := h5
  have hu : u32 (3 * dit) = 3 * dit := u32_of_lt h3
  have hgap := gap_loop_quiet env hq (3 * dit) h3 fuel 0
    { playback_start with
      checks := playback_start.checks + 1 + n
      acquires := playback_start.acquires + a
      out := playback_start.out ++ E } rfl (by omega)
  have hk : (3 * dit + 4 - 0) / 5 = 3 * q := by omega
  rw [hk] at hgap
  refine ⟨{ playback_start with
      checks := playback_start.checks + 1 + n + 3 * q
      acquires := playback_start.acquires + a
      out := playback_start.out ++ E ++ List.replicate (3 * q) (Ev.delay 5)
      pb_running := false }, rfl, rfl, ?_, ?_⟩
  · show timeline ([] ++ E ++ List.replicate (3 * q) (Ev.delay 5)) = rendering dit code
    unfold timeline rendering
    have h0 : 0 + 5 * (3 * q) = 3 * dit := by omega
    have hne : ¬ (3 * dit = 0) := by omega
    have hx : timeline_from false 0 (List.replicate (3 * q) (Ev.delay 5))
        = [Seg.silence (3 * dit)] := by
      have h := timeline_from_gap false 0 (3 * q) []
      rw [List.append_nil, h0] at h
      rw [h]
      simp [timeline_from, silence_seg, hne]
    rw [List.nil_append, htl, hx]
    simp [silence_seg]
  · intro c hc hcu
    unfold morse_code_worker_playback_thread play_text
    simp only [hc, if_false, hq, Bool.false_eq_true, hcu, hsp, hlook]
    rw [hrun, and_then_some _ _ rfl, hu, hgap, and_then_some _ _ rfl]
    rfl

/-- C10. For every character whose uppercase fold is in the table, with code
`code` of n symbols, and every dit that is a positive multiple of 5 with
`3 * dit` below `2^32`: an uncancelled playback of that character with
successful speaker acquisition completes (given enough fuel for the sliced
loops, with `pb_running` cleared) and its trace reads as exactly n tones, the
i-th lasting `dit` for a dot and `3 * dit` for a dash, exactly n - 1 silent
gaps of `dit` (one between each pair of consecutive tones) and exactly one
silent gap of `3 * dit` after the last tone; the character renders identically
to its uppercase form. -/
theorem mapped_character_rendering (env : PbEnv) (flash : Bool) (dit fuel : Nat) (c : Char)
    (hq : ∀ k, env.cancel k = false) (hacq : ∀ k, env.acquire k = true)
    (hc : to_upper c ∈ symbol_array)
    (hpos : 0 < dit) (h5 : 5 ∣ dit) (h3 : 3 * dit < 4294967296) (hfuel : 3 * dit < 5 * fuel) :
    ∃ (code : List Char) (r : Playback),
      playback_lookup (to_upper c) symbol_array morse_array = some code ∧
      morse_code_worker_playback_thread env fuel flash dit [c] = some r ∧
      r.cancelled = false ∧ r.pb_running = false ∧
      timeline r.out = rendering dit code ∧
      (timeline r.out).filter Seg.is_tone
        = code.map (fun sym => Seg.tone (if sym = '.' then dit else 3 * dit)) ∧
      (timeline r.out).filter (fun g => !g.is_tone)
        = List.replicate (code.length - 1) (Seg.silence dit) ++ [Seg.silence (3 * dit)] ∧
      morse_code_worker_playback_thread env fuel flash dit [to_upper c] = some r := by
  obtain ⟨p, hp, hpc⟩ := symbol_has_entry (to_upper c) hc
  obtain ⟨hne, -, -, -, hlook⟩ := table_entries p hp
  rw [hpc] at hlook
  obtain ⟨hfold, hnul, hsp⟩ := table_chars (to_upper c) hc
  have hcn : c ≠ Char.ofNat 0 := by
    intro h
    rw [h, to_upper_nul] at hnul
    exact hnul rfl
  obtain ⟨r, hcan, hrunning, htl, hrun⟩ :=
    play_text_mapped env hq hacq flash dit fuel (to_upper c) p.1 hlook hne hsp hpos h5 h3 hfuel
  refine ⟨p.1, r, hlook, hrun c hcn rfl, hcan, hrunning, htl, ?_, ?_, hrun (to_upper c) hnul hfold⟩
  · rw [htl]
    unfold rendering
    rw [List.filter_append, tones_and_gaps_tones]
    simp [Seg.is_tone]
  · rw [htl]
    unfold rendering
    rw [List.filter_append, tones_and_gaps_gaps]
    simp [Seg.is_tone]

/-- Witness of `mapped_character_rendering`: the lowercase letter a at dit 10
renders as a tone of 10, a gap of 10, a tone of 30 and a gap of 30, like A. -/
theorem mapped_character_rendering_witness :
    ∃ (code : List Char) (r : Playback),
      playback_lookup (to_upper 'a') symbol_array morse_array = some code ∧
      morse_code_worker_playback_thread quiet_env 7 true 10 ['a'] = some r ∧
      r.cancelled = false ∧ r.pb_running = false ∧
      timeline r.out = rendering 10 code ∧
      (timeline r.out).filter Seg.is_tone
        = code.map (fun sym => Seg.tone (if sym = '.' then 10 else 3 * 10)) ∧
      (timeline r.out).filter (fun g => !g.is_tone)
        = List.replicate (code.length - 1) (Seg.silence 10) ++ [Seg.silence (3 * 10)] ∧
      morse_code_worker_playback_thread quiet_env 7 true 10 [to_upper 'a'] = some r :=
  mapped_character_rendering quiet_env true 10 7 'a' (fun _ => rfl) (fun _ => rfl)
    (by decide) (by decide) (by decide) (by decide) (by decide)

/-! ## Playback: texts of mapped characters -/

theorem silence_seg_ms (acc : Nat) : segments_ms (silence_seg acc) = acc := by
  unfold silence_seg segments_ms
  split
  · simp [*]
  · simp [Seg.ms]

theorem segments_ms_append (a b : List Seg) :
    segments_ms (a ++ b) = segments_ms a + segments_ms b := by
  simp [segments_ms]

/-- The stretches of a trace add up to the delays of the trace. -/
theorem timeline_from_ms (sounding : Bool) (acc : Nat) (out : List Ev) :
    segments_ms (timeline_from sounding acc out) = acc + total_ms out := by
  induction out generalizing sounding acc with
  | nil =>
    cases sounding
    · simpa [timeline_from, total_ms] using silence_seg_ms acc
    · simp [timeline_from, total_ms, segments_ms, Seg.ms]
  | cons e es ih =>
    cases e with
    | delay ms =>
      have h : timeline_from sounding acc (Ev.delay ms :: es)
          = timeline_from sounding (acc + ms) es := rfl
      rw [h, ih]
      simp [total_ms, Nat.add_assoc]
    | speaker_start =>
      have h : timeline_from sounding acc (Ev.speaker_start :: es)
          = silence_seg acc ++ timeline_from true 0 es := by cases sounding <;> rfl
      rw [h, segments_ms_append, silence_seg_ms, ih]
      simp [total_ms]
    | speaker_stop =>
      have h : timeline_from sounding acc (Ev.speaker_stop :: es)
          = Seg.tone acc :: timeline_from false 0 es := by cases sounding <;> rfl
      have hc : segments_ms (Seg.tone acc :: timeline_from false 0 es)
          = acc + segments_ms (timeline_from false 0 es) := by
        simp [segments_ms, Seg.ms]
      rw [h, hc, ih]
      simp [total_ms]
    | speaker_release =>
      have h : timeline_from sounding acc (Ev.speaker_release :: es)
          = timeline_from sounding acc es := by cases sounding <;> rfl
      rw [h, ih]; simp [total_ms]
    | led_blue_on =>
      have h : timeline_from sounding acc (Ev.led_blue_on :: es)
          = timeline_from sounding acc es := by cases sounding <;> rfl
      rw [h, ih]; simp [total_ms]
    | led_blue_off =>
      have h : timeline_from sounding acc (Ev.led_blue_off :: es)
          = timeline_from sounding acc es := by cases sounding <;> rfl
      rw [h, ih]; simp [total_ms]
    | flash_red =>
      have h : timeline_from sounding acc (Ev.flash_red :: es)
          = timeline_from sounding acc es := by cases sounding <;> rfl
      rw [h, ih]; simp [total_ms]

/-- What the playback thread needs to know of a character whose fold is in the
table: it is not the terminator, its fold is not a space, and the lookup finds
a non-empty code. -/
theorem mapped_char_facts (c : Char) (hc : to_upper c ∈ symbol_array) :
    c ≠ Char.ofNat 0 ∧ to_upper c ≠ ' ' ∧ code_of c ≠ [] ∧
    playback_lookup (to_upper c) symbol_array morse_array = some (code_of c) := by
  obtain ⟨p, hp, hpc⟩ := symbol_has_entry (to_upper c) hc
  obtain ⟨hne, -, -, -, hlook⟩ := table_entries p hp
  rw [hpc] at hlook
  obtain ⟨-, hnul, hsp⟩ := table_chars (to_upper c) hc
  have hcode : code_of c = p.1 := by simp [code_of, hlook]
  refine ⟨?_, hsp, by rw [hcode]; exact hne, by rw [hcode]; exact hlook⟩
  intro h
  rw [h, to_upper_nul] at hnul
  exact hnul rfl

/-- A text of mapped characters, uncancelled and with the speaker acquired, at
a dit that is a positive multiple of 5: the run completes and its trace reads
as the tones of each character with gaps of `dit`, and a silence of `3 * dit`
after each character. -/
theorem play_text_mapped_all (env : PbEnv) (hq : ∀ k, env.cancel k = false)
    (hacq : ∀ k, env.acquire k = true) (flash : Bool) (dit fuel : Nat)
    (hpos : 0 < dit) (h5 : 5 ∣ dit) (h3 : 3 * dit < 4294967296) (hfuel : 3 * dit < 5 * fuel) :
    ∀ (text : List Char) (s : Playback), (∀ c ∈ text, to_upper c ∈ symbol_array) →
      s.cancelled = false →
      ∃ (n a : Nat) (E : List Ev),
        play_text env flash dit fuel text s =
          some { s with
            checks := s.checks + n, acquires := s.acquires + a, out := s.out ++ E } ∧
        ∀ acc : Nat, timeline_from false acc E = text_segments dit acc text := by
  intro text
  induction text with
  | nil =>
    intro s _ _
    refine ⟨0, 0, [], by simp [play_text], fun acc => rfl⟩
  | cons c rest ih =>
    intro s hall hs
    obtain ⟨hcn, hsp, hne, hlook⟩ := mapped_char_facts c (hall c (by simp))
    obtain ⟨n, a, E, hrun, htl⟩ :=
      play_code_quiet env hq hacq flash dit fuel hpos h5 h3 hfuel (code_of c)
        { s with checks := s.checks + 1 } hne hs
    obtain ⟨q, hq5⟩ := h5
    have hu : u32 (3 * dit) = 3 * dit := u32_of_lt h3
    have hgap := gap_loop_quiet env hq (3 * dit) h3 fuel 0
      { s with checks := s.checks + 1 + n, acquires := s.acquires + a, out := s.out ++ E }
      rfl (by omega)
    have hk : (3 * dit + 4 - 0) / 5 = 3 * q := by omega
    rw [hk] at hgap
    obtain ⟨n2, a2, E2, hrun2, htl2⟩ := ih
      { s with
        checks := s.checks + 1 + n + 3 * q
        acquires := s.acquires + a
        out := s.out ++ E ++ List.replicate (3 * q) (Ev.delay 5) }
      (fun x hx => hall x (by simp [hx])) hs
    refine ⟨1 + n + 3 * q + n2, a + a2, E ++ List.replicate (3 * q) (Ev.delay 5) ++ E2, ?_, ?_⟩
    · unfold play_text
      simp only [hcn, if_false, hq, Bool.false_eq_true, hsp, hlook]
      rw [hrun,
        and_then_some
          { s with checks := s.checks + 1 + n, acquires := s.acquires + a, out := s.out ++ E }
          _ hs,
        hu, hgap,
        and_then_some
          { s with
            checks := s.checks + 1 + n + 3 * q
            acquires := s.acquires + a
            out := s.out ++ E ++ List.replicate (3 * q) (Ev.delay 5) } _ hs,
        hrun2]
      simp [List.append_assoc, Nat.add_assoc]
    · intro acc
      rw [List.append_assoc, htl, timeline_from_gap, htl2]
      have h0 : 0 + 5 * (3 * q) = 3 * dit := by omega
      rw [h0]
      simp [text_segments]

/-! ## Playback: the SOS scenario -/

/-- The run of the playback thread on "SOS" at dit 100, uncancelled and with the
speaker acquired. -/
theorem sos_run (env : PbEnv) (hq : ∀ k, env.cancel k = false)
    (hacq : ∀ k, env.acquire k = true) (flash : Bool) (fuel : Nat) (hfuel : 60 < fuel) :
    ∃ r : Playback, morse_code_worker_playback_thread env fuel flash 100 sos = some r ∧
      r.cancelled = false ∧ r.pb_running = false ∧
      timeline r.out = sos_segments ∧ total_ms r.out = 3000 := by
  obtain ⟨n, a, E, hrun, htl⟩ :=
    play_text_mapped_all env hq hacq flash 100 fuel (by decide) (by decide) (by decide)
      (by omega) sos playback_start (by decide) rfl
  have hseg : text_segments 100 0 sos = sos_segments := by decide
  have htime : timeline (playback_start.out ++ E) = sos_segments := by
    show timeline_from false 0 ([] ++ E) = sos_segments
    rw [List.nil_append, htl, hseg]
  refine ⟨{ playback_start with
      checks := playback_start.checks + n
      acquires := playback_start.acquires + a
      out := playback_start.out ++ E
      pb_running := false }, ?_, rfl, rfl, htime, ?_⟩
  · unfold morse_code_worker_playback_thread
    rw [hrun]
  · have hms := timeline_from_ms false 0 (playback_start.out ++ E)
    have htime2 : timeline_from false 0 (playback_start.out ++ E) = sos_segments := htime
    rw [htime2] at hms
    have h3000 : segments_ms sos_segments = 3000 := by decide
    show total_ms (playback_start.out ++ E) = 3000
    omega

/-- C11 (amended). Playing the text "SOS" with dit = 100 ms, no cancellation
and successful acquisition completes and produces in order three 100 ms tones
with 100 ms gaps between them, a 300 ms inter-letter gap, three 300 ms tones
with 100 ms gaps between them, a 300 ms inter-letter gap, three 100 ms tones
with 100 ms gaps between them and a final 300 ms inter-letter gap; the summed
duration of all delays of the run is 3000 ms. -/
theorem sos_scenario (env : PbEnv) (hq : ∀ k, env.cancel k = false)
    (hacq : ∀ k, env.acquire k = true) (flash : Bool) (fuel : Nat) (hfuel : 60 < fuel) :
    ∃ r : Playback, morse_code_worker_playback_thread env fuel flash 100 sos = some r ∧
      r.cancelled = false ∧ r.pb_running = false ∧
      timeline r.out = sos_segments ∧ total_ms r.out = 3000 ∧
      segments_ms (timeline r.out) = 3000 := by
  obtain ⟨r, hrun, hc, hp, htl, hms⟩ := sos_run env hq hacq flash fuel hfuel
  refine ⟨r, hrun, hc, hp, htl, hms, ?_⟩
  rw [htl]
  decide

/-- Witness of `sos_scenario`: no cancel, every acquisition succeeds, LED
flashing on, 61 iterations of fuel per sliced loop. -/
theorem sos_scenario_witness :
    ∃ r : Playback, morse_code_worker_playback_thread quiet_env 61 true 100 sos = some r ∧
      r.cancelled = false ∧ r.pb_running = false ∧
      timeline r.out = sos_segments ∧ total_ms r.out = 3000 ∧
      segments_ms (timeline r.out) = 3000 :=
  sos_scenario quiet_env (fun _ => rfl) (fun _ => rfl) true 61 (by decide)

/-- C11 (as stated, refuted). The run on "SOS" at dit 100 (no cancel, speaker
acquired) does not produce the listed sequence: the gaps between the three
dashes of O last 100 ms, not 300 ms, a 300 ms gap follows the last letter, and
the delays of the run add up to 3000 ms, not 2400 ms. -/
theorem sos_scenario_differs :
    ∃ r : Playback, morse_code_worker_playback_thread quiet_env 61 true 100 sos = some r ∧
      timeline r.out ≠ sos_segments_claimed ∧
      (timeline r.out).get? 7 = some (Seg.silence 100) ∧
      sos_segments_claimed.get? 7 = some (Seg.silence 300) ∧
      total_ms r.out = 3000 ∧ total_ms r.out ≠ 2400 := by
  obtain ⟨r, hrun, -, -, htl, hms⟩ :=
    sos_run quiet_env (fun _ => rfl) (fun _ => rfl) true 61 (by decide)
  refine ⟨r, hrun, ?_, ?_, by decide, hms, by omega⟩
  · rw [htl]; decide
  · rw [htl]; decide

/-! ## Playback: gaps at a dit that is not a multiple of 5 -/

/-- C12 (the code at the failing input). At dit 12 an uncancelled playback of a
space holds for 85 ms, not `7 * 12 = 84` ms, and an uncancelled playback of the
unmapped character `#` holds for 40 ms, not `3 * 12 = 36` ms: the sliced gap
loops only perform whole delays of 5 ms. Neither run sounds a tone. -/
theorem gap_rounds_up :
    (morse_code_worker_playback_thread quiet_env 20 true 12 [' ']).map
        (fun r => (timeline r.out, total_ms r.out, r.cancelled))
      = some ([Seg.silence 85], 85, false) ∧
    7 * 12 = 84 ∧
    to_upper '#' ≠ ' ' ∧ playback_lookup (to_upper '#') symbol_array morse_array = none ∧
    (morse_code_worker_playback_thread quiet_env 20 true 12 ['#']).map
        (fun r => (timeline r.out, total_ms r.out, r.cancelled))
      = some ([Seg.silence 40], 40, false) ∧
    3 * 12 = 36 := by
  decide

/-- C13 (the code at the failing input). At dit 12 the tone of a dot lasts 12 ms
when the speaker is acquired, but the silent delay substituted when the
acquisition fails lasts 15 ms; the whole run for the letter E then lasts 55 ms
instead of 52 ms. -/
theorem busy_speaker_changes_timing :
    (play_element quiet_env true 12 20 '.' false playback_start).map
        (fun r => (timeline r.out, total_ms r.out))
      = some ([Seg.tone 12], 12) ∧
    (play_element busy_env true 12 20 '.' false playback_start).map
        (fun r => (timeline r.out, total_ms r.out))
      = some ([Seg.silence 15], 15) ∧
    (morse_code_worker_playback_thread quiet_env 20 true 12 ['E']).map
        (fun r => total_ms r.out) = some 52 ∧
    (morse_code_worker_playback_thread busy_env 20 true 12 ['E']).map
        (fun r => total_ms r.out) = some 55 := by
  decide

/-! ## Playback: cancellation -/

theorem held_from_append (h : Bool) (a b : List Ev) :
    held_from h (a ++ b) = held_from (held_from h a) b := by
  simp [held_from, List.foldl_append]

theorem held_from_delays (h : Bool) (ds : List Nat) :
    held_from h (ds.map Ev.delay) = h := by
  induction ds with
  | nil => rfl
  | cons d ds ih =>
    have hc : held_from h ((d :: ds).map Ev.delay) = held_from h (ds.map Ev.delay) := rfl
    rw [hc, ih]

theorem held_from_replicate (h : Bool) (k : Nat) :
    held_from h (List.replicate k (Ev.delay 5)) = h := by
  have := held_from_delays h (List.replicate k 5)
  rwa [List.map_replicate] at this

theorem held_from_led_on (h flash : Bool) : held_from h (led_on flash) = h := by
  cases flash <;> rfl

theorem held_from_led_off (h flash : Bool) : held_from h (led_off flash) = h := by
  cases flash <;> rfl

/-- After the cancel actions the speaker is released. -/
theorem speaker_held_cancel_tail (flash : Bool) (pre : List Ev) :
    speaker_held (pre ++ cancel_tail flash (speaker_held pre)) = false := by
  unfold speaker_held
  rw [held_from_append]
  cases h : held_from false pre
  · rfl
  · cases flash <;> rfl

/-- The cancel actions contain no delay and no tone start, and exactly one red
flash, at their end. -/
theorem cancel_tail_shape (flash held : Bool) :
    (∀ e ∈ cancel_tail flash held, e ≠ Ev.speaker_start ∧ e.is_delay = false) ∧
    (cancel_tail flash held).count Ev.flash_red = 1 ∧
    (cancel_tail flash held).getLast? = some Ev.flash_red := by
  cases flash <;> cases held <;> decide

theorem cut_short_extend (env : PbEnv) (flash : Bool) (s s1 q r : Playback)
    (h : cut_short env flash s1 q r) (hout : s.out <+: s1.out) (hck : s.checks ≤ s1.checks)
    (hno : ∀ k, s.checks ≤ k → k < s1.checks → env.cancel k = false)
    (hrun : s1.pb_running = s.pb_running) : cut_short env flash s q r := by
  rcases h with ⟨hrq, hall⟩ | ⟨hc, hp, hlt, hle, hlast, hall, pre, hpre1, hpre2, hrout⟩
  · left
    refine ⟨hrq, fun k hk1 hk2 => ?_⟩
    by_cases hk : k < s1.checks
    · exact hno k hk1 hk
    · exact hall k (by omega) hk2
  · right
    refine ⟨hc, hp.trans hrun, by omega, hle, hlast, fun k hk1 hk2 => ?_, pre,
      hout.trans hpre1, hpre2, hrout⟩
    by_cases hk : k < s1.checks
    · exact hno k hk1 hk
    · exact hall k (by omega) hk2

theorem cut_short_refl (env : PbEnv) (flash : Bool) (s q : Playback)
    (h : q.checks = s.checks) : cut_short env flash s q q := by
  left
  exact ⟨rfl, fun k h1 h2 => by omega⟩

theorem speaker_held_snoc_delay (out : List Ev) (ms : Nat) :
    speaker_held (out ++ [Ev.delay ms]) = speaker_held out := by
  unfold speaker_held
  rw [held_from_append]
  rfl

/-- A sliced gap under any cancel behaviour: it returns, and its outcome is the
uncancelled outcome cut short at the first check that sees the cancel flag. -/
theorem gap_loop_cut (env : PbEnv) (flash : Bool) (ms : Nat) (hms : ms < 4294967296) :
    ∀ (fuel t : Nat) (s : Playback), t % 5 = 0 → (ms + 4 - t) / 5 < fuel →
      speaker_held s.out = false →
      ∃ r, gap_loop env ms fuel t s = some r ∧
        cut_short env flash s
          { s with
            checks := s.checks + (ms + 4 - t) / 5
            out := s.out ++ List.replicate ((ms + 4 - t) / 5) (Ev.delay 5) } r := by
  intro fuel
  induction fuel with
  | zero => intro t s _ h; omega
  | succ n ih =>
    intro t s ht hfuel hheld
    unfold gap_loop
    by_cases hlt : t < ms
    · rw [if_pos hlt]
      have hk : (ms + 4 - t) / 5 = (ms + 4 - (t + 5)) / 5 + 1 := by omega
      by_cases hc : env.cancel s.checks = true
      · rw [if_pos hc]
        refine ⟨_, rfl, Or.inr ⟨rfl, rfl, ?_, ?_, ?_, ?_, s.out, List.prefix_refl _, ?_, ?_⟩⟩
        · show s.checks < s.checks + 1
          omega
        · show s.checks + 1 ≤ s.checks + (ms + 4 - t) / 5
          omega
        · show env.cancel (s.checks + 1 - 1) = true
          simpa using hc
        · intro k hk1 hk2
          have : k + 1 < s.checks + 1 := hk2
          omega
        · exact List.prefix_append _ _
        · show s.out ++ [Ev.flash_red] = s.out ++ cancel_tail flash (speaker_held s.out)
          rw [hheld]
          rfl
      · have hcf : env.cancel s.checks = false := by simpa using hc
        have hu : u32 (t + 5) = t + 5 := u32_of_lt (by omega)
        rw [if_neg hc, hu]
        obtain ⟨r, hrun, hcut⟩ :=
          ih (t + 5) { s with checks := s.checks + 1, out := s.out ++ [Ev.delay 5] }
            (by omega) (by omega) (by rw [speaker_held_snoc_delay]; exact hheld)
        refine ⟨r, hrun, ?_⟩
        have hq : ({ s with
              checks := s.checks + (ms + 4 - t) / 5
              out := s.out ++ List.replicate ((ms + 4 - t) / 5) (Ev.delay 5) } : Playback)
            = { s with
              checks := s.checks + 1 + (ms + 4 - (t + 5)) / 5
              out := s.out ++ [Ev.delay 5]
                ++ List.replicate ((ms + 4 - (t + 5)) / 5) (Ev.delay 5) } := by
          rw [hk]
          simp only [List.replicate_succ, List.append_assoc, List.singleton_append]
          congr 1
          omega
        rw [hq]
        refine cut_short_extend env flash s _ _ r hcut (List.prefix_append _ _)
          (Nat.le_succ _) ?_ rfl
        intro k hk1 hk2
        have hk3 : k < s.checks + 1 := hk2
        have : k = s.checks := by omega
        rw [this]; exact hcf
    · have hk : (ms + 4 - t) / 5 = 0 := by omega
      rw [if_neg hlt, hk]
      refine ⟨s, rfl, ?_⟩
      have hq : ({ s with checks := s.checks + 0, out := s.out ++ List.replicate 0 (Ev.delay 5) }
          : Playback) = s := by simp
      rw [hq]
      exact cut_short_refl env flash s s rfl

/-- One step of the induction for `tone_loop_cut`: a slice of `slice`
milliseconds followed by the rest of the tone. -/
theorem tone_loop_cut_step (env : PbEnv) (flash : Bool) (dur n played slice : Nat) (ds : List Nat)
    (hlt : played < dur)
    (hslice : (if dur - played > 5 then 5 else dur - played) = slice)
    (hu : u32 (played + slice) = played + slice)
    (hcut : ∀ s : Playback, speaker_held s.out = true →
      ∃ r, tone_loop env flash dur n (played + slice) s = some r ∧
        cut_short env flash s
          { s with checks := s.checks + ds.length, out := s.out ++ ds.map Ev.delay } r)
    (s : Playback) (hheld : speaker_held s.out = true) :
    ∃ r, tone_loop env flash dur (n + 1) played s = some r ∧
      cut_short env flash s
        { s with
          checks := s.checks + (slice :: ds).length
          out := s.out ++ (slice :: ds).map Ev.delay } r := by
  unfold tone_loop
  rw [if_pos hlt]
  by_cases hc : env.cancel s.checks = true
  · rw [if_pos hc]
    refine ⟨_, rfl, Or.inr ⟨rfl, rfl, ?_, ?_, ?_, ?_, s.out, List.prefix_refl _, ?_, ?_⟩⟩
    · show s.checks < s.checks + 1
      omega
    · show s.checks + 1 ≤ s.checks + (slice :: ds).length
      simp
    · show env.cancel (s.checks + 1 - 1) = true
      simpa using hc
    · intro k hk1 hk2
      have : k + 1 < s.checks + 1 := hk2
      omega
    · exact List.prefix_append _ _
    · show s.out ++ [Ev.speaker_stop, Ev.speaker_release] ++ led_off flash ++ [Ev.flash_red]
        = s.out ++ cancel_tail flash (speaker_held s.out)
      rw [hheld]
      simp [cancel_tail, List.append_assoc]
  · have hcf : env.cancel s.checks = false := by simpa using hc
    rw [if_neg hc]
    simp only [hslice, hu]
    obtain ⟨r, hrun, hcs⟩ :=
      hcut { s with checks := s.checks + 1, out := s.out ++ [Ev.delay slice] }
        (by rw [speaker_held_snoc_delay]; exact hheld)
    refine ⟨r, hrun, ?_⟩
    have hq : ({ s with
          checks := s.checks + (slice :: ds).length
          out := s.out ++ (slice :: ds).map Ev.delay } : Playback)
        = { s with
          checks := s.checks + 1 + ds.length
          out := s.out ++ [Ev.delay slice] ++ ds.map Ev.delay } := by
      simp only [List.length_cons, List.map_cons, List.append_assoc, List.singleton_append]
      congr 1
      omega
    rw [hq]
    refine cut_short_extend env flash s _ _ r hcs (List.prefix_append _ _)
      (Nat.le_succ _) ?_ rfl
    intro k hk1 hk2
    have hk3 : k < s.checks + 1 := hk2
    have : k = s.checks := by omega
    rw [this]; exact hcf

/-- A sliced tone under any cancel behaviour: it returns, and its outcome is
the uncancelled outcome (delays of at most 5 ms adding up to the rest of the
tone) cut short at the first check that sees the cancel flag. -/
theorem tone_loop_cut (env : PbEnv) (flash : Bool) (dur : Nat) (hdur : dur < 4294967296) :
    ∀ (fuel played : Nat), played ≤ dur → (dur + 4 - played) / 5 < fuel →
      ∃ ds : List Nat, ds.sum = dur - played ∧ (∀ d ∈ ds, 0 < d ∧ d ≤ 5) ∧
        (∀ s : Playback, tone_loop (no_cancel env) flash dur fuel played s =
          some { s with checks := s.checks + ds.length, out := s.out ++ ds.map Ev.delay }) ∧
        ∀ s : Playback, speaker_held s.out = true →
          ∃ r, tone_loop env flash dur fuel played s = some r ∧
            cut_short env flash s
              { s with checks := s.checks + ds.length, out := s.out ++ ds.map Ev.delay } r := by
  intro fuel
  induction fuel with
  | zero => intro t _ h; omega
  | succ n ih =>
    intro played hle hfuel
    have hnc : ∀ k, (no_cancel env).cancel k = false := fun _ => rfl
    by_cases hlt : played < dur
    · by_cases h5 : dur - played > 5
      · have hu : u32 (played + 5) = played + 5 := u32_of_lt (by omega)
        obtain ⟨ds, hsum, hall, hquiet, hcut⟩ := ih (played + 5) (by omega) (by omega)
        refine ⟨5 :: ds, by simp [hsum]; omega, ?_, ?_, ?_⟩
        · intro d hd
          rcases List.mem_cons.1 hd with h | h
          · omega
          · exact hall d h
        · intro s
          unfold tone_loop
          rw [if_pos hlt, hnc]
          simp only [Bool.false_eq_true, if_false, h5, if_true, hu]
          rw [hquiet]
          simp only [List.length_cons, List.map_cons, List.append_assoc, List.singleton_append]
          congr 2
          omega
        · exact tone_loop_cut_step env flash dur n played 5 ds hlt (by simp [h5]) hu hcut
      · have hu : u32 (played + (dur - played)) = played + (dur - played) :=
          u32_of_lt (by omega)
        obtain ⟨ds, hsum, hall, hquiet, hcut⟩ :=
          ih (played + (dur - played)) (by omega) (by omega)
        refine ⟨(dur - played) :: ds, by simp [hsum]; omega, ?_, ?_, ?_⟩
        · intro d hd
          rcases List.mem_cons.1 hd with h | h
          · omega
          · exact hall d h
        · intro s
          unfold tone_loop
          rw [if_pos hlt, hnc]
          simp only [Bool.false_eq_true, if_false, h5, hu]
          rw [hquiet]
          simp only [List.length_cons, List.map_cons, List.append_assoc, List.singleton_append]
          congr 2
          omega
        · exact tone_loop_cut_step env flash dur n played (dur - played) ds hlt (by simp [h5])
            hu hcut
    · refine ⟨[], by simp; omega, by simp, ?_, ?_⟩
      · intro s
        unfold tone_loop
        rw [if_neg hlt]
        simp
      · intro s _
        unfold tone_loop
        rw [if_neg hlt]
        refine ⟨s, rfl, ?_⟩
        simpa using cut_short_refl env flash s s rfl

theorem advances_refl (s : Playback) (hc : s.cancelled = false)
    (hh : speaker_held s.out = false) : advances s s :=
  ⟨hc, rfl, Nat.le_refl _, hh, [], by simp, by simp⟩

theorem advances_trans (s q1 q2 : Playback) (h1 : advances s q1) (h2 : advances q1 q2) :
    advances s q2 := by
  obtain ⟨-, hp1, hk1, -, E1, ho1, hf1⟩ := h1
  obtain ⟨hc2, hp2, hk2, hh2, E2, ho2, hf2⟩ := h2
  refine ⟨hc2, hp2.trans hp1, Nat.le_trans hk1 hk2, hh2, E1 ++ E2, ?_, ?_⟩
  · rw [ho2, ho1, List.append_assoc]
  · intro h
    rcases List.mem_append.1 h with h | h
    · exact hf1 h
    · exact hf2 h

theorem advances_out (s q : Playback) (h : advances s q) : s.out <+: q.out := by
  obtain ⟨-, -, -, -, E, ho, -⟩ := h
  rw [ho]
  exact List.prefix_append _ _

/-- An outcome cut short in a first piece stays cut short when the uncancelled
run goes on. -/
theorem cut_short_later (env : PbEnv) (flash : Bool) (s q1 q2 r : Playback)
    (h : cut_short env flash s q1 r) (hr : r.cancelled = true) (hq1 : q1.cancelled = false)
    (hout : q1.out <+: q2.out) (hck : q1.checks ≤ q2.checks) : cut_short env flash s q2 r := by
  rcases h with ⟨hrq, -⟩ | ⟨hc, hp, hlt, hle, hlast, hall, pre, hpre1, hpre2, hrout⟩
  · rw [hrq, hq1] at hr
    exact absurd hr (by simp)
  · exact Or.inr ⟨hc, hp, hlt, Nat.le_trans hle hck, hlast, hall, pre, hpre1,
      hpre2.trans hout, hrout⟩

/-- Two pieces in sequence (the second one skipped after a cancel) behave
well when each of them does. -/
theorem and_then_piece (env : PbEnv) (flash : Bool)
    (L1 L2 : PbEnv → Playback → Option Playback) (s : Playback)
    (h1 : piece_ok env flash L1 s)
    (h2 : ∀ q, q.cancelled = false → speaker_held q.out = false → piece_ok env flash L2 q) :
    piece_ok env flash (fun e x => and_then (L1 e x) (L2 e)) s := by
  obtain ⟨q1, r1, hq1, hr1, hadv1, hcut1⟩ := h1
  obtain ⟨q2, r2, hq2, hr2, hadv2, hcut2⟩ := h2 q1 hadv1.1 hadv1.2.2.2.1
  have hquiet : and_then (L1 (no_cancel env) s) (L2 (no_cancel env)) = some q2 := by
    rw [hq1, and_then_some q1 _ hadv1.1, hq2]
  by_cases hc : r1.cancelled = true
  · refine ⟨q2, r1, hquiet, ?_, advances_trans s q1 q2 hadv1 hadv2, ?_⟩
    · show and_then (L1 env s) (L2 env) = some r1
      rw [hr1]
      simp [and_then, hc]
    · exact cut_short_later env flash s q1 q2 r1 hcut1 hc hadv1.1
        (advances_out q1 q2 hadv2) hadv2.2.2.1
  · have hcf : r1.cancelled = false := by simpa using hc
    have hrq : r1 = q1 ∧ ∀ k, s.checks ≤ k → k < q1.checks → env.cancel k = false := by
      rcases hcut1 with h | h
      · exact h
      · exact absurd h.1 hc
    refine ⟨q2, r2, hquiet, ?_, advances_trans s q1 q2 hadv1 hadv2, ?_⟩
    · show and_then (L1 env s) (L2 env) = some r2
      rw [hr1, and_then_some r1 _ hcf, hrq.1, hr2]
    · exact cut_short_extend env flash s q1 q2 r2 hcut2 (advances_out s q1 hadv1)
        hadv1.2.2.1 hrq.2 hadv1.2.1

/-- A sliced gap in a run with the speaker released behaves well. -/
theorem gap_piece (env : PbEnv) (flash : Bool) (ms fuel : Nat) (hms : ms < 4294967296)
    (hfuel : ms + 4 < 5 * fuel) (s : Playback) (hc : s.cancelled = false)
    (hh : speaker_held s.out = false) :
    piece_ok env flash (fun e x => gap_loop e ms fuel 0 x) s := by
  obtain ⟨r, hrun, hcut⟩ := gap_loop_cut env flash ms hms fuel 0 s rfl (by omega) hh
  refine ⟨_, r, gap_loop_quiet (no_cancel env) (fun _ => rfl) ms hms fuel 0 s rfl (by omega),
    hrun, ?_, hcut⟩
  refine ⟨hc, rfl, Nat.le_add_right _ _, ?_, _, rfl, ?_⟩
  · show speaker_held (s.out ++ List.replicate ((ms + 4 - 0) / 5) (Ev.delay 5)) = false
    unfold speaker_held at hh ⊢
    rw [held_from_append, held_from_replicate, hh]
  · intro h
    have := List.eq_of_mem_replicate h
    exact absurd this (by decide)

theorem speaker_held_started (out : List Ev) (flash : Bool) :
    speaker_held (out ++ led_on flash ++ [Ev.speaker_start]) = true := by
  unfold speaker_held
  rw [held_from_append]
  rfl

theorem speaker_held_stopped (out : List Ev) (flash : Bool) :
    speaker_held (out ++ [Ev.speaker_stop, Ev.speaker_release] ++ led_off flash) = false := by
  unfold speaker_held
  rw [held_from_append, held_from_led_off, held_from_append]
  rfl

theorem flash_red_not_mem_tone (flash : Bool) (ds : List Nat) :
    Ev.flash_red ∉ led_on flash ++ [Ev.speaker_start] ++ ds.map Ev.delay
      ++ [Ev.speaker_stop, Ev.speaker_release] ++ led_off flash := by
  intro h
  simp only [List.mem_append, List.mem_map, List.mem_cons, List.mem_singleton] at h
  rcases h with (((h | h) | h) | h) | h
  · cases flash <;> simp [led_on] at h
  · exact absurd h (by decide)
  · obtain ⟨d, -, hd⟩ := h
    exact absurd hd (by simp)
  · rcases h with h | h | h
    · exact absurd h (by decide)
    · exact absurd h (by decide)
    · simp at h
  · cases flash <;> simp [led_off] at h

/-- The tone of one element (or the silent delay that replaces it when the
speaker cannot be acquired), in a run with the speaker released, behaves
well. -/
theorem tone_piece (env : PbEnv) (flash : Bool) (dur fuel : Nat) (hdur : dur < 4294967296)
    (hfuel : dur + 4 < 5 * fuel) (s : Playback) (hc : s.cancelled = false)
    (hh : speaker_held s.out = false) :
    piece_ok env flash
      (fun e x =>
        if e.acquire x.acquires then
          and_then
            (tone_loop e flash dur fuel 0
              { x with
                acquires := x.acquires + 1
                out := x.out ++ led_on flash ++ [Ev.speaker_start] })
            (fun s1 => some { s1 with
              out := s1.out ++ [Ev.speaker_stop, Ev.speaker_release] ++ led_off flash })
        else gap_loop e dur fuel 0 { x with acquires := x.acquires + 1 }) s := by
  by_cases hacq : env.acquire s.acquires = true
  · have hacq2 : (no_cancel env).acquire s.acquires = true := hacq
    obtain ⟨ds, -, -, hquiet, hcut⟩ := tone_loop_cut env flash dur hdur fuel 0 (by omega) (by omega)
    obtain ⟨r1, hr1, hcs⟩ := hcut
      { s with acquires := s.acquires + 1, out := s.out ++ led_on flash ++ [Ev.speaker_start] }
      (speaker_held_started s.out flash)
    have hadv : advances s
        { s with
          checks := s.checks + ds.length
          acquires := s.acquires + 1
          out := s.out ++ led_on flash ++ [Ev.speaker_start] ++ ds.map Ev.delay
            ++ [Ev.speaker_stop, Ev.speaker_release] ++ led_off flash } := by
      refine ⟨hc, rfl, Nat.le_add_right _ _, speaker_held_stopped _ flash,
        led_on flash ++ [Ev.speaker_start] ++ ds.map Ev.delay
          ++ [Ev.speaker_stop, Ev.speaker_release] ++ led_off flash, ?_,
        flash_red_not_mem_tone flash ds⟩
      simp [List.append_assoc]
    have hqrun : (if (no_cancel env).acquire s.acquires = true then
          and_then
            (tone_loop (no_cancel env) flash dur fuel 0
              { s with
                acquires := s.acquires + 1
                out := s.out ++ led_on flash ++ [Ev.speaker_start] })
            (fun s1 => some { s1 with
              out := s1.out ++ [Ev.speaker_stop, Ev.speaker_release] ++ led_off flash })
        else gap_loop (no_cancel env) dur fuel 0 { s with acquires := s.acquires + 1 })
        = some { s with
          checks := s.checks + ds.length
          acquires := s.acquires + 1
          out := s.out ++ led_on flash ++ [Ev.speaker_start] ++ ds.map Ev.delay
            ++ [Ev.speaker_stop, Ev.speaker_release] ++ led_off flash } := by
      rw [if_pos hacq2, hquiet]
      simp [and_then, hc]
    by_cases hrc : r1.cancelled = true
    · refine ⟨_, r1, hqrun, ?_, hadv, ?_⟩
      · show (if env.acquire s.acquires = true then _ else _) = some r1
        rw [if_pos hacq, hr1]
        simp [and_then, hrc]
      · have h1 := cut_short_later env flash _ _
          { s with
            checks := s.checks + ds.length
            acquires := s.acquires + 1
            out := s.out ++ led_on flash ++ [Ev.speaker_start] ++ ds.map Ev.delay
              ++ [Ev.speaker_stop, Ev.speaker_release] ++ led_off flash }
          r1 hcs hrc hc (by simp [List.append_assoc]) (Nat.le_refl _)
        exact cut_short_extend env flash s _ _ r1 h1 (by simp [List.append_assoc])
          (Nat.le_refl _) (fun k h1 h2 => absurd h2 (by show ¬ k < s.checks; omega)) rfl
    · have hrcf : r1.cancelled = false := by simpa using hrc
      have hrq : r1 = ({ s with
            checks := s.checks + ds.length
            acquires := s.acquires + 1
            out := s.out ++ led_on flash ++ [Ev.speaker_start] ++ ds.map Ev.delay } : Playback) ∧
          ∀ k, s.checks ≤ k → k < s.checks + ds.length → env.cancel k = false := by
        rcases hcs with h | h
        · exact h
        · exact absurd h.1 hrc
      refine ⟨_, _, hqrun, ?_, hadv, Or.inl ⟨rfl, hrq.2⟩⟩
      show (if env.acquire s.acquires = true then _ else _) = some _
      rw [if_pos hacq, hr1, hrq.1]
      simp [and_then, hc]
  · have hacq2 : ¬ (no_cancel env).acquire s.acquires = true := hacq
    obtain ⟨q, r, hq, hr, hadv, hcut⟩ :=
      gap_piece env flash dur fuel hdur hfuel { s with acquires := s.acquires + 1 } hc hh
    refine ⟨q, r, ?_, ?_, hadv, hcut⟩
    · show (if (no_cancel env).acquire s.acquires = true then _ else _) = some q
      rw [if_neg hacq2]
      exact hq
    · show (if env.acquire s.acquires = true then _ else _) = some r
      rw [if_neg hacq]
      exact hr

theorem u32_lt (n : Nat) : u32 n < 4294967296 := Nat.mod_lt _ (by decide)

theorem skip_piece (env : PbEnv) (flash : Bool) (s : Playback) (hc : s.cancelled = false)
    (hh : speaker_held s.out = false) :
    piece_ok env flash (fun _ x => some x) s :=
  ⟨s, s, rfl, rfl, advances_refl s hc hh, cut_short_refl env flash s s rfl⟩

/-- One element of a code (tone or substitute delay, then the intra-element gap
when more elements follow) behaves well under any cancel behaviour and any
result of the acquisition. -/
theorem element_piece (env : PbEnv) (flash : Bool) (dit fuel : Nat) (hdit : dit < 4294967296)
    (hfuel : enough_fuel dit fuel) (sym : Char) (more : Bool) (s : Playback)
    (hc : s.cancelled = false) (hh : speaker_held s.out = false) :
    piece_ok env flash (fun e x => play_element e flash dit fuel sym more x) s := by
  have hdur : tone_duration dit sym < 4294967296 := by
    unfold tone_duration
    split
    · exact hdit
    · exact u32_lt _
  have hdf : tone_duration dit sym + 4 < 5 * fuel := by
    unfold tone_duration
    split
    · exact hfuel.1
    · exact hfuel.2.1
  have h1 := tone_piece env flash (tone_duration dit sym) fuel hdur hdf s hc hh
  have h2 : ∀ q : Playback, q.cancelled = false → speaker_held q.out = false →
      piece_ok env flash (fun e x => if more then gap_loop e dit fuel 0 x else some x) q := by
    intro q hqc hqh
    cases more
    · exact skip_piece env flash q hqc hqh
    · exact gap_piece env flash dit fuel hdit hfuel.1 q hqc hqh
  exact and_then_piece env flash _ _ s h1 h2

/-- The elements of a code, one after the other, behave well. -/
theorem code_piece (env : PbEnv) (flash : Bool) (dit fuel : Nat) (hdit : dit < 4294967296)
    (hfuel : enough_fuel dit fuel) :
    ∀ (code : List Char) (s : Playback), s.cancelled = false → speaker_held s.out = false →
      piece_ok env flash (fun e x => play_code e flash dit fuel code x) s := by
  intro code
  induction code with
  | nil => intro s hc hh; exact skip_piece env flash s hc hh
  | cons sym rest ih =>
    intro s hc hh
    exact and_then_piece env flash
      (fun e x => play_element e flash dit fuel sym (decide (rest ≠ [])) x)
      (fun e x => play_code e flash dit fuel rest x) s
      (element_piece env flash dit fuel hdit hfuel sym _ s hc hh) ih

/-- The rendering of one character after its cancel check (word gap, letter gap
for an unmapped character, or the code followed by the letter gap) behaves
well. -/
theorem char_piece (env : PbEnv) (flash : Bool) (dit fuel : Nat) (hdit : dit < 4294967296)
    (hfuel : enough_fuel dit fuel) (c : Char) (s : Playback)
    (hc : s.cancelled = false) (hh : speaker_held s.out = false) :
    piece_ok env flash
      (fun e x =>
        if c = ' ' then gap_loop e (u32 (7 * dit)) fuel 0 x
        else
          match playback_lookup c symbol_array morse_array with
          | none => gap_loop e (u32 (3 * dit)) fuel 0 x
          | some code =>
            and_then (play_code e flash dit fuel code x) (gap_loop e (u32 (3 * dit)) fuel 0)) s := by
  by_cases hsp : c = ' '
  · simp only [hsp, if_true]
    exact gap_piece env flash _ fuel (u32_lt _) hfuel.2.2 s hc hh
  · simp only [hsp, if_false]
    cases hl : playback_lookup c symbol_array morse_array with
    | none => exact gap_piece env flash _ fuel (u32_lt _) hfuel.2.1 s hc hh
    | some code =>
      exact and_then_piece env flash
        (fun e x => play_code e flash dit fuel code x)
        (fun e x => gap_loop e (u32 (3 * dit)) fuel 0 x) s
        (code_piece env flash dit fuel hdit hfuel code s hc hh)
        (fun q hqc hqh => gap_piece env flash _ fuel (u32_lt _) hfuel.2.1 q hqc hqh)

/-- The loop over the characters of a text behaves well under any cancel
behaviour and any results of the acquisitions: it returns, and its outcome is
the uncancelled outcome cut short at the first check that sees the flag. -/
theorem text_piece (env : PbEnv) (flash : Bool) (dit fuel : Nat) (hdit : dit < 4294967296)
    (hfuel : enough_fuel dit fuel) :
    ∀ (text : List Char) (s : Playback), s.cancelled = false → speaker_held s.out = false →
      piece_ok env flash (fun e x => play_text e flash dit fuel text x) s := by
  intro text
  induction text with
  | nil => intro s hc hh; exact skip_piece env flash s hc hh
  | cons c0 rest ih =>
    intro s hc hh
    by_cases hnul : c0 = Char.ofNat 0
    · refine ⟨s, s, ?_, ?_, advances_refl s hc hh, cut_short_refl env flash s s rfl⟩
      · show play_text (no_cancel env) flash dit fuel (c0 :: rest) s = some s
        simp [play_text, hnul]
      · show play_text env flash dit fuel (c0 :: rest) s = some s
        simp [play_text, hnul]
    · obtain ⟨q, r, hq, hr, hadv, hcut⟩ := and_then_piece env flash _
        (fun e x => play_text e flash dit fuel rest x) { s with checks := s.checks + 1 }
        (char_piece env flash dit fuel hdit hfuel (to_upper c0)
          { s with checks := s.checks + 1 } hc hh) ih
      have hadv2 : advances s q := by
        obtain ⟨h1, h2, h3, h4, E, h5, h6⟩ := hadv
        exact ⟨h1, h2, by have : s.checks + 1 ≤ q.checks := h3; omega, h4, E, h5, h6⟩
      have hqrun : play_text (no_cancel env) flash dit fuel (c0 :: rest) s = some q := by
        have hnc : (no_cancel env).cancel s.checks = false := rfl
        unfold play_text
        simp only [hnul, if_false, hnc, Bool.false_eq_true]
        exact hq
      by_cases hcan : env.cancel s.checks = true
      · refine ⟨q, { s with
            checks := s.checks + 1, out := s.out ++ [Ev.flash_red], cancelled := true },
          hqrun, ?_, hadv2, Or.inr ⟨rfl, rfl, ?_, hadv.2.2.1, ?_, ?_, s.out, List.prefix_refl _,
            advances_out s q hadv2, ?_⟩⟩
        · unfold play_text
          simp only [hnul, if_false, hcan, if_true]
        · show s.checks < s.checks + 1
          omega
        · show env.cancel (s.checks + 1 - 1) = true
          simpa using hcan
        · intro k hk1 hk2
          have : k + 1 < s.checks + 1 := hk2
          omega
        · show s.out ++ [Ev.flash_red] = s.out ++ cancel_tail flash (speaker_held s.out)
          rw [hh]
          rfl
      · have hcf : env.cancel s.checks = false := by simpa using hcan
        refine ⟨q, r, hqrun, ?_, hadv2, ?_⟩
        · unfold play_text
          simp only [hnul, if_false, hcf, Bool.false_eq_true]
          exact hr
        · refine cut_short_extend env flash s _ q r hcut (List.prefix_refl _)
            (Nat.le_succ _) ?_ rfl
          intro k hk1 hk2
          have hk3 : k < s.checks + 1 := hk2
          have : k = s.checks := by omega
          rw [this]; exact hcf

/-! ## Playback: termination -/

theorem enough_fuel_32 (dit : Nat) (hdit : dit < 4294967296) : enough_fuel dit 858993460 := by
  have h1 := u32_lt (3 * dit)
  have h2 := u32_lt (7 * dit)
  unfold enough_fuel
  omega

theorem playback_thread_of_text (env : PbEnv) (fuel : Nat) (flash : Bool) (dit : Nat)
    (text : List Char) (s : Playback)
    (h : play_text env flash dit fuel text playback_start = some s) :
    morse_code_worker_playback_thread env fuel flash dit text
      = some { s with pb_running := false } := by
  unfold morse_code_worker_playback_thread
  rw [h]

theorem speaker_held_start : speaker_held playback_start.out = false := rfl

/-- With the cancel flag never set, an outcome that is cut short is the
uncancelled outcome. -/
theorem cut_short_quiet (env : PbEnv) (hq : ∀ k, env.cancel k = false) (flash : Bool)
    (s q r : Playback) (h : cut_short env flash s q r) : r = q := by
  rcases h with h | h
  · exact h.1
  · have := h.2.2.2.2.1
    rw [hq] at this
    exact absurd this (by simp)

/-- C16. For every input text and every 32-bit dit value (also when `3 * dit`
or `7 * dit` wrap modulo `2^32`), with the cancel flag never set, the playback
thread terminates: given fuel for the longest sliced loop (858993460
iterations suffice for every 32-bit dit) it returns, uncancelled and with
`pb_running` cleared. Every sliced gap loop over a 32-bit length `ms` finishes
after exactly `⌈ms / 5⌉` slices, its counter never wrapping, and every tone
loop finishes after finitely many slices of at most 5 ms that add up to the
duration of the tone. -/
theorem playback_terminates :
    (∀ (env : PbEnv) (flash : Bool) (dit fuel : Nat) (text : List Char),
      (∀ k, env.cancel k = false) → dit < 4294967296 → enough_fuel dit fuel →
      ∃ r, morse_code_worker_playback_thread env fuel flash dit text = some r ∧
        r.cancelled = false ∧ r.pb_running = false) ∧
    (∀ dit : Nat, dit < 4294967296 → enough_fuel dit 858993460) ∧
    (∀ (env : PbEnv) (ms fuel : Nat) (s : Playback),
      (∀ k, env.cancel k = false) → ms < 4294967296 → (ms + 4) / 5 < fuel →
      gap_loop env ms fuel 0 s =
        some { s with
          checks := s.checks + (ms + 4) / 5
          out := s.out ++ List.replicate ((ms + 4) / 5) (Ev.delay 5) }) ∧
    (∀ (env : PbEnv) (flash : Bool) (dur fuel : Nat),
      (∀ k, env.cancel k = false) → dur < 4294967296 → (dur + 4) / 5 < fuel →
      ∃ ds : List Nat, ds.sum = dur ∧ (∀ d ∈ ds, 0 < d ∧ d ≤ 5) ∧
        ∀ s : Playback, tone_loop env flash dur fuel 0 s =
          some { s with checks := s.checks + ds.length, out := s.out ++ ds.map Ev.delay }) := by
  refine ⟨?_, enough_fuel_32, ?_, ?_⟩
  · intro env flash dit fuel text hq hdit hfuel
    obtain ⟨q, r, -, hr, hadv, hcut⟩ :=
      text_piece env flash dit fuel hdit hfuel text playback_start rfl speaker_held_start
    have hrq := cut_short_quiet env hq flash _ q r hcut
    refine ⟨_, playback_thread_of_text env fuel flash dit text r hr, ?_, rfl⟩
    show r.cancelled = false
    rw [hrq]
    exact hadv.1
  · intro env ms fuel s hq hms hfuel
    exact gap_loop_quiet env hq ms hms fuel 0 s rfl (by simpa using hfuel)
  · intro env flash dur fuel hq hdur hfuel
    exact tone_loop_quiet env hq flash dur hdur fuel 0 (Nat.zero_le _) (by simpa using hfuel)

/-- Witness of `playback_terminates`: the text "E e" at the 32-bit dit
1431655766, for which `3 * dit` wraps to 2 and `7 * dit` to 1431655770. -/
theorem playback_terminates_witness :
    u32 (3 * 1431655766) = 2 ∧ u32 (7 * 1431655766) = 1431655770 ∧
    ∃ r, morse_code_worker_playback_thread quiet_env 858993460 true 1431655766 ['E', ' ', 'e']
        = some r ∧
      r.cancelled = false ∧ r.pb_running = false :=
  ⟨by decide, by decide,
    playback_terminates.1 quiet_env true 1431655766 858993460 ['E', ' ', 'e'] (fun _ => rfl)
      (by decide) (playback_terminates.2.1 1431655766 (by decide))⟩

/-! ## Playback: the cancel actions at the end of a trace -/

theorem count_flash_red_cut (flash : Bool) (pre : List Ev) (h : Ev.flash_red ∉ pre) :
    (pre ++ cancel_tail flash (speaker_held pre)).count Ev.flash_red = 1 := by
  rw [List.count_append, List.count_eq_zero_of_not_mem h, (cancel_tail_shape flash _).2.1]

theorem getLast_cut (flash : Bool) (pre : List Ev) :
    (pre ++ cancel_tail flash (speaker_held pre)).getLast? = some Ev.flash_red := by
  have h := (cancel_tail_shape flash (speaker_held pre)).2.2
  have hne : cancel_tail flash (speaker_held pre) ≠ [] := by
    intro he
    rw [he] at h
    simp at h
  rw [List.getLast?_append_of_ne_nil _ hne]
  exact h

/-! ## The app: indices of the model -/

theorem menu_event_ok (m m1 : MorseCodeModel) (e : InputEvent) (calls : List WorkerCall)
    (h : indices_ok m) (hev : menu_event m e = some (m1, calls)) : indices_ok m1 := by
  obtain ⟨hv, hm, hl⟩ := h
  have hdown : u8 ((m.menu_index + 1) % 4) ≤ 3 := by
    unfold u8; omega
  unfold menu_event at hev
  split_ifs at hev <;> simp only [Option.some.injEq, Prod.mk.injEq] at hev <;>
    obtain ⟨rfl, -⟩ := hev <;> refine ⟨hv, ?_, hl⟩ <;>
    first
      | exact hm
      | exact hdown
      | exact Nat.le_refl 3
      | (show u8 (m.menu_index - 1) ≤ 3
         unfold u8; omega)

theorem lookup_pressed_ok (m : MorseCodeModel) (e : InputEvent) (h : indices_ok m) :
    indices_ok (lookup_pressed m e).1 := by
  obtain ⟨hv, hm, hl⟩ := h
  have hdown : u8 ((m.lookup_index + 1) % u8 LOOKUP_ALPHABET_LEN) ≤ 36 := by
    have h37 : u8 LOOKUP_ALPHABET_LEN = 37 := by decide
    rw [h37]
    unfold u8; omega
  unfold lookup_pressed
  split_ifs <;> refine ⟨hv, hm, ?_⟩ <;>
    first
      | exact hl
      | exact hdown
      | (show u8 (LOOKUP_ALPHABET_LEN - 1) ≤ 36
         decide)
      | (show u8 (m.lookup_index - 1) ≤ 36
         unfold u8; omega)

theorem lookup_event_ok (m m1 : MorseCodeModel) (e : InputEvent) (calls : List WorkerCall)
    (h : indices_ok m) (hev : lookup_event m e = some (m1, calls)) : indices_ok m1 := by
  have hp := lookup_pressed_ok m e h
  unfold lookup_event at hev
  by_cases hg : m.lookup_ok_guard = true ∧ e.key = InputKey.ok
  · rw [if_pos hg] at hev
    simp only [Option.some.injEq, Prod.mk.injEq] at hev
    obtain ⟨rfl, -⟩ := hev
    split
    · exact h
    · exact h
  · rw [if_neg hg] at hev
    by_cases hc : e.key = InputKey.ok ∧ e.type = InputType.short ∧
        (lookup_pressed m e).1.lookup_ok_guard = false
    · simp only [hc, and_self, if_true, Option.some.injEq, Prod.mk.injEq] at hev
      obtain ⟨rfl, -⟩ := hev
      exact hp
    · simp only [hc, if_false, Option.some.injEq, Prod.mk.injEq] at hev
      obtain ⟨rfl, -⟩ := hev
      exact hp

theorem main_update_ok (m : MorseCodeModel) (e : InputEvent) (h : indices_ok m) :
    indices_ok (main_update m e) := by
  obtain ⟨hv, hm, hl⟩ := h
  unfold main_update
  split_ifs with h1 h2 h3 h4 h5 h6 h7 h8 h9 h10
  all_goals
    first
      | exact ⟨hv, hm, hl⟩
      | exact ⟨hv, Nat.zero_le _, hl⟩
      | (refine ⟨?_, hm, hl⟩
         show u8 (m.volume + 1) ≤ 4
         unfold u8; omega)
      | (refine ⟨?_, hm, hl⟩
         show u8 (m.volume - 1) ≤ 4
         unfold u8; omega)

/-- One iteration of the main loop keeps the indices of the model within
their arrays. -/
theorem app_event_ok (m m1 : MorseCodeModel) (a : Bool) (e : InputEvent)
    (calls : List WorkerCall) (h : indices_ok m) (hev : app_event m a e = some (m1, calls)) :
    indices_ok m1 := by
  unfold app_event at hev
  split_ifs at hev
  · simp only [Option.some.injEq, Prod.mk.injEq] at hev
    obtain ⟨rfl, -⟩ := hev; exact h
  · simp only [Option.some.injEq, Prod.mk.injEq] at hev
    obtain ⟨rfl, -⟩ := hev; exact h
  · simp only [Option.some.injEq, Prod.mk.injEq] at hev
    obtain ⟨rfl, -⟩ := hev; exact h
  · simp only [Option.some.injEq, Prod.mk.injEq] at hev
    obtain ⟨rfl, -⟩ := hev; exact h
  · split at hev
    · exact menu_event_ok m m1 e calls h hev
    · exact lookup_event_ok m m1 e calls h hev
    · unfold main_event at hev
      simp only [Option.some.injEq, Prod.mk.injEq] at hev
      obtain ⟨rfl, -⟩ := hev
      exact main_update_ok m e h

theorem ui_run_ok (steps : List UiStep) :
    ∀ m : MorseCodeModel, indices_ok m → indices_ok (ui_run m steps) := by
  induction steps with
  | nil => intro m h; exact h
  | cons st rest ih =>
    intro m h
    cases st with
    | input a e =>
      unfold ui_run
      cases hev : app_event m a e with
      | none => exact h
      | some p =>
        obtain ⟨m1, calls⟩ := p
        exact ih m1 (app_event_ok m m1 a e calls h hev)
    | worker_cb w =>
      unfold ui_run
      exact ih _ h

/-- C17. For every sequence of input events processed by the main loop (with
any answers of the playback query, and with the worker callback storing texts
in between), starting from the initial model (volume 3, menu_index 0,
lookup_index 0, state MAIN), the model always satisfies volume ≤ 4,
menu_index ≤ 3 and lookup_index ≤ 36, so every read of
`MORSE_CODE_VOLUMES[volume]` (5 entries) and `LOOKUP_ALPHABET[lookup_index]`
(37 characters) is within the array. -/
theorem ui_indices_in_bounds :
    morse_code_alloc.volume = 3 ∧ morse_code_alloc.menu_index = 0 ∧
    morse_code_alloc.lookup_index = 0 ∧ morse_code_alloc.state = AppState.main ∧
    MORSE_CODE_VOLUMES.length = 5 ∧ LOOKUP_ALPHABET.length = 37 ∧
    ∀ steps : List UiStep,
      indices_ok (ui_run morse_code_alloc steps) ∧
      (ui_run morse_code_alloc steps).volume < MORSE_CODE_VOLUMES.length ∧
      (ui_run morse_code_alloc steps).lookup_index < LOOKUP_ALPHABET.length := by
  refine ⟨rfl, rfl, rfl, rfl, rfl, rfl, ?_⟩
  intro steps
  have h := ui_run_ok steps morse_code_alloc (by decide)
  obtain ⟨hv, hm, hl⟩ := h
  refine ⟨⟨hv, hm, hl⟩, ?_, ?_⟩
  · show _ < 5
    omega
  · show _ < 37
    omega

/-! ## Keying while a playback run is active -/

theorem acts_append (a b : List Item) : acts (a ++ b) = acts a ++ acts b := by
  induction a with
  | nil => rfl
  | cons x rest ih => cases x <;> simp [acts, ih]

theorem check_count_append (a b : List Item) :
    check_count (a ++ b) = check_count a + check_count b := by
  induction a with
  | nil => simp [check_count]
  | cons x rest ih => cases x <;> simp [check_count, ih]; omega

theorem acquire_count_append (a b : List Item) :
    acquire_count (a ++ b) = acquire_count a + acquire_count b := by
  induction a with
  | nil => simp [acquire_count]
  | cons x rest ih => cases x <;> simp [acquire_count, ih]; omega

theorem acts_act_items (es : List Ev) : acts (act_items es) = es := by
  induction es with
  | nil => rfl
  | cons e rest ih =>
    show acts (Item.act e :: act_items rest) = e :: rest
    simp [acts, ih]

theorem check_count_act_items (es : List Ev) : check_count (act_items es) = 0 := by
  induction es with
  | nil => rfl
  | cons e rest ih =>
    show check_count (Item.act e :: act_items rest) = 0
    simp [check_count, ih]

theorem acquire_count_act_items (es : List Ev) : acquire_count (act_items es) = 0 := by
  induction es with
  | nil => rfl
  | cons e rest ih =>
    show acquire_count (Item.act e :: act_items rest) = 0
    simp [acquire_count, ih]

theorem acts_slice_items (ds : List Nat) : acts (slice_items ds) = ds.map Ev.delay := by
  induction ds with
  | nil => rfl
  | cons d rest ih => simp [slice_items, acts, ih]

theorem check_count_slice_items (ds : List Nat) : check_count (slice_items ds) = ds.length := by
  induction ds with
  | nil => rfl
  | cons d rest ih => simp [slice_items, check_count, ih]

theorem acquire_count_slice_items (ds : List Nat) : acquire_count (slice_items ds) = 0 := by
  induction ds with
  | nil => rfl
  | cons d rest ih => simp [slice_items, acquire_count, ih]

theorem perform_check (cancel : Nat → Bool) (flash : Bool) (rest : List Item) (s : Playback) :
    perform cancel flash (Item.check :: rest) s
      = if cancel s.checks then
          { s with checks := s.checks + 1,
                   out := s.out ++ cancel_tail flash (speaker_held s.out),
                   cancelled := true }
        else perform cancel flash rest { s with checks := s.checks + 1 } := rfl

theorem perform_acquire (cancel : Nat → Bool) (flash : Bool) (rest : List Item) (s : Playback) :
    perform cancel flash (Item.acquire :: rest) s
      = perform cancel flash rest { s with acquires := s.acquires + 1 } := rfl

theorem perform_act (cancel : Nat → Bool) (flash : Bool) (e : Ev) (rest : List Item)
    (s : Playback) :
    perform cancel flash (Item.act e :: rest) s
      = perform cancel flash rest { s with out := s.out ++ [e] } := rfl

/-- A script performed from an uncancelled state without any of its checkpoints
seeing the flag: all its actions are appended, all its checkpoints and
acquisition attempts counted. -/
theorem perform_clean (cancel : Nat → Bool) (flash : Bool) :
    ∀ (a : List Item) (s : Playback),
      (∀ k, s.checks ≤ k → k < s.checks + check_count a → cancel k = false) →
      perform cancel flash a s
        = { s with checks := s.checks + check_count a,
                   acquires := s.acquires + acquire_count a,
                   out := s.out ++ acts a } := by
  intro a
  induction a with
  | nil => intro s _; simp [perform, check_count, acquire_count, acts]
  | cons x rest ih =>
    intro s h
    cases x with
    | check =>
      have h0 : cancel s.checks = false := h s.checks (Nat.le_refl _) (by simp [check_count])
      rw [perform_check, h0]
      simp only [Bool.false_eq_true, if_false]
      rw [ih]
      · simp [check_count, acquire_count, acts]; omega
      · intro k hk1 hk2
        apply h k
        · simp at hk1; omega
        · simp [check_count] at hk2 ⊢; omega
    | acquire =>
      rw [perform_acquire, ih]
      · simp [check_count, acquire_count, acts]; omega
      · intro k hk1 hk2
        exact h k hk1 (by simpa [check_count] using hk2)
    | act e =>
      rw [perform_act, ih]
      · simp [check_count, acquire_count, acts]
      · intro k hk1 hk2
        exact h k hk1 (by simpa [check_count] using hk2)

/-- A script performed from an uncancelled state ends cancelled exactly when
one of its checkpoints saw the flag. -/
theorem perform_cancelled_iff (cancel : Nat → Bool) (flash : Bool) :
    ∀ (a : List Item) (s : Playback), s.cancelled = false →
      ((perform cancel flash a s).cancelled = true ↔
        ∃ k, s.checks ≤ k ∧ k < s.checks + check_count a ∧ cancel k = true) := by
  intro a
  induction a with
  | nil =>
    intro s hs
    simp [perform, check_count, hs]
    intro k hk1 hk2
    omega
  | cons x rest ih =>
    intro s hs
    cases x with
    | check =>
      rw [perform_check]
      by_cases h0 : cancel s.checks = true
      · rw [if_pos h0]
        simp only [true_iff]
        exact ⟨s.checks, Nat.le_refl _, by simp [check_count], h0⟩
      · rw [if_neg h0, ih { s with checks := s.checks + 1 } hs]
        constructor
        · rintro ⟨k, hk1, hk2, hk3⟩
          refine ⟨k, ?_, ?_, hk3⟩
          · simp at hk1; omega
          · simp [check_count] at hk2 ⊢; omega
        · rintro ⟨k, hk1, hk2, hk3⟩
          have hne : k ≠ s.checks := fun he => h0 (he ▸ hk3)
          refine ⟨k, ?_, ?_, hk3⟩
          · simp; omega
          · simp [check_count] at hk2 ⊢; omega
    | acquire =>
      rw [perform_acquire, ih { s with acquires := s.acquires + 1 } hs]
      simp [check_count]
    | act e =>
      rw [perform_act, ih { s with out := s.out ++ [e] } hs]
      simp [check_count]

/-- A script performed from an uncancelled state that does not end cancelled
has performed all its items. -/
theorem perform_not_cancelled (cancel : Nat → Bool) (flash : Bool) (a : List Item)
    (s : Playback) (hs : s.cancelled = false)
    (h : (perform cancel flash a s).cancelled = false) :
    perform cancel flash a s
      = { s with checks := s.checks + check_count a,
                 acquires := s.acquires + acquire_count a,
                 out := s.out ++ acts a } := by
  apply perform_clean
  intro k hk1 hk2
  by_contra hc
  have hc2 : cancel k = true := by simpa using hc
  have := (perform_cancelled_iff cancel flash a s hs).2 ⟨k, hk1, hk2, hc2⟩
  rw [this] at h
  exact absurd h (by simp)

/-- Two scripts in a row: the second is performed from where the first ended,
unless the first ended cancelled. -/
theorem perform_append (cancel : Nat → Bool) (flash : Bool) (b : List Item) :
    ∀ (a : List Item) (s : Playback), s.cancelled = false →
      perform cancel flash (a ++ b) s
        = if (perform cancel flash a s).cancelled then perform cancel flash a s
          else perform cancel flash b (perform cancel flash a s) := by
  intro a
  induction a with
  | nil =>
    intro s hs
    simp [perform, hs]
  | cons x rest ih =>
    intro s hs
    cases x with
    | check =>
      rw [List.cons_append, perform_check, perform_check]
      by_cases h0 : cancel s.checks = true
      · simp only [if_pos h0]
        simp
      · simp only [if_neg h0]
        exact ih { s with checks := s.checks + 1 } hs
    | acquire =>
      rw [List.cons_append, perform_acquire, perform_acquire]
      exact ih { s with acquires := s.acquires + 1 } hs
    | act e =>
      rw [List.cons_append, perform_act, perform_act]
      exact ih { s with out := s.out ++ [e] } hs

/-- Actions at the head of a script are appended to the trace. -/
theorem perform_acts (cancel : Nat → Bool) (flash : Bool) (b : List Item) :
    ∀ (es : List Ev) (s : Playback),
      perform cancel flash (act_items es ++ b) s
        = perform cancel flash b { s with out := s.out ++ es } := by
  intro es
  induction es with
  | nil => intro s; simp [act_items]
  | cons e rest ih =>
    intro s
    show perform cancel flash (Item.act e :: (act_items rest ++ b)) s = _
    rw [perform_act, ih]
    simp

theorem slice_items_replicate_succ (k : Nat) :
    slice_items (List.replicate (k + 1) 5)
      = Item.check :: Item.act (Ev.delay 5) :: slice_items (List.replicate k 5) := rfl

/-- A sliced gap under any cancel behaviour returns, and it is its script
performed: a checkpoint before each delay of 5 ms, the run ending with the red
flash at the first checkpoint that sees the flag. -/
theorem gap_loop_script (env : PbEnv) (flash : Bool) (ms : Nat) (hms : ms < 4294967296) :
    ∀ (fuel t : Nat) (s : Playback), t % 5 = 0 → (ms + 4 - t) / 5 < fuel →
      speaker_held s.out = false →
      gap_loop env ms fuel t s
        = some (perform env.cancel flash
            (slice_items (List.replicate ((ms + 4 - t) / 5) 5)) s) := by
  intro fuel
  induction fuel with
  | zero => intro t s _ h; omega
  | succ n ih =>
    intro t s ht hfuel hheld
    unfold gap_loop
    by_cases hlt : t < ms
    · rw [if_pos hlt]
      have hk : (ms + 4 - t) / 5 = (ms + 4 - (t + 5)) / 5 + 1 := by omega
      rw [hk, slice_items_replicate_succ, perform_check]
      by_cases hc : env.cancel s.checks = true
      · rw [if_pos hc, if_pos hc, hheld]
        rfl
      · have hu : u32 (t + 5) = t + 5 := u32_of_lt (by omega)
        rw [if_neg hc, if_neg hc, hu, perform_act]
        exact ih (t + 5) { s with checks := s.checks + 1, out := s.out ++ [Ev.delay 5] }
          (by omega) (by omega) (by rw [speaker_held_snoc_delay]; exact hheld)
    · have hk : (ms + 4 - t) / 5 = 0 := by omega
      rw [if_neg hlt, hk]
      rfl

theorem gap_script_run (env : PbEnv) (flash : Bool) (ms fuel : Nat) (hms : ms < 4294967296)
    (hfuel : ms + 4 < 5 * fuel) (s : Playback) (hheld : speaker_held s.out = false) :
    gap_loop env ms fuel 0 s = some (perform env.cancel flash (gap_script ms) s) := by
  have h := gap_loop_script env flash ms hms fuel 0 s rfl (by omega) hheld
  simpa [gap_script] using h

theorem tone_slices_zero : tone_slices 0 = [] := rfl

theorem tone_slices_last (n : Nat) (h0 : 0 < n) (h5 : n ≤ 5) : tone_slices n = [n] := by
  interval_cases n <;> rfl

theorem tone_slices_step (n : Nat) (h : 5 < n) : tone_slices n = 5 :: tone_slices (n - 5) := by
  unfold tone_slices
  have h1 : n / 5 = (n - 5) / 5 + 1 := by omega
  have h2 : n % 5 = (n - 5) % 5 := by omega
  rw [h1, h2, List.replicate_succ]
  rfl

/-- A sliced tone with the speaker held, under any cancel behaviour, returns,
and it is its script performed: a checkpoint before each slice (slices of 5 ms
and a last one for the remainder), the run ending with the stop and release of
the speaker and the red flash at the first checkpoint that sees the flag. -/
theorem tone_loop_script (env : PbEnv) (flash : Bool) (dur : Nat) (hdur : dur < 4294967296) :
    ∀ (fuel played : Nat) (s : Playback), played ≤ dur → (dur + 4 - played) / 5 < fuel →
      speaker_held s.out = true →
      tone_loop env flash dur fuel played s
        = some (perform env.cancel flash (slice_items (tone_slices (dur - played))) s) := by
  intro fuel
  induction fuel with
  | zero => intro played s _ h; omega
  | succ n ih =>
    intro played s hle hfuel hheld
    unfold tone_loop
    by_cases hlt : played < dur
    · rw [if_pos hlt]
      by_cases h5 : dur - played > 5
      · rw [tone_slices_step _ h5]
        have hsl : slice_items (5 :: tone_slices (dur - played - 5))
            = Item.check :: Item.act (Ev.delay 5) :: slice_items (tone_slices (dur - played - 5)) :=
          rfl
        rw [hsl, perform_check]
        by_cases hc : env.cancel s.checks = true
        · rw [if_pos hc, if_pos hc, hheld]
          simp [cancel_tail, List.append_assoc]
        · have hu : u32 (played + 5) = played + 5 := u32_of_lt (by omega)
          rw [if_neg hc, if_neg hc, perform_act]
          simp only [if_pos h5, hu]
          have hd : dur - played - 5 = dur - (played + 5) := by omega
          rw [hd]
          exact ih (played + 5) { s with checks := s.checks + 1, out := s.out ++ [Ev.delay 5] }
            (by omega) (by omega) (by rw [speaker_held_snoc_delay]; exact hheld)
      · rw [tone_slices_last _ (by omega) (by omega)]
        have hsl : slice_items [dur - played]
            = Item.check :: Item.act (Ev.delay (dur - played)) :: slice_items (tone_slices 0) :=
          rfl
        rw [hsl, perform_check]
        by_cases hc : env.cancel s.checks = true
        · rw [if_pos hc, if_pos hc, hheld]
          simp [cancel_tail, List.append_assoc]
        · have hu : u32 (played + (dur - played)) = dur := by
            have : played + (dur - played) = dur := by omega
            rw [this]; exact u32_of_lt hdur
          rw [if_neg hc, if_neg hc, perform_act]
          simp only [if_neg h5, hu]
          have hd : (0 : Nat) = dur - dur := by omega
          rw [hd]
          exact ih dur { s with checks := s.checks + 1, out := s.out ++ [Ev.delay (dur - played)] }
            (Nat.le_refl _) (by omega) (by rw [speaker_held_snoc_delay]; exact hheld)
    · have hk : dur - played = 0 := by omega
      rw [if_neg hlt, hk]
      rfl

/-- Two pieces of a run in a row: when the first is the script `a` performed
and the second, from the state the first leaves uncancelled, is the script `b`
performed, the two are the script `a ++ b` performed. -/
theorem and_then_perform (cancel : Nat → Bool) (flash : Bool) (L1 : Option Playback)
    (L2 : Playback → Option Playback) (a b : List Item) (s : Playback)
    (hs : s.cancelled = false)
    (h1 : L1 = some (perform cancel flash a s))
    (h2 : (perform cancel flash a s).cancelled = false →
      L2 { s with checks := s.checks + check_count a,
                  acquires := s.acquires + acquire_count a,
                  out := s.out ++ acts a }
        = some (perform cancel flash b
            { s with checks := s.checks + check_count a,
                     acquires := s.acquires + acquire_count a,
                     out := s.out ++ acts a })) :
    and_then L1 L2 = some (perform cancel flash (a ++ b) s) := by
  rw [h1, perform_append cancel flash b a s hs]
  unfold and_then
  by_cases hc : (perform cancel flash a s).cancelled = true
  · simp only [hc, if_true]
  · have hcf : (perform cancel flash a s).cancelled = false := by simpa using hc
    have he := perform_not_cancelled cancel flash a s hs hcf
    simp only [hcf, Bool.false_eq_true, if_false]
    rw [he]
    exact h2 hcf

theorem perform_act_items (cancel : Nat → Bool) (flash : Bool) (es : List Ev) (s : Playback) :
    perform cancel flash (act_items es) s = { s with out := s.out ++ es } := by
  have h := perform_acts cancel flash [] es s
  simpa [perform] using h

theorem acts_gap_script (ms : Nat) :
    acts (gap_script ms) = List.replicate ((ms + 4) / 5) (Ev.delay 5) := by
  unfold gap_script
  rw [acts_slice_items, List.map_replicate]

theorem acts_tone_script (flash : Bool) (dur : Nat) :
    acts (tone_script flash dur)
      = led_on flash ++ [Ev.speaker_start] ++ (tone_slices dur).map Ev.delay
          ++ ([Ev.speaker_stop, Ev.speaker_release] ++ led_off flash) := by
  unfold tone_script
  rw [acts_append, acts_append, acts_act_items, acts_act_items, acts_slice_items]

theorem acquire_count_gap_script (ms : Nat) : acquire_count (gap_script ms) = 0 :=
  acquire_count_slice_items _

theorem acquire_count_tone_script (flash : Bool) (dur : Nat) :
    acquire_count (tone_script flash dur) = 0 := by
  unfold tone_script
  rw [acquire_count_append, acquire_count_append, acquire_count_act_items,
    acquire_count_act_items, acquire_count_slice_items]

theorem acquire_count_element_script (flash : Bool) (dit : Nat) (ok : Bool) (sym : Char)
    (more : Bool) : acquire_count (element_script flash dit ok sym more) = 1 := by
  unfold element_script
  cases ok <;> cases more <;>
    simp [acquire_count, acquire_count_append, acquire_count_gap_script,
      acquire_count_tone_script]

theorem speaker_held_gap_script (out : List Ev) (ms : Nat) :
    speaker_held (out ++ acts (gap_script ms)) = speaker_held out := by
  unfold speaker_held
  rw [held_from_append, acts_gap_script, held_from_replicate]

theorem speaker_held_tone_script (out : List Ev) (flash : Bool) (dur : Nat) :
    speaker_held (out ++ acts (tone_script flash dur)) = false := by
  unfold speaker_held
  rw [acts_tone_script, held_from_append, held_from_append, held_from_append,
    held_from_led_off, held_from_append]
  rfl

theorem speaker_held_element_script (out : List Ev) (flash : Bool) (dit : Nat) (ok : Bool)
    (sym : Char) (more : Bool) (h : speaker_held out = false) :
    speaker_held (out ++ acts (element_script flash dit ok sym more)) = false := by
  have hacts : acts (element_script flash dit ok sym more)
      = acts (if ok then tone_script flash (tone_duration dit sym)
          else gap_script (tone_duration dit sym))
        ++ acts (if more then gap_script dit else []) := by
    unfold element_script
    show acts (_ ++ _) = _
    rw [acts_append]
  have h1 : speaker_held (out ++ acts (if ok then tone_script flash (tone_duration dit sym)
      else gap_script (tone_duration dit sym))) = false := by
    cases ok
    · simp only [Bool.false_eq_true, if_false]
      rw [speaker_held_gap_script]; exact h
    · simp only [if_true]
      exact speaker_held_tone_script _ _ _
  rw [hacts, ← List.append_assoc]
  cases more
  · simpa [acts] using h1
  · simp only [if_true]
    rw [speaker_held_gap_script]; exact h1

theorem flash_red_not_mem_gap_script (ms : Nat) : Ev.flash_red ∉ acts (gap_script ms) := by
  rw [acts_gap_script]
  intro h
  have := List.eq_of_mem_replicate h
  cases this

theorem flash_red_not_mem_tone_script (flash : Bool) (dur : Nat) :
    Ev.flash_red ∉ acts (tone_script flash dur) := by
  rw [acts_tone_script, ← List.append_assoc]
  exact flash_red_not_mem_tone flash (tone_slices dur)

theorem flash_red_not_mem_element_script (flash : Bool) (dit : Nat) (ok : Bool) (sym : Char)
    (more : Bool) : Ev.flash_red ∉ acts (element_script flash dit ok sym more) := by
  have hacts : acts (element_script flash dit ok sym more)
      = acts (if ok then tone_script flash (tone_duration dit sym)
          else gap_script (tone_duration dit sym))
        ++ acts (if more then gap_script dit else []) := by
    unfold element_script
    show acts (_ ++ _) = _
    rw [acts_append]
  rw [hacts]
  intro h
  rcases List.mem_append.1 h with h | h
  · cases ok
    · exact flash_red_not_mem_gap_script _ (by simpa using h)
    · exact flash_red_not_mem_tone_script _ _ (by simpa using h)
  · cases more
    · simp [acts] at h
    · exact flash_red_not_mem_gap_script _ (by simpa using h)

/-- One element of a code under any cancel behaviour returns, and it is its
script performed. -/
theorem play_element_script (env : PbEnv) (flash : Bool) (dit fuel : Nat)
    (hdit : dit < 4294967296) (hfuel : enough_fuel dit fuel) (sym : Char) (more : Bool)
    (s : Playback) (hc : s.cancelled = false) (hh : speaker_held s.out = false) :
    play_element env flash dit fuel sym more s
      = some (perform env.cancel flash
          (element_script flash dit (env.acquire s.acquires) sym more) s) := by
  have hdur : tone_duration dit sym < 4294967296 := by
    unfold tone_duration
    split_ifs
    · exact hdit
    · exact u32_lt _
  have hdf : tone_duration dit sym + 4 < 5 * fuel := by
    unfold tone_duration
    split_ifs
    · exact hfuel.1
    · exact hfuel.2.1
  unfold play_element element_script
  rw [perform_acquire]
  apply and_then_perform env.cancel flash _ _ _ _ { s with acquires := s.acquires + 1 } hc
  · cases hok : env.acquire s.acquires
    · simp only [Bool.false_eq_true, if_false]
      exact gap_script_run env flash _ fuel hdur hdf _ hh
    · simp only [if_true]
      unfold tone_script
      rw [List.append_assoc (act_items _), perform_acts]
      have hheld : speaker_held (s.out ++ (led_on flash ++ [Ev.speaker_start])) = true := by
        rw [← List.append_assoc]; exact speaker_held_started s.out flash
      have hout : s.out ++ led_on flash ++ [Ev.speaker_start]
          = s.out ++ (led_on flash ++ [Ev.speaker_start]) := List.append_assoc _ _ _
      simp only [hout]
      apply and_then_perform env.cancel flash _ _ _ _
        { s with acquires := s.acquires + 1,
                 out := s.out ++ (led_on flash ++ [Ev.speaker_start]) } hc
      · have h := tone_loop_script env flash (tone_duration dit sym) hdur fuel 0
          { s with acquires := s.acquires + 1,
                   out := s.out ++ (led_on flash ++ [Ev.speaker_start]) }
          (Nat.zero_le _) (by omega) hheld
        simpa using h
      · intro _
        rw [perform_act_items]
        simp [List.append_assoc]
  · intro _
    cases more
    · simp [perform]
    · simp only [if_true]
      apply gap_script_run env flash dit fuel hdit hfuel.1
      show speaker_held (s.out ++ acts _) = false
      cases hok : env.acquire s.acquires
      · simp only [Bool.false_eq_true, if_false]
        rw [speaker_held_gap_script]; exact hh
      · simp only [if_true]
        exact speaker_held_tone_script _ _ _

theorem acquire_count_code_script (flash : Bool) (dit : Nat) (acquire : Nat → Bool) :
    ∀ (code : List Char) (a : Nat),
      acquire_count (code_script flash dit acquire a code) = code.length := by
  intro code
  induction code with
  | nil => intro a; rfl
  | cons sym rest ih =>
    intro a
    show acquire_count (_ ++ _) = _
    rw [acquire_count_append, acquire_count_element_script, ih]
    simp; omega

theorem speaker_held_code_script (flash : Bool) (dit : Nat) (acquire : Nat → Bool) :
    ∀ (code : List Char) (a : Nat) (out : List Ev), speaker_held out = false →
      speaker_held (out ++ acts (code_script flash dit acquire a code)) = false := by
  intro code
  induction code with
  | nil => intro a out h; simpa [code_script, acts] using h
  | cons sym rest ih =>
    intro a out h
    show speaker_held (out ++ acts (_ ++ _)) = false
    rw [acts_append, ← List.append_assoc]
    exact ih _ _ (speaker_held_element_script out flash dit _ sym _ h)

theorem flash_red_not_mem_code_script (flash : Bool) (dit : Nat) (acquire : Nat → Bool) :
    ∀ (code : List Char) (a : Nat),
      Ev.flash_red ∉ acts (code_script flash dit acquire a code) := by
  intro code
  induction code with
  | nil => intro a; simp [code_script, acts]
  | cons sym rest ih =>
    intro a
    show Ev.flash_red ∉ acts (_ ++ _)
    rw [acts_append]
    intro h
    rcases List.mem_append.1 h with h | h
    · exact flash_red_not_mem_element_script _ _ _ _ _ h
    · exact ih _ h

/-- The loop over the elements of a code under any cancel behaviour returns,
and it is its script performed. -/
theorem play_code_script (env : PbEnv) (flash : Bool) (dit fuel : Nat)
    (hdit : dit < 4294967296) (hfuel : enough_fuel dit fuel) :
    ∀ (code : List Char) (s : Playback), s.cancelled = false → speaker_held s.out = false →
      play_code env flash dit fuel code s
        = some (perform env.cancel flash
            (code_script flash dit env.acquire s.acquires code) s) := by
  intro code
  induction code with
  | nil => intro s _ _; rfl
  | cons sym rest ih =>
    intro s hc hh
    show and_then (play_element env flash dit fuel sym (decide (rest ≠ [])) s)
        (play_code env flash dit fuel rest)
      = some (perform env.cancel flash
          (element_script flash dit (env.acquire s.acquires) sym (decide (rest ≠ []))
            ++ code_script flash dit env.acquire (s.acquires + 1) rest) s)
    apply and_then_perform env.cancel flash _ _ _ _ s hc
      (play_element_script env flash dit fuel hdit hfuel sym _ s hc hh)
    intro _
    have h := ih
      { s with checks := s.checks + check_count (element_script flash dit
                  (env.acquire s.acquires) sym (decide (rest ≠ []))),
               acquires := s.acquires + acquire_count (element_script flash dit
                  (env.acquire s.acquires) sym (decide (rest ≠ []))),
               out := s.out ++ acts (element_script flash dit
                  (env.acquire s.acquires) sym (decide (rest ≠ []))) }
      hc (speaker_held_element_script s.out flash dit _ sym _ hh)
    rw [h]
    simp only [acquire_count_element_script]

/-- The script of what the playback thread does for a character after the
checkpoint at the top of its loop. -/
theorem char_script_eq (flash : Bool) (dit : Nat) (acquire : Nat → Bool) (a : Nat) (c : Char) :
    char_script flash dit acquire a c
      = Item.check ::
          (if to_upper c = ' ' then gap_script (u32 (7 * dit))
           else
             match playback_lookup (to_upper c) symbol_array morse_array with
             | none => gap_script (u32 (3 * dit))
             | some code =>
               code_script flash dit acquire a code ++ gap_script (u32 (3 * dit))) := rfl

theorem speaker_held_char_script (flash : Bool) (dit : Nat) (acquire : Nat → Bool) (a : Nat)
    (c : Char) (out : List Ev) (h : speaker_held out = false) :
    speaker_held (out ++ acts (char_script flash dit acquire a c)) = false := by
  rw [char_script_eq]
  show speaker_held (out ++ acts (if to_upper c = ' ' then _ else _)) = false
  by_cases hsp : to_upper c = ' '
  · rw [if_pos hsp, speaker_held_gap_script]; exact h
  · rw [if_neg hsp]
    cases hl : playback_lookup (to_upper c) symbol_array morse_array with
    | none =>
      show speaker_held (out ++ acts (gap_script _)) = false
      rw [speaker_held_gap_script]; exact h
    | some code =>
      show speaker_held (out ++ acts (_ ++ gap_script _)) = false
      rw [acts_append, ← List.append_assoc, speaker_held_gap_script]
      exact speaker_held_code_script flash dit acquire code a out h

theorem flash_red_not_mem_char_script (flash : Bool) (dit : Nat) (acquire : Nat → Bool)
    (a : Nat) (c : Char) : Ev.flash_red ∉ acts (char_script flash dit acquire a c) := by
  rw [char_script_eq]
  show Ev.flash_red ∉ acts (if to_upper c = ' ' then _ else _)
  by_cases hsp : to_upper c = ' '
  · rw [if_pos hsp]; exact flash_red_not_mem_gap_script _
  · rw [if_neg hsp]
    cases hl : playback_lookup (to_upper c) symbol_array morse_array with
    | none => exact flash_red_not_mem_gap_script _
    | some code =>
      show Ev.flash_red ∉ acts (_ ++ gap_script _)
      rw [acts_append]
      intro h
      rcases List.mem_append.1 h with h | h
      · exact flash_red_not_mem_code_script _ _ _ _ _ h
      · exact flash_red_not_mem_gap_script _ h

theorem speaker_held_text_script (flash : Bool) (dit : Nat) (acquire : Nat → Bool) :
    ∀ (text : List Char) (a : Nat) (out : List Ev), speaker_held out = false →
      speaker_held (out ++ acts (text_script flash dit acquire a text)) = false := by
  intro text
  induction text with
  | nil => intro a out h; simpa [text_script, acts] using h
  | cons c rest ih =>
    intro a out h
    unfold text_script
    by_cases hnul : c = Char.ofNat 0
    · rw [if_pos hnul]; simpa [acts] using h
    · rw [if_neg hnul, acts_append, ← List.append_assoc]
      exact ih _ _ (speaker_held_char_script flash dit acquire a c out h)

theorem flash_red_not_mem_text_script (flash : Bool) (dit : Nat) (acquire : Nat → Bool) :
    ∀ (text : List Char) (a : Nat),
      Ev.flash_red ∉ acts (text_script flash dit acquire a text) := by
  intro text
  induction text with
  | nil => intro a; simp [text_script, acts]
  | cons c rest ih =>
    intro a
    unfold text_script
    by_cases hnul : c = Char.ofNat 0
    · rw [if_pos hnul]; simp [acts]
    · rw [if_neg hnul, acts_append]
      intro h
      rcases List.mem_append.1 h with h | h
      · exact flash_red_not_mem_char_script _ _ _ _ _ h
      · exact ih _ h

/-- What the playback thread does for a character after the checkpoint at the
top of its loop, under any cancel behaviour: it returns, and it is the rest of
the script of the character performed. -/
theorem rendered_script (env : PbEnv) (flash : Bool) (dit fuel : Nat)
    (hdit : dit < 4294967296) (hfuel : enough_fuel dit fuel) (c : Char) (s : Playback)
    (hc : s.cancelled = false) (hh : speaker_held s.out = false) :
    (if c = ' ' then gap_loop env (u32 (7 * dit)) fuel 0 s
      else
        match playback_lookup c symbol_array morse_array with
        | none => gap_loop env (u32 (3 * dit)) fuel 0 s
        | some code =>
          and_then (play_code env flash dit fuel code s) (gap_loop env (u32 (3 * dit)) fuel 0))
      = some (perform env.cancel flash
          (if c = ' ' then gap_script (u32 (7 * dit))
           else
             match playback_lookup c symbol_array morse_array with
             | none => gap_script (u32 (3 * dit))
             | some code =>
               code_script flash dit env.acquire s.acquires code ++ gap_script (u32 (3 * dit)))
          s) := by
  by_cases hsp : c = ' '
  · rw [if_pos hsp, if_pos hsp]
    exact gap_script_run env flash _ fuel (u32_lt _) hfuel.2.2 s hh
  · rw [if_neg hsp, if_neg hsp]
    cases hl : playback_lookup c symbol_array morse_array with
    | none => exact gap_script_run env flash _ fuel (u32_lt _) hfuel.2.1 s hh
    | some code =>
      show and_then (play_code env flash dit fuel code s) (gap_loop env (u32 (3 * dit)) fuel 0)
        = some (perform env.cancel flash
            (code_script flash dit env.acquire s.acquires code ++ gap_script (u32 (3 * dit))) s)
      apply and_then_perform env.cancel flash _ _ _ _ s hc
        (play_code_script env flash dit fuel hdit hfuel code s hc hh)
      intro _
      exact gap_script_run env flash _ fuel (u32_lt _) hfuel.2.1 _
        (speaker_held_code_script flash dit env.acquire code s.acquires s.out hh)

/-- The loop over the characters of a text under any cancel behaviour and any
results of the acquisitions: it returns, and it is the script of the text
performed. -/
theorem play_text_script (env : PbEnv) (flash : Bool) (dit fuel : Nat)
    (hdit : dit < 4294967296) (hfuel : enough_fuel dit fuel) :
    ∀ (text : List Char) (s : Playback), s.cancelled = false → speaker_held s.out = false →
      play_text env flash dit fuel text s
        = some (perform env.cancel flash
            (text_script flash dit env.acquire s.acquires text) s) := by
  intro text
  induction text with
  | nil => intro s _ _; rfl
  | cons c0 rest ih =>
    intro s hc hh
    by_cases hnul : c0 = Char.ofNat 0
    · simp [play_text, text_script, hnul, perform]
    · have hts : text_script flash dit env.acquire s.acquires (c0 :: rest)
          = char_script flash dit env.acquire s.acquires c0 ++
              text_script flash dit env.acquire
                (s.acquires + acquire_count (char_script flash dit env.acquire s.acquires c0))
                rest := by
        show (if c0 = Char.ofNat 0 then [] else _) = _
        rw [if_neg hnul]
      rw [hts]
      have hcs := char_script_eq flash dit env.acquire s.acquires c0
      have hac : acquire_count (char_script flash dit env.acquire s.acquires c0)
          = acquire_count (if to_upper c0 = ' ' then gap_script (u32 (7 * dit))
              else
                match playback_lookup (to_upper c0) symbol_array morse_array with
                | none => gap_script (u32 (3 * dit))
                | some code =>
                  code_script flash dit env.acquire s.acquires code
                    ++ gap_script (u32 (3 * dit))) := by
        rw [hcs]; rfl
      have hhr : speaker_held (s.out ++ acts (if to_upper c0 = ' ' then gap_script (u32 (7 * dit))
              else
                match playback_lookup (to_upper c0) symbol_array morse_array with
                | none => gap_script (u32 (3 * dit))
                | some code =>
                  code_script flash dit env.acquire s.acquires code
                    ++ gap_script (u32 (3 * dit)))) = false := by
        have h := speaker_held_char_script flash dit env.acquire s.acquires c0 s.out hh
        rw [hcs] at h
        exact h
      rw [hac, hcs, List.cons_append, perform_check]
      unfold play_text
      simp only [hnul, if_false]
      by_cases hcan : env.cancel s.checks = true
      · rw [if_pos hcan, if_pos hcan, hh]
        rfl
      · rw [if_neg hcan, if_neg hcan]
        apply and_then_perform env.cancel flash _ _ _ _ { s with checks := s.checks + 1 } hc
          (rendered_script env flash dit fuel hdit hfuel (to_upper c0)
            { s with checks := s.checks + 1 } hc hh)
        intro _
        exact ih _ hc hhr

theorem before_check_act (k : Nat) (e : Ev) (rest : List Item) :
    before_check k (Item.act e :: rest) = Item.act e :: before_check k rest := by
  cases k <;> rfl

theorem before_check_acquire (k : Nat) (rest : List Item) :
    before_check k (Item.acquire :: rest) = Item.acquire :: before_check k rest := by
  cases k <;> rfl

/-- The part of a script before its checkpoint number `k` holds `k`
checkpoints and is followed in the script by a checkpoint. -/
theorem before_check_spec :
    ∀ (a : List Item) (k : Nat), k < check_count a →
      check_count (before_check k a) = k ∧
      ∃ rest, a = before_check k a ++ Item.check :: rest := by
  intro a
  induction a with
  | nil => intro k h; simp [check_count] at h
  | cons x rest ih =>
    intro k h
    cases x with
    | check =>
      cases k with
      | zero => exact ⟨rfl, rest, rfl⟩
      | succ k =>
        obtain ⟨h1, t, h2⟩ := ih k (by simp [check_count] at h; omega)
        refine ⟨?_, t, ?_⟩
        · show check_count (Item.check :: before_check k rest) = k + 1
          simp [check_count, h1]
        · show Item.check :: rest = Item.check :: before_check k rest ++ Item.check :: t
          rw [List.cons_append, ← h2]
    | acquire =>
      obtain ⟨h1, t, h2⟩ := ih k (by simpa [check_count] using h)
      rw [before_check_acquire]
      refine ⟨by simpa [check_count] using h1, t, ?_⟩
      rw [List.cons_append, ← h2]
    | act e =>
      obtain ⟨h1, t, h2⟩ := ih k (by simpa [check_count] using h)
      rw [before_check_act]
      refine ⟨by simpa [check_count] using h1, t, ?_⟩
      rw [List.cons_append, ← h2]

/-- A script performed under a flag that its checkpoint number `k` is the first
to see: the items before that checkpoint are performed, then the cancel
actions, and nothing else. -/
theorem perform_cut (cancel : Nat → Bool) (flash : Bool) :
    ∀ (a : List Item) (s : Playback) (k : Nat), k < check_count a →
      cancel (s.checks + k) = true → (∀ j, j < k → cancel (s.checks + j) = false) →
      perform cancel flash a s
        = { s with checks := s.checks + k + 1,
                   acquires := s.acquires + acquire_count (before_check k a),
                   out := s.out ++ acts (before_check k a)
                     ++ cancel_tail flash (speaker_held (s.out ++ acts (before_check k a))),
                   cancelled := true } := by
  intro a
  induction a with
  | nil => intro s k h; simp [check_count] at h
  | cons x rest ih =>
    intro s k h hk hlt
    cases x with
    | check =>
      rw [perform_check]
      cases k with
      | zero =>
        have h0 : cancel s.checks = true := by simpa using hk
        rw [if_pos h0]
        simp [before_check, acts, acquire_count]
      | succ k =>
        have h0 : cancel s.checks = false := by simpa using hlt 0 (by omega)
        rw [h0]
        simp only [Bool.false_eq_true, if_false]
        rw [ih { s with checks := s.checks + 1 } k (by simp [check_count] at h; omega)
          (by
            have : s.checks + 1 + k = s.checks + (k + 1) := by omega
            show cancel (s.checks + 1 + k) = true
            rw [this]; exact hk)
          (by
            intro j hj
            have : s.checks + 1 + j = s.checks + (j + 1) := by omega
            show cancel (s.checks + 1 + j) = false
            rw [this]; exact hlt (j + 1) (by omega))]
        simp [before_check, acts, acquire_count]
        omega
    | acquire =>
      rw [perform_acquire, before_check_acquire,
        ih { s with acquires := s.acquires + 1 } k (by simpa [check_count] using h) hk hlt]
      simp [acts, acquire_count]
      omega
    | act e =>
      rw [perform_act, before_check_act,
        ih { s with out := s.out ++ [e] } k (by simpa [check_count] using h) hk hlt]
      simp [acts, acquire_count]

/-! ## Playback: the outcome of a run -/

/-- C14. A playback run is modelled by the trace of its actions, with the
cancel flag sampled at each checkpoint (`env.cancel k` at checkpoint number
`k`). The script `S` of the text lists, character by character, the
checkpoints and the actions of the run in order. For every text, every 32-bit
dit and enough fuel the run returns with `pb_running = false`, and it is the
script performed under the flag. It is cancelled exactly when a checkpoint of
the script sees the flag set. When checkpoint number `k` is the first to see
it, the run makes `k + 1` checks and its trace is exactly the actions that the
script has before that checkpoint, followed by the cancel actions and nothing
else: stop and release of the speaker exactly when the speaker is held, then
the red flash; the red flash occurs once, as the last action, the speaker is
released at the end, and no delay and no tone start is among the cancel
actions. When no checkpoint sees the flag the trace is exactly the actions of
the whole script, so every character of the text is rendered, without a red
flash and with the speaker released. -/
theorem cancellation_outcome (env : PbEnv) (flash : Bool) (dit fuel : Nat) (text : List Char)
    (hdit : dit < 4294967296) (hfuel : enough_fuel dit fuel) :
    ∃ (S : List Item) (r : Playback),
      S = text_script flash dit env.acquire 0 text ∧
      morse_code_worker_playback_thread env fuel flash dit text = some r ∧
      r.pb_running = false ∧
      r = { perform env.cancel flash S playback_start with pb_running := false } ∧
      (r.cancelled = true ↔ ∃ k, k < check_count S ∧ env.cancel k = true) ∧
      (∀ k, k < check_count S → env.cancel k = true → (∀ j, j < k → env.cancel j = false) →
        r.cancelled = true ∧ r.checks = k + 1 ∧
        r.out = acts (before_check k S)
          ++ cancel_tail flash (speaker_held (acts (before_check k S))) ∧
        check_count (before_check k S) = k ∧
        (∃ rest, S = before_check k S ++ Item.check :: rest) ∧
        r.out.count Ev.flash_red = 1 ∧ r.out.getLast? = some Ev.flash_red ∧
        speaker_held r.out = false) ∧
      ((∀ k, k < check_count S → env.cancel k = false) →
        r.cancelled = false ∧ r.checks = check_count S ∧ r.out = acts S ∧
        Ev.flash_red ∉ r.out ∧ speaker_held r.out = false) ∧
      cancel_tail flash true
        = [Ev.speaker_stop, Ev.speaker_release] ++ led_off flash ++ [Ev.flash_red] ∧
      cancel_tail flash false = [Ev.flash_red] ∧
      ∀ held, ∀ e ∈ cancel_tail flash held, e ≠ Ev.speaker_start ∧ e.is_delay = false := by
  have hrun : play_text env flash dit fuel text playback_start
      = some (perform env.cancel flash (text_script flash dit env.acquire 0 text)
          playback_start) :=
    play_text_script env flash dit fuel hdit hfuel text playback_start rfl speaker_held_start
  have hnf : Ev.flash_red ∉ acts (text_script flash dit env.acquire 0 text) :=
    flash_red_not_mem_text_script flash dit env.acquire text 0
  refine ⟨text_script flash dit env.acquire 0 text,
    { perform env.cancel flash (text_script flash dit env.acquire 0 text) playback_start
        with pb_running := false },
    rfl, playback_thread_of_text env fuel flash dit text _ hrun, rfl, rfl, ?_, ?_, ?_, rfl, rfl,
    fun held => (cancel_tail_shape flash held).1⟩
  · show (perform env.cancel flash _ playback_start).cancelled = true ↔ _
    rw [perform_cancelled_iff env.cancel flash _ playback_start rfl]
    constructor
    · rintro ⟨k, -, hk, hc⟩
      exact ⟨k, by simpa [playback_start] using hk, hc⟩
    · rintro ⟨k, hk, hc⟩
      exact ⟨k, Nat.zero_le _, by simpa [playback_start] using hk, hc⟩
  · intro k hk hck hlt
    have hcut := perform_cut env.cancel flash (text_script flash dit env.acquire 0 text)
      playback_start k hk (by simpa [playback_start] using hck)
      (by intro j hj; simpa [playback_start] using hlt j hj)
    obtain ⟨hcount, rest, hrest⟩ :=
      before_check_spec (text_script flash dit env.acquire 0 text) k hk
    have hout : (perform env.cancel flash (text_script flash dit env.acquire 0 text)
        playback_start).out
        = acts (before_check k (text_script flash dit env.acquire 0 text))
          ++ cancel_tail flash
              (speaker_held (acts (before_check k (text_script flash dit env.acquire 0 text)))) := by
      rw [hcut]
      simp [playback_start]
    have hpre : Ev.flash_red ∉ acts (before_check k (text_script flash dit env.acquire 0 text)) := by
      intro hm
      apply hnf
      rw [hrest, acts_append]
      exact List.mem_append_left _ hm
    refine ⟨?_, ?_, hout, hcount, ⟨rest, hrest⟩, ?_, ?_, ?_⟩
    · show (perform env.cancel flash _ playback_start).cancelled = true
      rw [hcut]
    · show (perform env.cancel flash _ playback_start).checks = k + 1
      rw [hcut]
      simp [playback_start]
    · show (perform env.cancel flash _ playback_start).out.count Ev.flash_red = 1
      rw [hout]; exact count_flash_red_cut flash _ hpre
    · show (perform env.cancel flash _ playback_start).out.getLast? = some Ev.flash_red
      rw [hout]; exact getLast_cut flash _
    · show speaker_held (perform env.cancel flash _ playback_start).out = false
      rw [hout]; exact speaker_held_cancel_tail flash _
  · intro hall
    have hclean := perform_clean env.cancel flash (text_script flash dit env.acquire 0 text)
      playback_start (by intro k _ hk; exact hall k (by simpa [playback_start] using hk))
    have hout : (perform env.cancel flash (text_script flash dit env.acquire 0 text)
        playback_start).out = acts (text_script flash dit env.acquire 0 text) := by
      rw [hclean]
      simp [playback_start]
    refine ⟨?_, ?_, hout, ?_, ?_⟩
    · show (perform env.cancel flash _ playback_start).cancelled = false
      rw [hclean]
      rfl
    · show (perform env.cancel flash _ playback_start).checks = _
      rw [hclean]
      simp [playback_start]
    · show Ev.flash_red ∉ (perform env.cancel flash _ playback_start).out
      rw [hout]; exact hnf
    · show speaker_held (perform env.cancel flash _ playback_start).out = false
      rw [hout]
      have h := speaker_held_text_script flash dit env.acquire text 0 [] rfl
      simpa using h

/-- Witness of `cancellation_outcome`: the letter E at dit 10 with the cancel
flag set from checkpoint number 2 on, the checkpoint before the second slice of
the tone. The run makes three checks and its trace is the LED, the tone start
and the first slice, then the stop and release of the speaker, the LED off and
the red flash. -/
theorem cancellation_outcome_witness :
    10 < 4294967296 ∧ enough_fuel 10 15 ∧
    ∃ r : Playback,
      morse_code_worker_playback_thread (cancel_from 2) 15 true 10 ['E'] = some r ∧
      r.cancelled = true ∧ r.checks = 3 ∧ r.pb_running = false ∧
      r.out = [Ev.led_blue_on, Ev.speaker_start, Ev.delay 5, Ev.speaker_stop,
        Ev.speaker_release, Ev.led_blue_off, Ev.flash_red] := by
  refine ⟨by decide, by decide, ?_⟩
  obtain ⟨S, r, hS, hrun, hpb, -, -, hcut, -⟩ :=
    cancellation_outcome (cancel_from 2) true 10 15 ['E'] (by decide) (by decide)
  have hS2 : S = [Item.check, Item.acquire, Item.act Ev.led_blue_on, Item.act Ev.speaker_start,
      Item.check, Item.act (Ev.delay 5), Item.check, Item.act (Ev.delay 5),
      Item.act Ev.speaker_stop, Item.act Ev.speaker_release, Item.act Ev.led_blue_off,
      Item.check, Item.act (Ev.delay 5), Item.check, Item.act (Ev.delay 5),
      Item.check, Item.act (Ev.delay 5), Item.check, Item.act (Ev.delay 5),
      Item.check, Item.act (Ev.delay 5), Item.check, Item.act (Ev.delay 5)] := by
    rw [hS]; decide
  have h := hcut 2 (by rw [hS2]; decide) rfl (by intro j hj; interval_cases j <;> rfl)
  refine ⟨r, hrun, h.1, h.2.1, hpb, ?_⟩
  rw [h.2.2.1, hS2]
  decide

end MorseCode
